import Mathlib

/-!
# Verification of the FM-index read mapper

Shallow embedding of the `read-mapping` repository: the run-length encoded
BWT (`run_length_encoding.rs`), the FM-index (`fm_index.rs`) and the
seed-and-extend read mapper (`read_mapping_index.rs`), together with proofs
of the documented properties.

Rust strings are modelled as `List Char`, `usize` as `Nat` (subtraction is
truncated; all verified paths stay in range), and operations that can panic
return `Option` (`none` = panic).
-/

namespace ReadMapping

/-- The four nucleotide characters accepted by `NucStratified::get`. -/
def isNuc (c : Char) : Bool :=
  c = 'A' || c = 'C' || c = 'G' || c = 'T'

/-- One run of `RunLengthEncodedString` (`RunLengthEncodingEntry` in
`run_length_encoding.rs`): a character and its repeat count. -/
structure RLEEntry where
  char : Char
  count : Nat
deriving Repr, DecidableEq

/-- `RunLengthEncodingCheckpoint`: index of the run covering a block start
and the number of positions of that run already consumed before it. -/
structure RLECheckpoint where
  entry_index : Nat
  offset : Nat
deriving Repr, DecidableEq

/-- `RunLengthEncodedString`: runs, block checkpoints and the block size. -/
structure RunLengthEncodedString where
  seq : List RLEEntry
  index_to_seq_checkpoints : List RLECheckpoint
  block_size : Nat
deriving Repr, DecidableEq

/-- The scan loop of `RunLengthEncodedString::new`, processing the remaining
characters with the in-progress state `(maybe_prev_char, count)` and the
accumulated runs and checkpoints. -/
def rleLoop (B : Nat) :
    List Char → Nat → Option Char → Nat → List RLEEntry → List RLECheckpoint →
    List RLEEntry × List RLECheckpoint
  | [], _, maybePrev, count, seqAcc, cpAcc =>
    match maybePrev with
    | none => (seqAcc, cpAcc)
    | some prev => (seqAcc ++ [⟨prev, count⟩], cpAcc)
  | ch :: rest, index, maybePrev, count, seqAcc, cpAcc =>
    let st : List RLEEntry × Nat :=
      match maybePrev with
      | some prev => if prev ≠ ch then (seqAcc ++ [⟨prev, count⟩], 0) else (seqAcc, count)
      | none => (seqAcc, count)
    let cpAcc' :=
      if index % B = 0 then cpAcc ++ [⟨st.1.length, st.2⟩] else cpAcc
    rleLoop B rest (index + 1) (some ch) (st.2 + 1) st.1 cpAcc'

/-- `RunLengthEncodedString::new`. -/
def RunLengthEncodedString.new (s : List Char) (block_size : Nat) :
    RunLengthEncodedString :=
  let p := rleLoop block_size s 0 none 0 [] []
  ⟨p.1, p.2, block_size⟩

/-- Expansion of a run list back into a string (each character repeated by
its count); the reference semantics of the RLE representation. -/
def expandRuns (es : List RLEEntry) : List Char :=
  (es.map fun e => List.replicate e.count e.char).flatten

/-- Total count of characters held by a run list. -/
def sumCounts (es : List RLEEntry) : Nat :=
  (es.map RLEEntry.count).sum

/-- The `while current_str_index <= target_index` loop of
`count_matches_from_checkpoint`, recursing over the remaining runs.
Running past the end of the runs while the guard still holds is the
out-of-bounds panic of `self.seq[rle_seq_index]`, hence `none`. -/
def countLoop (target_char : Char) (target_index : Nat) :
    List RLEEntry → Nat → Nat → Option Nat
  | entries, current_str_index, match_count =>
    if current_str_index ≤ target_index then
      match entries with
      | [] => none
      | e :: rest =>
        countLoop target_char target_index rest (current_str_index + e.count)
          (match_count +
            if e.char = target_char then
              min e.count (target_index - current_str_index + 1)
            else 0)
    else some match_count

/-- `RunLengthEncodedString::count_matches_from_checkpoint`: the number of
occurrences of `target_char` in the interval `(checkpoint_index, target_index]`.
`none` models the explicit panic on a misaligned checkpoint and the
out-of-range index panics. -/
def RunLengthEncodedString.count_matches_from_checkpoint
    (rle : RunLengthEncodedString) (target_char : Char)
    (checkpoint_index target_index : Nat) : Option Nat :=
  if checkpoint_index % rle.block_size ≠ 0 then none
  else if checkpoint_index = target_index then some 0
  else do
    let checkpoint ← rle.index_to_seq_checkpoints[checkpoint_index / rle.block_size]?
    let first_rle_entry ← rle.seq[checkpoint.entry_index]?
    let following_entry_start_index :=
      checkpoint_index + first_rle_entry.count - checkpoint.offset
    let match_count :=
      if first_rle_entry.char = target_char then
        if target_index ≥ following_entry_start_index then
          first_rle_entry.count - checkpoint.offset - 1
        else
          target_index - checkpoint_index
      else 0
    countLoop target_char target_index (rle.seq.drop (checkpoint.entry_index + 1))
      following_entry_start_index match_count

/-- Scan runs from a known start position until the run covering `i`. -/
def charAtLoop : List RLEEntry → Nat → Nat → Option Char
  | [], _, _ => none
  | e :: rest, start, i =>
    if i < start + e.count then some e.char else charAtLoop rest (start + e.count) i

/-- Modelled from the spec: `RLEString.char_at` (`get_char_from_position` is
called on `compressed_bwt` in `fm_index.rs` but its body is not in the
repository sources). Per §4.2 it returns the character of the run covering
position `i`, located through the nearest checkpoint at index `⌊i/B⌋`; the
block-start position `⌊i/B⌋·B` is the `(offset+1)`-th character of the
checkpointed run, so that run starts at string position `⌊i/B⌋·B − offset`. -/
def RunLengthEncodedString.get_char_from_position
    (rle : RunLengthEncodedString) (i : Nat) : Option Char := do
  let checkpoint ← rle.index_to_seq_checkpoints[i / rle.block_size]?
  charAtLoop (rle.seq.drop checkpoint.entry_index)
    ((i / rle.block_size) * rle.block_size - checkpoint.offset) i

/-- Block-start validity of a checkpoint with respect to the final run list:
the checkpointed run exists, the prefix of runs before it expands to exactly
`pos − offset` characters, and position `pos` falls inside that run. -/
def CpValid (seq : List RLEEntry) (cp : RLECheckpoint) (pos : Nat) : Prop :=
  cp.entry_index < seq.length ∧
  sumCounts (seq.take cp.entry_index) + cp.offset = pos ∧
  cp.offset < (seq.getD cp.entry_index ⟨'A', 0⟩).count

/-- `NucStratified<T>` (`nucleotide_stratified.rs`): one value per nucleotide. -/
structure NucStratified (T : Type) where
  a : T
  c : T
  g : T
  t : T
deriving Repr, DecidableEq

/-- `NucStratified::get`; `none` models the panic on a non-nucleotide. -/
def NucStratified.get {T : Type} (ns : NucStratified T) (nucleotide : Char) : Option T :=
  match nucleotide with
  | 'A' => some ns.a
  | 'C' => some ns.c
  | 'G' => some ns.g
  | 'T' => some ns.t
  | _ => none

/-- `NucStratified::get_mut` followed by an update; `none` models the panic
on a non-nucleotide. -/
def NucStratified.modify {T : Type} (ns : NucStratified T) (nucleotide : Char)
    (f : T → T) : Option (NucStratified T) :=
  match nucleotide with
  | 'A' => some { ns with a := f ns.a }
  | 'C' => some { ns with c := f ns.c }
  | 'G' => some { ns with g := f ns.g }
  | 'T' => some { ns with t := f ns.t }
  | _ => none

/-- Byte-wise lexicographic comparison of strings (`≤`), the order the
suffix-array crate sorts by. -/
def lexLe : List Char → List Char → Bool
  | [], _ => true
  | _ :: _, [] => false
  | a :: as, b :: bs => if a < b then true else if b < a then false else lexLe as bs

/-- Suffix order on indices of `s`. -/
def suffixLe (s : List Char) (i j : Nat) : Prop :=
  lexLe (s.drop i) (s.drop j) = true

instance (s : List Char) : DecidableRel (suffixLe s) := fun i j => by
  unfold suffixLe
  infer_instance

/-- Modelled from the spec: `construct_suffix_array` delegates to the
`suffix_array` crate (libdivsufsort), whose code is not in the repository;
§4.3 requires a deterministic permutation of `{0,…,n−1}` sorted by the
lexicographic suffix order of §3. -/
def construct_suffix_array (str : List Char) : List Nat :=
  List.insertionSort (suffixLe str) (List.range str.length)

/-- `construct_bwt`: `L[i] = str[(SA[i] + n − 1) mod n]`. -/
def construct_bwt (str : List Char) (suffix_array : List Nat) : List Char :=
  suffix_array.map (fun lex_pos => str.getD ((lex_pos + str.length - 1) % str.length) '$')

/-- `sample_suffix_array`: keep the SA entries whose value is divisible by
the sampling step, keyed by their SA index (the `HashMap` is modelled as an
association list with distinct keys). -/
def sample_suffix_array (suffix_array : List Nat)
    (suffix_array_sampling_step_size : Nat) : List (Nat × Nat) :=
  suffix_array.enum.filter (fun p => p.2 % suffix_array_sampling_step_size == 0)

/-- `get_first_bwt_column_index`: first-column offsets computed from the
nucleotide counts of the BWT. -/
def get_first_bwt_column_index (nuc_counts : NucStratified Nat) : NucStratified Nat :=
  { a := 1
    c := 1 + nuc_counts.a
    g := 1 + nuc_counts.a + nuc_counts.c
    t := 1 + nuc_counts.a + nuc_counts.c + nuc_counts.g }

/-- The counting loop of `FMIndex::new`: update per-nucleotide running
counts (the sentinel contributes to none) and append a checkpoint of all
four counts whenever `i mod S_r = 0`. -/
def rankLoop (rank_sampling_step_size : Nat) :
    List Char → Nat → NucStratified Nat → NucStratified (List Nat) →
    Option (NucStratified Nat × NucStratified (List Nat))
  | [], _, counts, ranks => some (counts, ranks)
  | nuc :: rest, i, counts, ranks =>
    (if nuc = '$' then some counts else counts.modify nuc (· + 1)).bind fun counts =>
      let ranks :=
        if i % rank_sampling_step_size = 0 then
          (⟨ranks.a ++ [counts.a], ranks.c ++ [counts.c], ranks.g ++ [counts.g],
            ranks.t ++ [counts.t]⟩ : NucStratified (List Nat))
        else ranks
      rankLoop rank_sampling_step_size rest (i + 1) counts ranks

/-- `FMIndex` (`fm_index.rs`). -/
structure FMIndex where
  compressed_bwt : RunLengthEncodedString
  sampled_suffix_array : List (Nat × Nat)
  first_bwt_column_index : NucStratified Nat
  ranks : NucStratified (List Nat)
  rank_sampling_step_size : Nat
  suffix_array_sampling_step_size : Nat
  seq_len : Nat

/-- `FMIndex::new`; assumes a sentinel-terminated `str`. `none` models the
panic inside the counting loop on a character outside `Σ ∪ {$}`. -/
def FMIndex.new (str : List Char)
    (suffix_array_sampling_step_size rank_sampling_step_size : Nat) : Option FMIndex := do
  let suffix_array := construct_suffix_array str
  let bwt := construct_bwt str suffix_array
  let compressed_bwt := RunLengthEncodedString.new bwt rank_sampling_step_size
  let sampled_suffix_array := sample_suffix_array suffix_array suffix_array_sampling_step_size
  let (counts, ranks) ← rankLoop rank_sampling_step_size bwt 0 ⟨0, 0, 0, 0⟩ ⟨[], [], [], []⟩
  let first_bwt_column_index := get_first_bwt_column_index counts
  some { compressed_bwt, sampled_suffix_array, first_bwt_column_index, ranks,
         rank_sampling_step_size, suffix_array_sampling_step_size, seq_len := str.length }

/-- `FMIndex::get_rank_for_index`: checkpointed rank of `nucleotide` in
`L[0..index]` (inclusive). -/
def FMIndex.get_rank_for_index (fm : FMIndex) (nucleotide : Char) (index : Nat) :
    Option Nat := do
  let checkpoint_index := index / fm.rank_sampling_step_size
  let rks ← fm.ranks.get nucleotide
  let rank_checkpoint ← rks[checkpoint_index]?
  let missing_nuc_instances ← fm.compressed_bwt.count_matches_from_checkpoint nucleotide
      (checkpoint_index * fm.rank_sampling_step_size) index
  some (rank_checkpoint + missing_nuc_instances)

/-- `FMIndex::last_to_first_mapping`: `C[c] + rank − 1`. -/
def FMIndex.last_to_first_mapping (fm : FMIndex) (nucleotide : Char) (rank : Nat) :
    Option Nat := do
  let first_occurence_index ← fm.first_bwt_column_index.get nucleotide
  some (first_occurence_index + rank - 1)

/-- The `match bottom` expression of `FMIndex::lookup` computing
`bottom_rank`: rank 1 when `bottom = 0`, otherwise one more than the rank at
`bottom − 1`. -/
def bottom_rank_of (fm : FMIndex) (nucleotide : Char) : Nat → Option Nat
  | 0 => some 1
  | Nat.succ b => (fm.get_rank_for_index nucleotide b).bind fun r => some (r + 1)

/-- The backward-search loop of `FMIndex::lookup`, processing the pattern
characters already reversed. Returns the final `[bottom, top)` pair; the
early exit returns the empty range `(0, 0)`. -/
def lookupLoop (fm : FMIndex) : List Char → Nat → Nat → Option (Nat × Nat)
  | [], bottom, top => some (bottom, top)
  | nucleotide :: rest, bottom, top => do
    let bottom_rank ← bottom_rank_of fm nucleotide bottom
    let top_rank ← fm.get_rank_for_index nucleotide (top - 1)
    if bottom_rank > top_rank then
      some (0, 0)
    else do
      let b ← fm.last_to_first_mapping nucleotide bottom_rank
      let t ← fm.last_to_first_mapping nucleotide top_rank
      lookupLoop fm rest b (t + 1)

/-- `FMIndex::lookup`: backward search for `target_str`, starting from the
full range `[0, seq_len)`. -/
def FMIndex.lookup (fm : FMIndex) (target_str : List Char) : Option (Nat × Nat) :=
  lookupLoop fm target_str.reverse 0 fm.seq_len

/-- The walk-back loop of `FMIndex::get_genome_position`: the `for steps in
0..S_s` loop with `fuel = S_s − steps`; exhausting the fuel is the
`panic!("DIDN'T FIND SA ENTRY WHEN SHOULD HAVE")` after the loop. -/
def gpLoop (fm : FMIndex) : Nat → Nat → Nat → Option Nat
  | 0, _, _ => none
  | fuel + 1, steps, current_index =>
    match fm.sampled_suffix_array.lookup current_index with
    | some suffix_array_entry => some (suffix_array_entry + steps)
    | none => do
      let nucleotide ← fm.compressed_bwt.get_char_from_position current_index
      let rank ← fm.get_rank_for_index nucleotide current_index
      let next ← fm.last_to_first_mapping nucleotide rank
      gpLoop fm fuel (steps + 1) next

/-- `FMIndex::get_genome_position`. -/
def FMIndex.get_genome_position (fm : FMIndex) (target_index : Nat) : Option Nat :=
  gpLoop fm fm.suffix_array_sampling_step_size 0 target_index

/-- The loop of `FMIndex::count_extension_matches`; when the extension is
exhausted the accumulated `match_count` equals `extension.len()`, matching
the source's final `return extension.len()`. -/
def cemLoop (fm : FMIndex) : List Char → Nat → Nat → Option Nat
  | [], match_count, _ => some match_count
  | read_nuc :: rest, match_count, current_index => do
    let nucleotide ← fm.compressed_bwt.get_char_from_position current_index
    if nucleotide ≠ read_nuc then
      some match_count
    else do
      let rank ← fm.get_rank_for_index nucleotide current_index
      let next ← fm.last_to_first_mapping nucleotide rank
      cemLoop fm rest (match_count + 1) next

/-- `FMIndex::count_extension_matches`. -/
def FMIndex.count_extension_matches (fm : FMIndex) (match_index : Nat)
    (extension : List Char) : Option Nat :=
  cemLoop fm extension 0 match_index

/-- A sentinel-terminated reference: nucleotides followed by one `'$'`. -/
def SentinelTerminated (s : List Char) : Prop :=
  ∃ g, s = g ++ ['$'] ∧ ∀ ch ∈ g, isNuc ch = true


/-- Strict lexicographic order on strings. -/
def lexLt (u v : List Char) : Prop :=
  lexLe u v = true ∧ u ≠ v

instance : DecidableRel lexLt := fun u v => by
  unfold lexLt
  infer_instance

/-- Strict suffix order on indices of `s`. -/
def suffixLt (s : List Char) (i j : Nat) : Prop :=
  lexLt (s.drop i) (s.drop j)

instance (s : List Char) : DecidableRel (suffixLt s) := fun i j => by
  unfold suffixLt
  infer_instance

/-- The suffix array of `s` read as a function (out-of-range default 0). -/
def SAf (s : List Char) (k : Nat) : Nat :=
  (construct_suffix_array s).getD k 0

/-- The BWT of `s` as built by `FMIndex::new`. -/
def bwtOf (s : List Char) : List Char :=
  construct_bwt s (construct_suffix_array s)

/-- The BWT of `s` read as a function (out-of-range default `'$'`). -/
def Lf (s : List Char) (i : Nat) : Char :=
  (bwtOf s).getD i '$'

/-- The pattern `pat` occurs in `s` at position `p`. -/
def occursAt (s pat : List Char) (p : Nat) : Prop :=
  (s.drop p).take pat.length = pat

instance (s pat : List Char) : DecidablePred (occursAt s pat) := fun p => by
  unfold occursAt
  infer_instance

/-- Number of suffix-array rows strictly below the suffix starting at `p`. -/
def rankPos (s : List Char) (p : Nat) : Nat :=
  ((Finset.range s.length).filter (fun q => suffixLt s q p)).card

/-- Number of suffixes of `s` lexicographically strictly below `pat`. -/
def lowIdx (s : List Char) (pat : List Char) : Nat :=
  ((Finset.range s.length).filter (fun q => lexLt (s.drop q) pat)).card

/-- Number of occurrences of `pat` in `s` (among positions `< s.length`). -/
def occCount (s : List Char) (pat : List Char) : Nat :=
  ((Finset.range s.length).filter (fun p => occursAt s pat p)).card

/-- Per-nucleotide character counts of a string. -/
def countsOf (l : List Char) : NucStratified Nat :=
  ⟨l.count 'A', l.count 'C', l.count 'G', l.count 'T'⟩

/-- The rank-checkpoint vector for character `c` over `l` with step `S`:
entry `k` counts `c` in `l[0..k·S]` inclusive. -/
def ranksFor (S : Nat) (l : List Char) (c : Char) : List Nat :=
  (List.range ((l.length + S - 1) / S)).map (fun k => (l.take (k * S + 1)).count c)

/-- Number of positions of `s` whose character is strictly below `c`. -/
def charLtCard (s : List Char) (c : Char) : Nat :=
  ((Finset.range s.length).filter (fun q => s.getD q '$' < c)).card

/-- The first-column offset `C[c]` as a plain value. -/
def firstColNat (s : List Char) (c : Char) : Nat :=
  if c = 'A' then 1
  else if c = 'C' then 1 + (bwtOf s).count 'A'
  else if c = 'G' then 1 + (bwtOf s).count 'A' + (bwtOf s).count 'C'
  else 1 + (bwtOf s).count 'A' + (bwtOf s).count 'C' + (bwtOf s).count 'G'

/-- The FMIndex value `FMIndex::new` produces on a sentinel-terminated
reference (see `fmIndex_new_eq`). -/
def fmOf (s : List Char) (S_s S_r : Nat) : FMIndex :=
  { compressed_bwt := RunLengthEncodedString.new (bwtOf s) S_r
    sampled_suffix_array := sample_suffix_array (construct_suffix_array s) S_s
    first_bwt_column_index := get_first_bwt_column_index (countsOf (bwtOf s))
    ranks := ⟨ranksFor S_r (bwtOf s) 'A', ranksFor S_r (bwtOf s) 'C',
              ranksFor S_r (bwtOf s) 'G', ranksFor S_r (bwtOf s) 'T'⟩
    rank_sampling_step_size := S_r
    suffix_array_sampling_step_size := S_s
    seq_len := s.length }

/-- `MapReadResult` (`read_mapping_index.rs`). -/
structure MapReadResult where
  genome_position : Nat
  match_length : Nat
  seed_attempt : Nat
deriving Repr, DecidableEq

/-- `ReadMappingIndex` (`read_mapping_index.rs`). -/
structure ReadMappingIndex where
  forwards_fm_index : FMIndex
  reverse_fm_index : FMIndex
  genome_length : Nat

/-- `ReadMappingIndex::new`: both FM-indexes are built with sampling steps
128; `none` models a panic inside `FMIndex::new`. -/
def ReadMappingIndex.new (genome : List Char) : Option ReadMappingIndex := do
  let forwards_fm_index ← FMIndex.new (genome ++ ['$']) 128 128
  let reverse_fm_index ← FMIndex.new (genome.reverse ++ ['$']) 128 128
  some { forwards_fm_index, reverse_fm_index, genome_length := genome.length + 1 }

/-- Rust string slicing `&l[a..b]` (all slices taken by `map_read` are
in bounds under its precondition). -/
def slice (l : List Char) (a b : Nat) : List Char :=
  (l.drop a).take (b - a)

/-- `HashMap::insert`: replace any existing binding of the key. -/
def mapInsert (m : List (Nat × Nat)) (k v : Nat) : List (Nat × Nat) :=
  (m.filter (fun p => p.1 != k)) ++ [(k, v)]

/-- Sequential `Iterator::map` with a fallible (panicking) body: the pairs
produced for each element in order, or `none` on the first panic. -/
def mapPairs (f : Nat → Option (Nat × Nat)) : List Nat → Option (List (Nat × Nat))
  | [] => some []
  | x :: xs => do
    let p ← f x
    let rest ← mapPairs f xs
    some (p :: rest)

/-- `Iterator::collect::<HashMap<_, _>>` on a list of key-value pairs. -/
def collectMap (l : List (Nat × Nat)) : List (Nat × Nat) :=
  l.foldl (fun m p => mapInsert m p.1 p.2) []

/-- `Iterator::max_by_key(|(_, length_ref)| *length_ref)`: the last
maximal element in iteration order (`none` on an empty iterator). -/
def maxByKeyLast : List (Nat × Nat) → Option (Nat × Nat)
  | [] => none
  | p :: rest => some (rest.foldl (fun acc q => if acc.2 ≤ q.2 then q else acc) p)

/-- The `for lookup_result in forwards_lookup_results` loop of `map_read`:
left-extend each forward seed hit, moving the reverse-phase entry at
`forwards_genome_pos` to the extension start. The `← removed` bind models
the `remove(&forwards_genome_pos).unwrap()` panic on a missing key. -/
def forwardLoop (idx : ReadMappingIndex) (forwards_extension : List Char) :
    List Nat → List (Nat × Nat) → Option (List (Nat × Nat))
  | [], m => some m
  | lookup_result :: rest, m => do
    let forwards_genome_pos ←
      idx.forwards_fm_index.get_genome_position lookup_result
    let forwards_extension_length ←
      idx.forwards_fm_index.count_extension_matches lookup_result
        forwards_extension
    let genome_pos := forwards_genome_pos - forwards_extension_length
    let reverse_match_length ← m.lookup forwards_genome_pos
    forwardLoop idx forwards_extension rest
      (mapInsert (m.filter (fun p => p.1 != forwards_genome_pos)) genome_pos
        (forwards_extension_length + reverse_match_length))

/-- One iteration of `map_read`'s seed loop, up to the construction of the
final `match_length_map`: `some none` is the `continue` on an unmatched
seed, `some (some m)` carries the candidate map of a matched seed, `none`
is any panic inside the iteration. A range-valued `lookup` iterates
`bottom, …, top − 1` (`List.range'`). -/
def attemptMap (idx : ReadMappingIndex) (read reversed_read : List Char)
    (seed_length seed_attempt : Nat) : Option (Option (List (Nat × Nat))) := do
  let seed_start_index := seed_attempt * seed_length
  let seed_end_index := seed_start_index + seed_length
  let reverse_seed_start_index := read.length - seed_end_index
  let reverse_seed_end_index := read.length - seed_start_index
  let reverse_seed := slice reversed_read reverse_seed_start_index
    reverse_seed_end_index
  let (bottom, top) ← idx.reverse_fm_index.lookup reverse_seed
  let reverse_lookup_results := List.range' bottom (top - bottom)
  if reverse_lookup_results.isEmpty then
    some none
  else do
    let reverse_extension := read.drop seed_end_index
    let pairs ← mapPairs (fun lookup_result => do
      let reverse_genome_pos ←
        idx.reverse_fm_index.get_genome_position lookup_result
      let extension_length ←
        idx.reverse_fm_index.count_extension_matches lookup_result
          reverse_extension
      some (idx.genome_length - reverse_genome_pos - seed_length - 1,
        seed_length + extension_length)) reverse_lookup_results
    let match_length_map := collectMap pairs
    let forwards_extension := slice reversed_read
      (read.length - seed_start_index) read.length
    if 0 < forwards_extension.length then do
      let forwards_seed := slice read seed_start_index seed_end_index
      let (fb, ft) ← idx.forwards_fm_index.lookup forwards_seed
      let final_map ← forwardLoop idx forwards_extension
        (List.range' fb (ft - fb)) match_length_map
      some (some final_map)
    else
      some (some match_length_map)

/-- The tail of one seed-loop iteration: on a matched seed (`some` map),
pick the longest match from the candidate map — `σ` is the iteration order
of `HashMap::into_iter`, and the `← maxByKeyLast` bind models the
`.unwrap()` panic on an empty map — and return it tagged with the seed
attempt; on an unmatched seed propagate the `continue`. -/
def selectLongest (σ : List (Nat × Nat) → List (Nat × Nat)) (seed_attempt : Nat) :
    Option (List (Nat × Nat)) → Option (Option MapReadResult)
  | none => some none
  | some final_map => do
    let longest_match ← maxByKeyLast (σ final_map)
    some (some ⟨longest_match.1, longest_match.2, seed_attempt⟩)

/-- One full iteration of `map_read`'s seed loop. -/
def attemptResult (idx : ReadMappingIndex) (read reversed_read : List Char)
    (seed_length seed_attempt : Nat)
    (σ : List (Nat × Nat) → List (Nat × Nat)) : Option (Option MapReadResult) :=
  (attemptMap idx read reversed_read seed_length seed_attempt).bind
    (selectLongest σ seed_attempt)

/-- `return Some(MapReadResult ...)` on a returning attempt, otherwise the
`continue` to the rest of the loop. -/
def loopContinue (next : Option (Option MapReadResult)) :
    Option MapReadResult → Option (Option MapReadResult)
  | some res => some (some res)
  | none => next

/-- The `for seed_attempt in 0..min(read.len()/seed_length, max_seeds)`
loop: `fuel` is the number of remaining attempts; exhausting it is the
`return None` after the loop. -/
def mapReadLoop (idx : ReadMappingIndex) (read reversed_read : List Char)
    (seed_length : Nat) (σ : List (Nat × Nat) → List (Nat × Nat)) :
    Nat → Nat → Option (Option MapReadResult)
  | _, 0 => some none
  | seed_attempt, fuel + 1 =>
    (attemptResult idx read reversed_read seed_length seed_attempt σ).bind
      (loopContinue
        (mapReadLoop idx read reversed_read seed_length σ (seed_attempt + 1) fuel))

/-- `ReadMappingIndex::map_read`, parameterized by the `HashMap` iteration
order `σ` (Rust's order is unspecified; theorems quantify over permutation
orders). The outer `none` is a panic — in particular the
`assert!(read.len() >= seed_length)` — and the inner `none` is Rust's
`None`. -/
def ReadMappingIndex.map_read (idx : ReadMappingIndex) (read : List Char)
    (seed_length max_seeds : Nat)
    (σ : List (Nat × Nat) → List (Nat × Nat)) : Option (Option MapReadResult) :=
  if read.length < seed_length then none
  else
    mapReadLoop idx read read.reverse seed_length σ 0
      (min (read.length / seed_length) max_seeds)


theorem expandRuns_append (a b : List RLEEntry) :
    expandRuns (a ++ b) = expandRuns a ++ expandRuns b := by
  simp [expandRuns]

theorem expandRuns_cons (e : RLEEntry) (es : List RLEEntry) :
    expandRuns (e :: es) = List.replicate e.count e.char ++ expandRuns es := by
  simp [expandRuns]

theorem length_expandRuns (es : List RLEEntry) :
    (expandRuns es).length = sumCounts es := by
  simp only [expandRuns, sumCounts, List.length_flatten, List.map_map]
  rw [List.map_congr_left]
  intro e _
  simp

theorem rleLoop_expand (B : Nat) :
    ∀ (rest : List Char) (i : Nat) (prev : Char) (count : Nat) seqAcc cpAcc,
    expandRuns (rleLoop B rest i (some prev) count seqAcc cpAcc).1
      = expandRuns seqAcc ++ List.replicate count prev ++ rest
  | [], i, prev, count, seqAcc, cpAcc => by
    simp [rleLoop, expandRuns_append, expandRuns]
  | ch :: rest, i, prev, count, seqAcc, cpAcc => by
    by_cases h : prev = ch
    · subst h
      simp only [rleLoop, ne_eq, not_true_eq_false, if_false, ite_not]
      rw [rleLoop_expand B rest]
      rw [List.replicate_succ' count prev]
      simp
    · simp only [rleLoop, ne_eq, h, not_false_eq_true, if_true, ite_not, if_neg h]
      rw [rleLoop_expand B rest]
      simp [expandRuns_append, expandRuns]

/-- RLE round-trip: the runs produced by `RunLengthEncodedString::new`
expand back to the input string. -/
theorem expand_new (s : List Char) (B : Nat) :
    expandRuns (RunLengthEncodedString.new s B).seq = s := by
  cases s with
  | nil => rfl
  | cons ch rest =>
    show expandRuns (rleLoop B (ch :: rest) 0 none 0 [] []).1 = ch :: rest
    simp only [rleLoop, Nat.zero_mod, if_pos rfl]
    rw [rleLoop_expand B rest]
    simp [expandRuns]

theorem sumCounts_new (s : List Char) (B : Nat) :
    sumCounts (RunLengthEncodedString.new s B).seq = s.length := by
  rw [← length_expandRuns, expand_new]

theorem sumCounts_append (a b : List RLEEntry) :
    sumCounts (a ++ b) = sumCounts a + sumCounts b := by
  simp [sumCounts]

/-- Shape of the loop result: the accumulated runs are kept unchanged and the
in-progress run is flushed right after them, with a final count at least the
current one. -/
theorem rleLoop_shape (B : Nat) :
    ∀ (rest : List Char) (i : Nat) (prev : Char) (count : Nat) seqAcc cpAcc,
    ∃ fin tail, (rleLoop B rest i (some prev) count seqAcc cpAcc).1
        = seqAcc ++ ⟨prev, fin⟩ :: tail ∧ count ≤ fin
  | [], i, prev, count, seqAcc, cpAcc => ⟨count, [], by simp [rleLoop], Nat.le_refl _⟩
  | ch :: rest, i, prev, count, seqAcc, cpAcc => by
    by_cases h : prev = ch
    · subst h
      simp only [rleLoop, ne_eq, not_true_eq_false, if_false, ite_not]
      obtain ⟨fin, tail, heq, hle⟩ := rleLoop_shape B rest (i + 1) prev (count + 1) seqAcc _
      exact ⟨fin, tail, heq, Nat.le_of_succ_le hle⟩
    · simp only [rleLoop, ne_eq, h, not_false_eq_true, if_true, ite_not, if_neg h]
      obtain ⟨fin, tail, heq, _⟩ :=
        rleLoop_shape B rest (i + 1) ch 1 (seqAcc ++ [⟨prev, count⟩]) _
      refine ⟨count, ⟨ch, fin⟩ :: tail, ?_, Nat.le_refl _⟩
      rw [heq]
      simp

/-- Validity of an already-recorded checkpoint relative to the loop state:
either it points into the finished runs `seqAcc`, or it points at the run in
progress (index `seqAcc.length`) with an offset below the current count. -/
def CpOK (seqAcc : List RLEEntry) (count : Nat) (cp : RLECheckpoint) (pos : Nat) : Prop :=
  (cp.entry_index < seqAcc.length ∧
    sumCounts (seqAcc.take cp.entry_index) + cp.offset = pos ∧
    cp.offset < (seqAcc.getD cp.entry_index ⟨'A', 0⟩).count) ∨
  (cp.entry_index = seqAcc.length ∧ sumCounts seqAcc + cp.offset = pos ∧ cp.offset < count)

theorem CpOK.mono {seqAcc count count' cp pos} (h : CpOK seqAcc count cp pos)
    (hle : count ≤ count') : CpOK seqAcc count' cp pos := by
  rcases h with h | ⟨h1, h2, h3⟩
  · exact Or.inl h
  · exact Or.inr ⟨h1, h2, Nat.lt_of_lt_of_le h3 hle⟩

theorem CpOK.push {seqAcc count cp pos prev count'} (h : CpOK seqAcc count cp pos) :
    CpOK (seqAcc ++ [⟨prev, count⟩]) count' cp pos := by
  rcases h with ⟨h1, h2, h3⟩ | ⟨h1, h2, h3⟩
  · refine Or.inl ⟨?_, ?_, ?_⟩
    · simp
      omega
    · rwa [List.take_append_of_le_length (Nat.le_of_lt h1)]
    · rwa [List.getD_eq_getElem?_getD, List.getElem?_append_left h1,
        ← List.getD_eq_getElem?_getD]
  · refine Or.inl ⟨?_, ?_, ?_⟩
    · simp [h1]
    · rw [h1, List.take_left]
      exact h2
    · rw [h1, List.getD_eq_getElem?_getD, List.getElem?_append_right (Nat.le_refl _)]
      simpa using h3

theorem CpOK.toValid {seqAcc count cp pos} {prev : Char} {fin : Nat} {tail : List RLEEntry}
    (h : CpOK seqAcc count cp pos) (hle : count ≤ fin) :
    CpValid (seqAcc ++ ⟨prev, fin⟩ :: tail) cp pos := by
  rcases h with ⟨h1, h2, h3⟩ | ⟨h1, h2, h3⟩
  · refine ⟨?_, ?_, ?_⟩
    · simp
      omega
    · rwa [List.take_append_of_le_length (Nat.le_of_lt h1)]
    · rwa [List.getD_eq_getElem?_getD, List.getElem?_append_left h1,
        ← List.getD_eq_getElem?_getD]
  · refine ⟨?_, ?_, ?_⟩
    · simp [h1]
    · rw [h1, List.take_left]
      exact h2
    · rw [h1, List.getD_eq_getElem?_getD, List.getElem?_append_right (Nat.le_refl _)]
      simpa using Nat.lt_of_lt_of_le h3 hle

theorem blocks_val_push {B i : Nat} (hB : 1 ≤ B) (h : i % B = 0) :
    (i + B - 1) / B = i / B := by
  obtain ⟨q, rfl⟩ : ∃ q, i = B * q :=
    ⟨i / B, (Nat.mul_div_cancel' (Nat.dvd_of_mod_eq_zero h)).symm⟩
  have h1 : B * q + B - 1 = B - 1 + B * q := by omega
  rw [h1, Nat.add_mul_div_left _ _ hB, Nat.div_eq_of_lt (by omega), Nat.zero_add,
    Nat.mul_div_cancel_left _ hB]

theorem blocks_step_push {B i : Nat} (hB : 1 ≤ B) (h : i % B = 0) :
    (i + B - 1) / B + 1 = (i + 1 + B - 1) / B := by
  obtain ⟨q, rfl⟩ : ∃ q, i = B * q :=
    ⟨i / B, (Nat.mul_div_cancel' (Nat.dvd_of_mod_eq_zero h)).symm⟩
  rw [blocks_val_push hB h, Nat.mul_div_cancel_left _ hB]
  have h2 : B * q + 1 + B - 1 = B * (q + 1) := by ring_nf; omega
  rw [h2, Nat.mul_div_cancel_left _ hB]

theorem blocks_step_nopush {B i : Nat} (hB : 1 ≤ B) (h : i % B ≠ 0) :
    (i + B - 1) / B = (i + 1 + B - 1) / B := by
  have e1 : i + 1 + B - 1 = (i + B - 1) + 1 := by omega
  rw [e1, Nat.succ_div, if_neg, Nat.add_zero]
  intro hdvd
  have e2 : (i + B - 1) + 1 = i + B := by omega
  rw [e2] at hdvd
  have : B ∣ i := (Nat.dvd_add_self_right).mp hdvd
  exact h (Nat.mod_eq_zero_of_dvd this)

theorem length_lt_blocks {B i k : Nat} (hB : 1 ≤ B) (hk : k * B < i) :
    k < (i + B - 1) / B := by
  have h1 : i + B - 1 = (i - 1) + B := by omega
  rw [h1, Nat.add_div_right _ hB]
  have : k * B ≤ i - 1 := by omega
  have hkd : k ≤ (i - 1) / B := Nat.le_div_iff_mul_le hB |>.mpr (by omega)
  omega

/-- Main loop invariant for checkpoints: every recorded checkpoint stays
valid with respect to the final run list, and every block start gets one. -/
theorem rleLoop_cps_valid (B : Nat) (hB : 1 ≤ B) :
    ∀ (rest : List Char) (i : Nat) (prev : Char) (count : Nat) seqAcc cpAcc,
    sumCounts seqAcc + count = i →
    1 ≤ count →
    (∀ k, k * B < i → ∃ cp, cpAcc[k]? = some cp ∧ CpOK seqAcc count cp (k * B)) →
    cpAcc.length = (i + B - 1) / B →
    ∀ k, k * B < i + rest.length →
      ∃ cp, (rleLoop B rest i (some prev) count seqAcc cpAcc).2[k]? = some cp ∧
        CpValid (rleLoop B rest i (some prev) count seqAcc cpAcc).1 cp (k * B)
  | [], i, prev, count, seqAcc, cpAcc => by
    intro hsum hcount hcps _ k hk
    simp only [List.length_nil, Nat.add_zero] at hk
    obtain ⟨cp, hget, hok⟩ := hcps k hk
    refine ⟨cp, ?_, ?_⟩
    · simpa [rleLoop] using hget
    · have : (rleLoop B [] i (some prev) count seqAcc cpAcc).1
          = seqAcc ++ ⟨prev, count⟩ :: [] := by simp [rleLoop]
      rw [this]
      exact hok.toValid (Nat.le_refl _)
  | ch :: rest, i, prev, count, seqAcc, cpAcc => by
    intro hsum hcount hcps hlen k hk
    by_cases h : prev = ch
    · subst h
      simp only [rleLoop, ne_eq, not_true_eq_false, if_false, ite_not]
      by_cases hpb : i % B = 0
      · simp only [if_pos hpb]
        refine rleLoop_cps_valid B hB rest (i + 1) prev (count + 1) seqAcc
          (cpAcc ++ [⟨seqAcc.length, count⟩]) (by omega) (by omega) ?_ ?_ k
          (by simpa [Nat.add_comm, Nat.add_assoc, Nat.add_left_comm] using hk)
        · intro k' hk'
          rcases Nat.lt_or_ge (k' * B) i with hlt | hge
          · obtain ⟨cp, hget, hok⟩ := hcps k' hlt
            refine ⟨cp, ?_, hok.mono (Nat.le_succ _)⟩
            rw [List.getElem?_append_left (hlen ▸ length_lt_blocks hB hlt)]
            exact hget
          · have hkeq : k' * B = i := by omega
            have hkval : k' = cpAcc.length := by
              rw [hlen, blocks_val_push hB hpb, ← hkeq, Nat.mul_div_cancel _ (by omega)]
            refine ⟨⟨seqAcc.length, count⟩, ?_, Or.inr ⟨rfl, ?_, ?_⟩⟩
            · rw [hkval, List.getElem?_append_right (Nat.le_refl _)]
              simp
            · show sumCounts seqAcc + count = k' * B
              omega
            · show count < count + 1
              omega
        · simp only [List.length_append, List.length_cons, List.length_nil]
          rw [hlen]
          exact blocks_step_push hB hpb
      · simp only [if_neg hpb]
        refine rleLoop_cps_valid B hB rest (i + 1) prev (count + 1) seqAcc cpAcc
          (by omega) (by omega) ?_ ?_ k
          (by simpa [Nat.add_comm, Nat.add_assoc, Nat.add_left_comm] using hk)
        · intro k' hk'
          have hlt : k' * B < i := by
            rcases Nat.lt_or_ge (k' * B) i with hlt | hge
            · exact hlt
            · exfalso
              have : k' * B = i := by omega
              exact hpb (this ▸ Nat.mul_mod_left k' B)
          obtain ⟨cp, hget, hok⟩ := hcps k' hlt
          exact ⟨cp, hget, hok.mono (Nat.le_succ _)⟩
        · rw [hlen]
          exact blocks_step_nopush hB hpb
    · simp only [rleLoop, ne_eq, h, not_false_eq_true, if_true, ite_not, if_neg h]
      have hsc : sumCounts [(⟨prev, count⟩ : RLEEntry)] = count := rfl
      have hsum' : sumCounts (seqAcc ++ [⟨prev, count⟩]) + 1 = i + 1 := by
        rw [sumCounts_append, hsc]
        omega
      by_cases hpb : i % B = 0
      · simp only [if_pos hpb]
        refine rleLoop_cps_valid B hB rest (i + 1) ch 1 (seqAcc ++ [⟨prev, count⟩])
          (cpAcc ++ [⟨(seqAcc ++ [(⟨prev, count⟩ : RLEEntry)]).length, 0⟩]) hsum'
          (Nat.le_refl _) ?_ ?_ k
          (by simpa [Nat.add_comm, Nat.add_assoc, Nat.add_left_comm] using hk)
        · intro k' hk'
          rcases Nat.lt_or_ge (k' * B) i with hlt | hge
          · obtain ⟨cp, hget, hok⟩ := hcps k' hlt
            refine ⟨cp, ?_, hok.push⟩
            rw [List.getElem?_append_left (hlen ▸ length_lt_blocks hB hlt)]
            exact hget
          · have hkeq : k' * B = i := by omega
            have hkval : k' = cpAcc.length := by
              rw [hlen, blocks_val_push hB hpb, ← hkeq, Nat.mul_div_cancel _ (by omega)]
            refine ⟨⟨(seqAcc ++ [(⟨prev, count⟩ : RLEEntry)]).length, 0⟩, ?_,
              Or.inr ⟨rfl, ?_, Nat.le_refl _⟩⟩
            · rw [hkval, List.getElem?_append_right (Nat.le_refl _)]
              simp
            · show sumCounts (seqAcc ++ [⟨prev, count⟩]) + 0 = k' * B
              rw [sumCounts_append, hsc]
              omega
        · simp only [List.length_append, List.length_cons, List.length_nil]
          rw [hlen]
          exact blocks_step_push hB hpb
      · simp only [if_neg hpb]
        refine rleLoop_cps_valid B hB rest (i + 1) ch 1 (seqAcc ++ [⟨prev, count⟩])
          cpAcc hsum' (Nat.le_refl _) ?_ ?_ k
          (by simpa [Nat.add_comm, Nat.add_assoc, Nat.add_left_comm] using hk)
        · intro k' hk'
          have hlt : k' * B < i := by
            rcases Nat.lt_or_ge (k' * B) i with hlt | hge
            · exact hlt
            · exfalso
              have : k' * B = i := by omega
              exact hpb (this ▸ Nat.mul_mod_left k' B)
          obtain ⟨cp, hget, hok⟩ := hcps k' hlt
          exact ⟨cp, hget, hok.push⟩
        · rw [hlen]
          exact blocks_step_nopush hB hpb

/-- Every block start `k·B` inside the input gets a checkpoint at list index
`k`, valid with respect to the final run list. -/
theorem rle_checkpoint_valid (s : List Char) (B : Nat) (hB : 1 ≤ B) (k : Nat)
    (hk : k * B < s.length) :
    ∃ cp, (RunLengthEncodedString.new s B).index_to_seq_checkpoints[k]? = some cp ∧
      CpValid (RunLengthEncodedString.new s B).seq cp (k * B) := by
  cases s with
  | nil => simp at hk
  | cons ch rest =>
    show ∃ cp, (rleLoop B (ch :: rest) 0 none 0 [] []).2[k]? = some cp ∧
      CpValid (rleLoop B (ch :: rest) 0 none 0 [] []).1 cp (k * B)
    simp only [rleLoop, Nat.zero_mod, if_pos rfl]
    refine rleLoop_cps_valid B hB rest 1 ch 1 [] [⟨0, 0⟩] rfl (Nat.le_refl _) ?_ ?_ k ?_
    · intro k' hk'
      have hk0 : k' * B = 0 := by omega
      have : k' = 0 := by
        rcases Nat.eq_zero_or_pos k' with h0 | h0
        · exact h0
        · exfalso
          have : 1 * 1 ≤ k' * B := Nat.mul_le_mul h0 hB
          omega
      subst this
      exact ⟨⟨0, 0⟩, rfl, Or.inr ⟨rfl, by simp [sumCounts, hk0], Nat.le_refl _⟩⟩
    · simp only [List.length_cons, List.length_nil]
      have : 1 + B - 1 = B := by omega
      rw [this, Nat.div_self (by omega)]
    · simp only [List.length_cons] at hk
      omega

theorem sumCounts_cons (e : RLEEntry) (rest : List RLEEntry) :
    sumCounts (e :: rest) = e.count + sumCounts rest := by
  simp [sumCounts]

theorem charAtLoop_spec :
    ∀ (entries : List RLEEntry) (start i : Nat),
    start ≤ i → i < start + sumCounts entries →
    charAtLoop entries start i = (expandRuns entries)[i - start]?
  | [], start, i => by
    intro h1 h2
    simp [sumCounts] at h2
    omega
  | e :: rest, start, i => by
    intro h1 h2
    rw [expandRuns_cons]
    by_cases h : i < start + e.count
    · rw [charAtLoop, if_pos h, List.getElem?_append_left (by simp; omega),
        List.getElem?_replicate_of_lt (by omega)]
    · rw [charAtLoop, if_neg h,
        charAtLoop_spec rest (start + e.count) i (by omega)
          (by rw [sumCounts_cons] at h2; omega),
        List.getElem?_append_right (by simp; omega)]
      congr 1
      simp
      omega

/-- `char_at` returns the character of the input string at position `i`. -/
theorem get_char_from_position_spec (s : List Char) (B : Nat) (hB : 1 ≤ B) (i : Nat)
    (hi : i < s.length) :
    (RunLengthEncodedString.new s B).get_char_from_position i = s[i]? := by
  obtain ⟨cp, hcp, hvalid⟩ := rle_checkpoint_valid s B hB (i / B)
    (Nat.lt_of_le_of_lt (Nat.div_mul_le_self i B) hi)
  obtain ⟨hlt, hsum, hoff⟩ := hvalid
  set rle := RunLengthEncodedString.new s B with hrle
  have hbs : rle.block_size = B := rfl
  rw [RunLengthEncodedString.get_char_from_position, hbs, hcp]
  show charAtLoop (rle.seq.drop cp.entry_index) (i / B * B - cp.offset) i = s[i]?
  set pre := sumCounts (rle.seq.take cp.entry_index) with hpre
  have hstart : i / B * B - cp.offset = pre := by omega
  rw [hstart]
  have hsplit : expandRuns (rle.seq.take cp.entry_index)
      ++ expandRuns (rle.seq.drop cp.entry_index) = s := by
    rw [← expandRuns_append, List.take_append_drop, expand_new]
  have hlen_pre : (expandRuns (rle.seq.take cp.entry_index)).length = pre :=
    length_expandRuns _
  have hsum_drop : pre + sumCounts (rle.seq.drop cp.entry_index) = s.length := by
    have := sumCounts_append (rle.seq.take cp.entry_index) (rle.seq.drop cp.entry_index)
    rw [List.take_append_drop] at this
    rw [hpre, ← this, sumCounts_new]
  have hpre_le : pre ≤ i := by
    have : i / B * B ≤ i := Nat.div_mul_le_self i B
    omega
  rw [charAtLoop_spec _ pre i hpre_le (by omega)]
  rw [← hsplit, List.getElem?_append_right (by omega)]
  congr 1
  omega

theorem countLoop_spec :
    ∀ (entries : List RLEEntry) (c : Char) (target start mc : Nat),
    target < start + sumCounts entries →
    countLoop c target entries start mc =
      some (mc + ((expandRuns entries).take (target + 1 - start)).count c)
  | [], c, target, start, mc => by
    intro h
    rw [sumCounts] at h
    simp only [List.map_nil, List.sum_nil, Nat.add_zero] at h
    rw [countLoop, if_neg (by omega)]
    simp [expandRuns]
  | e :: rest, c, target, start, mc => by
    intro h
    by_cases hle : start ≤ target
    · rw [countLoop, if_pos hle,
        countLoop_spec rest c target (start + e.count) _
          (by rw [sumCounts_cons] at h; omega)]
      rw [expandRuns_cons, List.take_append_eq_append_take, List.count_append]
      congr 1
      rw [List.take_replicate, List.count_replicate, List.length_replicate]
      have harith : target + 1 - start - e.count = target + 1 - (start + e.count) := by
        omega
      rw [harith]
      by_cases hc : e.char = c
      · have h1 : (e.char == c) = true := by simp [hc]
        rw [if_pos h1, if_pos hc]
        omega
      · have h1 : ¬((e.char == c) = true) := by simp [hc]
        rw [if_neg h1, if_neg hc]
        omega
    · rw [countLoop, if_neg hle]
      have : target + 1 - start = 0 := by omega
      rw [this]
      simp

/-- Number of occurrences of `c` in `s` at the positions of the half-open
interval `(a, b]` — the quantity `count_matches_from_checkpoint` computes. -/
def countSeg (s : List Char) (c : Char) (a b : Nat) : Nat :=
  ((s.take (b + 1)).drop (a + 1)).count c

theorem countSeg_eq_take_drop (s : List Char) (c : Char) (a b : Nat) :
    countSeg s c a b = ((s.drop (a + 1)).take (b - a)).count c := by
  rw [countSeg, List.drop_take]
  congr 2
  omega

theorem countSeg_zero (s : List Char) (c : Char) (a b : Nat) (h : b ≤ a) :
    countSeg s c a b = 0 := by
  rw [countSeg_eq_take_drop]
  have : b - a = 0 := by omega
  rw [this]
  simp

theorem countSeg_split (s : List Char) (c : Char) (a m b : Nat)
    (ham : a ≤ m) (hmb : m ≤ b) :
    countSeg s c a b = countSeg s c a m + countSeg s c m b := by
  rw [countSeg_eq_take_drop, countSeg_eq_take_drop, countSeg_eq_take_drop]
  have hba : b - a = (m - a) + (b - m) := by omega
  rw [hba, List.take_add, List.count_append, List.drop_drop]
  have : a + 1 + (m - a) = m + 1 := by omega
  rw [this]

theorem countSeg_const (s : List Char) (c d : Char) (a b : Nat)
    (hb : b < s.length)
    (h : ∀ j, a < j → j ≤ b → s[j]? = some d) :
    countSeg s c a b = if d = c then b - a else 0 := by
  rcases Nat.lt_or_ge a b with hab | hab
  · rw [countSeg_eq_take_drop]
    have hlen : ((s.drop (a + 1)).take (b - a)).length = b - a := by
      simp
      omega
    have hL : (s.drop (a + 1)).take (b - a) = List.replicate (b - a) d := by
      have := List.eq_replicate_of_mem (a := d)
        (l := (s.drop (a + 1)).take (b - a)) ?_
      · rwa [hlen] at this
      · intro x hx
        obtain ⟨idx, hidx⟩ := List.mem_iff_getElem?.mp hx
        have hidxlt : idx < b - a := by
          by_contra hge
          rw [List.getElem?_take_eq_none (by omega)] at hidx
          exact Option.noConfusion hidx
        rw [List.getElem?_take_of_lt hidxlt, List.getElem?_drop] at hidx
        have := h (a + 1 + idx) (by omega) (by omega)
        rw [this] at hidx
        exact (Option.some_inj.mp hidx).symm
    rw [hL, List.count_replicate]
    by_cases hc : d = c
    · rw [if_pos (by simp [hc]), if_pos hc]
    · rw [if_neg (by simp [hc]), if_neg hc]
  · rw [countSeg_zero s c a b hab]
    have : b - a = 0 := by omega
    rw [this]
    simp

/-- `count_matches_from_checkpoint` counts occurrences over `(k·B, i]`. -/
theorem count_matches_spec (s : List Char) (B : Nat) (hB : 1 ≤ B) (c : Char) (k i : Nat)
    (hki : k * B ≤ i) (hi : i < s.length) :
    (RunLengthEncodedString.new s B).count_matches_from_checkpoint c (k * B) i
      = some (countSeg s c (k * B) i) := by
  set rle := RunLengthEncodedString.new s B with hrle
  have hbs : rle.block_size = B := rfl
  rw [RunLengthEncodedString.count_matches_from_checkpoint, hbs]
  rw [if_neg (by simp [Nat.mul_mod_left])]
  by_cases heq : k * B = i
  · rw [if_pos heq, countSeg_zero s c (k * B) i (by omega)]
  · rw [if_neg heq]
    have hkilt : k * B < i := Nat.lt_of_le_of_ne hki heq
    obtain ⟨cp, hcp, hlt, hsum, hoff⟩ := rle_checkpoint_valid s B hB k (by omega)
    have hdiv : k * B / B = k := Nat.mul_div_cancel k (show 0 < B by omega)
    rw [hdiv, hcp]
    have hfirst : rle.seq[cp.entry_index]? = some (rle.seq[cp.entry_index]) :=
      List.getElem?_eq_getElem hlt
    set e := rle.seq[cp.entry_index] with he
    have hoff' : cp.offset < e.count := by
      rwa [List.getD_eq_getElem?_getD, hfirst] at hoff
    show ((rle.seq[cp.entry_index]?).bind fun first_rle_entry =>
        countLoop c i (rle.seq.drop (cp.entry_index + 1))
          (k * B + first_rle_entry.count - cp.offset)
          (if first_rle_entry.char = c then
            if i ≥ k * B + first_rle_entry.count - cp.offset then
              first_rle_entry.count - cp.offset - 1
            else i - k * B
          else 0)) = some (countSeg s c (k * B) i)
    rw [hfirst, Option.some_bind]
    set pre := sumCounts (rle.seq.take cp.entry_index) with hpre
    set following := k * B + e.count - cp.offset with hfollowing
    set mc0 := if e.char = c then
        (if i ≥ following then e.count - cp.offset - 1 else i - k * B)
      else 0 with hmc0
    show countLoop c i (rle.seq.drop (cp.entry_index + 1)) following mc0
      = some (countSeg s c (k * B) i)
    have hfol : following = pre + e.count := by omega
    have hdropeq : rle.seq.drop cp.entry_index = e :: rle.seq.drop (cp.entry_index + 1) :=
      List.drop_eq_getElem_cons hlt
    have hsplit : expandRuns (rle.seq.take cp.entry_index)
        ++ (List.replicate e.count e.char ++ expandRuns (rle.seq.drop (cp.entry_index + 1)))
        = s := by
      rw [← expandRuns_cons, ← hdropeq, ← expandRuns_append, List.take_append_drop,
        expand_new]
    have hlenA : (expandRuns (rle.seq.take cp.entry_index)).length = pre :=
      length_expandRuns _
    have hsumtot : pre + (e.count + sumCounts (rle.seq.drop (cp.entry_index + 1)))
        = s.length := by
      have h1 := sumCounts_append (rle.seq.take cp.entry_index)
        (rle.seq.drop cp.entry_index)
      rw [List.take_append_drop, hdropeq, sumCounts_cons] at h1
      rw [hpre, ← h1, sumCounts_new]
    have hrunchar : ∀ j, pre ≤ j → j < pre + e.count → s[j]? = some e.char := by
      intro j hj1 hj2
      rw [← hsplit, List.getElem?_append_right (by omega),
        List.getElem?_append_left (by simp; omega), hlenA,
        List.getElem?_replicate_of_lt (by omega)]
    have hdropC : s.drop following = expandRuns (rle.seq.drop (cp.entry_index + 1)) := by
      rw [← hsplit, ← List.append_assoc, List.drop_append_eq_append_drop,
        List.drop_eq_nil_of_le (by simp [hlenA]; omega)]
      have : following - (expandRuns (rle.seq.take cp.entry_index)
          ++ List.replicate e.count e.char).length = 0 := by
        simp [hlenA]
        omega
      rw [this, List.nil_append, List.drop_zero]
    rw [countLoop_spec _ c i following mc0 (by omega)]
    congr 1
    have hXeq : ((expandRuns (rle.seq.drop (cp.entry_index + 1))).take (i + 1 - following)).count c
        = ((s.drop following).take (i + 1 - following)).count c := by
      rw [hdropC]
    rcases Nat.lt_or_ge i following with hcase | hcase
    · -- target inside the checkpointed run
      have hz : i + 1 - following = 0 := by omega
      rw [hz]
      simp only [List.take_zero, List.count_nil]
      rw [countSeg_const s c e.char (k * B) i hi
        (fun j hj1 hj2 => hrunchar j (by omega) (by omega))]
      rw [hmc0]
      by_cases hc : e.char = c
      · rw [if_pos hc, if_pos hc, if_neg (show ¬ i ≥ following by omega)]
        omega
      · rw [if_neg hc, if_neg hc]
    · -- target beyond the checkpointed run
      have hf1 : 1 ≤ following := by omega
      rw [countSeg_split s c (k * B) (following - 1) i (by omega) (by omega)]
      have hseg1 : countSeg s c (k * B) (following - 1)
          = if e.char = c then e.count - cp.offset - 1 else 0 := by
        rw [countSeg_const s c e.char (k * B) (following - 1) (by omega)
          (fun j hj1 hj2 => hrunchar j (by omega) (by omega))]
        by_cases hc : e.char = c
        · rw [if_pos hc, if_pos hc]
          omega
        · rw [if_neg hc, if_neg hc]
      have hseg2 : countSeg s c (following - 1) i
          = ((s.drop following).take (i + 1 - following)).count c := by
        rw [countSeg_eq_take_drop]
        have h1 : following - 1 + 1 = following := by omega
        have h2 : i - (following - 1) = i + 1 - following := by omega
        rw [h1, h2]
      rw [hseg1, hseg2, ← hXeq, hmc0]
      by_cases hc : e.char = c
      · rw [if_pos hc, if_pos hc, if_pos (show i ≥ following by omega)]
      · rw [if_neg hc, if_neg hc]

/-- Claim C6, counterexample: for `s = "AA"` and `B = 1`,
`count_matches_from_checkpoint('A', 0, n−1)` returns 1, not the total
number of occurrences of `'A'` in `s` (which is 2): the function counts the
half-open interval `(0, n−1]`, deliberately excluding position 0. -/
theorem C6_counterexample :
    (RunLengthEncodedString.new ['A', 'A'] 1).count_matches_from_checkpoint 'A' 0
        (['A', 'A'].length - 1) = some 1 ∧
      (['A', 'A'].count 'A') = 2 := by
  constructor
  · rfl
  · rfl

/-- Claim C6 (amended): for every input string `s` and block size `B ≥ 1`,
concatenating the runs of the `RunLengthEncodedString` built from `s`
reproduces `s` exactly, and for every character `c`,
`count_matches_from_checkpoint(c, 0, n−1)` equals the number of occurrences
of `c` at positions 1..n−1 of `s` (the count over the half-open interval
`(0, n−1]`, hence excluding position 0). -/
theorem C6_rle_roundtrip_and_count (s : List Char) (B : Nat) (hB : 1 ≤ B) (c : Char) :
    expandRuns (RunLengthEncodedString.new s B).seq = s ∧
      (RunLengthEncodedString.new s B).count_matches_from_checkpoint c 0 (s.length - 1)
        = some ((s.drop 1).count c) := by
  refine ⟨expand_new s B, ?_⟩
  rcases Nat.lt_or_ge s.length 2 with hn | hn
  · have h0 : s.length - 1 = 0 := by omega
    rw [h0, RunLengthEncodedString.count_matches_from_checkpoint]
    rw [if_neg (by simp [Nat.zero_mod]), if_pos rfl]
    rcases s with _ | ⟨a, s'⟩
    · simp
    · rcases s' with _ | ⟨b, s''⟩
      · simp
      · simp only [List.length_cons] at hn
        omega
  · have := count_matches_spec s B hB c 0 (s.length - 1) (by omega) (by omega)
    simp only [Nat.zero_mul] at this
    rw [this]
    congr 1
    rw [countSeg, Nat.sub_add_cancel (by omega), List.take_of_length_le (Nat.le_refl _)]

/-- Witness for `C6_rle_roundtrip_and_count` at a concrete input. -/
theorem C6_rle_roundtrip_and_count_witness :
    expandRuns (RunLengthEncodedString.new ['A', 'C', 'C'] 2).seq = ['A', 'C', 'C'] ∧
      (RunLengthEncodedString.new ['A', 'C', 'C'] 2).count_matches_from_checkpoint 'C' 0
        (['A', 'C', 'C'].length - 1) = some ((['A', 'C', 'C'].drop 1).count 'C') :=
  C6_rle_roundtrip_and_count ['A', 'C', 'C'] 2 (by decide) 'C'

theorem lexLe_nil (v : List Char) : lexLe [] v = true := rfl

theorem lexLe_cons_nil (a : Char) (as : List Char) : lexLe (a :: as) [] = false := rfl

theorem lexLe_refl : ∀ u : List Char, lexLe u u = true
  | [] => rfl
  | a :: as => by simp [lexLe, lexLe_refl as]

theorem lexLe_cons_same (a : Char) (u v : List Char) :
    lexLe (a :: u) (a :: v) = lexLe u v := by
  simp [lexLe]

theorem lexLe_cons_of_lt {a b : Char} (h : a < b) (u v : List Char) :
    lexLe (a :: u) (b :: v) = true := by
  simp only [lexLe]
  rw [if_pos h]

theorem lexLe_cons_of_gt {a b : Char} (h : b < a) (u v : List Char) :
    lexLe (a :: u) (b :: v) = false := by
  simp only [lexLe]
  rw [if_neg (lt_asymm h), if_pos h]

theorem lexLe_total : ∀ u v : List Char, lexLe u v = true ∨ lexLe v u = true
  | [], _ => Or.inl rfl
  | _ :: _, [] => Or.inr rfl
  | a :: as, b :: bs => by
    rcases lt_trichotomy a b with h | h | h
    · exact Or.inl (lexLe_cons_of_lt h as bs)
    · subst h
      rcases lexLe_total as bs with h2 | h2
      · exact Or.inl (by rw [lexLe_cons_same]; exact h2)
      · exact Or.inr (by rw [lexLe_cons_same]; exact h2)
    · exact Or.inr (lexLe_cons_of_lt h bs as)

theorem lexLe_antisymm : ∀ u v : List Char, lexLe u v = true → lexLe v u = true → u = v
  | [], [], _, _ => rfl
  | [], _ :: _, _, h2 => by
    rw [lexLe_cons_nil] at h2
    exact Bool.noConfusion h2
  | _ :: _, [], h1, _ => by
    rw [lexLe_cons_nil] at h1
    exact Bool.noConfusion h1
  | a :: as, b :: bs, h1, h2 => by
    rcases lt_trichotomy a b with h | h | h
    · rw [lexLe_cons_of_gt h] at h2
      exact Bool.noConfusion h2
    · subst h
      rw [lexLe_cons_same] at h1 h2
      rw [lexLe_antisymm as bs h1 h2]
    · rw [lexLe_cons_of_gt h] at h1
      exact Bool.noConfusion h1

theorem lexLe_trans : ∀ u v w : List Char,
    lexLe u v = true → lexLe v w = true → lexLe u w = true
  | [], _, _, _, _ => rfl
  | _ :: _, [], _, h1, _ => by
    rw [lexLe_cons_nil] at h1
    exact Bool.noConfusion h1
  | _ :: _, _ :: _, [], _, h2 => by
    rw [lexLe_cons_nil] at h2
    exact Bool.noConfusion h2
  | a :: as, b :: bs, c :: cs, h1, h2 => by
    rcases lt_trichotomy a b with hab | hab | hab
    · rcases lt_trichotomy b c with hbc | hbc | hbc
      · exact lexLe_cons_of_lt (lt_trans hab hbc) as cs
      · subst hbc
        exact lexLe_cons_of_lt hab as cs
      · rw [lexLe_cons_of_gt hbc] at h2
        exact Bool.noConfusion h2
    · subst hab
      rcases lt_trichotomy a c with hac | hac | hac
      · exact lexLe_cons_of_lt hac as cs
      · subst hac
        rw [lexLe_cons_same] at h1 h2 ⊢
        exact lexLe_trans as bs cs h1 h2
      · rw [lexLe_cons_of_gt hac] at h2
        exact Bool.noConfusion h2
    · rw [lexLe_cons_of_gt hab] at h1
      exact Bool.noConfusion h1

theorem lexLt_irrefl (u : List Char) : ¬ lexLt u u := fun h => h.2 rfl

theorem lexLt_trans {u v w : List Char} (h1 : lexLt u v) (h2 : lexLt v w) :
    lexLt u w := by
  refine ⟨lexLe_trans u v w h1.1 h2.1, ?_⟩
  intro h
  subst h
  exact h2.2 (lexLe_antisymm v u h2.1 h1.1)

theorem lexLt_asymm {u v : List Char} (h1 : lexLt u v) : ¬ lexLt v u := by
  intro h2
  exact h1.2 (lexLe_antisymm u v h1.1 h2.1)

theorem lexLt_iff_not_le (u v : List Char) : lexLt u v ↔ ¬ lexLe v u = true := by
  constructor
  · intro ⟨h1, h2⟩ h3
    exact h2 (lexLe_antisymm u v h1 h3)
  · intro h
    rcases lexLe_total u v with h1 | h1
    · refine ⟨h1, ?_⟩
      intro he
      subst he
      exact h (lexLe_refl u)
    · exact absurd h1 h

theorem lexLt_or_eq_or_gt (u v : List Char) : lexLt u v ∨ u = v ∨ lexLt v u := by
  by_cases he : u = v
  · exact Or.inr (Or.inl he)
  · rcases lexLe_total u v with h1 | h1
    · exact Or.inl ⟨h1, he⟩
    · exact Or.inr (Or.inr ⟨h1, fun h => he h.symm⟩)

/-- A take-prefix is lexicographically at most the whole string. -/
theorem lexLe_of_take_eq : ∀ (u w : List Char), w.take u.length = u → lexLe u w = true
  | [], _, _ => rfl
  | a :: as, [], h => by
    simp at h
  | a :: as, b :: bs, h => by
    simp only [List.length_cons, List.take_succ_cons, List.cons.injEq] at h
    obtain ⟨rfl, h2⟩ := h
    rw [lexLe_cons_same]
    exact lexLe_of_take_eq as bs h2

theorem not_lexLt_of_take_eq {u w : List Char} (h : w.take u.length = u) :
    ¬ lexLt w u := by
  intro ⟨h1, h2⟩
  exact h2 (lexLe_antisymm w u h1 (lexLe_of_take_eq u w h))

/-- Strings below a prefix are below every extension of that prefix. -/
theorem lexLt_of_lexLt_of_take_eq (u : List Char) :
    ∀ (w w' : List Char), lexLt w u → w'.take u.length = u → lexLt w w' := by
  induction u with
  | nil =>
    intro w w' hlt _
    rcases w with _ | ⟨b, ws⟩
    · exact absurd rfl hlt.2
    · have h1 := hlt.1
      rw [lexLe_cons_nil] at h1
      exact Bool.noConfusion h1
  | cons a us ih =>
    intro w w' hlt hpre
    rcases w' with _ | ⟨b, ws'⟩
    · simp at hpre
    · simp only [List.length_cons, List.take_succ_cons, List.cons.injEq] at hpre
      obtain ⟨hba, hpre2⟩ := hpre
      subst hba
      rcases w with _ | ⟨c, ws⟩
      · exact ⟨rfl, fun h => List.noConfusion h⟩
      · rcases lt_trichotomy c b with h | h | h
        · refine ⟨lexLe_cons_of_lt h ws ws', ?_⟩
          intro he
          injection he with h1 _
          exact absurd h1 (ne_of_lt h)
        · subst h
          have htail : lexLt ws us :=
            ⟨by have := hlt.1; rwa [lexLe_cons_same] at this,
              fun he => hlt.2 (by rw [he])⟩
          have hres := ih ws ws' htail hpre2
          refine ⟨by rw [lexLe_cons_same]; exact hres.1, ?_⟩
          intro he
          injection he with _ h2
          exact hres.2 h2
        · have h1 := hlt.1
          rw [lexLe_cons_of_gt h] at h1
          exact Bool.noConfusion h1

/-- An extension of a prefix is below every string strictly above the prefix
that does not itself extend it. -/
theorem lexLt_of_take_eq_of_lexLt (u : List Char) :
    ∀ (w w'' : List Char), w.take u.length = u → lexLt u w'' →
      ¬ (w''.take u.length = u) → lexLt w w'' := by
  induction u with
  | nil =>
    intro w w'' _ _ hnp
    exact absurd rfl hnp
  | cons a us ih =>
    intro w w'' hpre hlt hnp
    rcases w'' with _ | ⟨b, ws''⟩
    · have h1 := hlt.1
      rw [lexLe_cons_nil] at h1
      exact Bool.noConfusion h1
    · rcases w with _ | ⟨c, ws⟩
      · simp at hpre
      · simp only [List.length_cons, List.take_succ_cons, List.cons.injEq] at hpre
        obtain ⟨hca, hpre2⟩ := hpre
        subst hca
        rcases lt_trichotomy c b with h | h | h
        · refine ⟨lexLe_cons_of_lt h ws ws'', ?_⟩
          intro he
          injection he with h1 _
          exact absurd h1 (ne_of_lt h)
        · subst h
          have htail : lexLt us ws'' :=
            ⟨by have := hlt.1; rwa [lexLe_cons_same] at this,
              fun he => hlt.2 (by rw [he])⟩
          have hnp2 : ¬ (ws''.take us.length = us) := fun hp => hnp (by simp [hp])
          have hres := ih ws ws'' hpre2 htail hnp2
          refine ⟨by rw [lexLe_cons_same]; exact hres.1, ?_⟩
          intro he
          injection he with _ h2
          exact hres.2 h2
        · have h1 := hlt.1
          rw [lexLe_cons_of_gt h] at h1
          exact Bool.noConfusion h1

instance (s : List Char) : IsTotal Nat (suffixLe s) :=
  ⟨fun _ _ => lexLe_total _ _⟩

instance (s : List Char) : IsTrans Nat (suffixLe s) :=
  ⟨fun _ _ _ => lexLe_trans _ _ _⟩

theorem sa_perm (s : List Char) :
    (construct_suffix_array s).Perm (List.range s.length) :=
  List.perm_insertionSort _ _

theorem sa_length (s : List Char) :
    (construct_suffix_array s).length = s.length := by
  rw [(sa_perm s).length_eq, List.length_range]

theorem sa_sorted (s : List Char) :
    List.Sorted (suffixLe s) (construct_suffix_array s) :=
  List.sorted_insertionSort _ _

theorem sa_nodup (s : List Char) : (construct_suffix_array s).Nodup :=
  (sa_perm s).nodup_iff.mpr (List.nodup_range s.length)

theorem sa_mem (s : List Char) (k : Nat) :
    k ∈ construct_suffix_array s ↔ k < s.length := by
  rw [(sa_perm s).mem_iff, List.mem_range]

theorem SAf_eq_get (s : List Char) {j : Nat} (hj : j < s.length) :
    SAf s j = (construct_suffix_array s).get ⟨j, by rw [sa_length]; exact hj⟩ := by
  rw [SAf, List.getD_eq_getElem?_getD,
    List.getElem?_eq_getElem (by rw [sa_length]; exact hj)]
  rfl

theorem SAf_lt (s : List Char) {k : Nat} (hk : k < s.length) : SAf s k < s.length := by
  rw [SAf_eq_get s hk]
  rw [← sa_mem]
  exact List.get_mem _ _ _

theorem sa_inj (s : List Char) {j k : Nat} (hj : j < s.length) (hk : k < s.length)
    (h : SAf s j = SAf s k) : j = k := by
  rw [SAf_eq_get s hj, SAf_eq_get s hk] at h
  have := List.nodup_iff_injective_get.mp (sa_nodup s) h
  exact congrArg Fin.val this

theorem sa_surj (s : List Char) {q : Nat} (hq : q < s.length) :
    ∃ j, j < s.length ∧ SAf s j = q := by
  have hmem : q ∈ construct_suffix_array s := (sa_mem s q).mpr hq
  obtain ⟨j, hjl, hget⟩ := List.mem_iff_getElem.mp hmem
  refine ⟨j, by rw [← sa_length]; exact hjl, ?_⟩
  rw [SAf_eq_get s (by rw [← sa_length]; exact hjl)]
  exact hget

theorem suffix_inj (s : List Char) {i j : Nat} (hi : i < s.length) (hj : j < s.length)
    (h : s.drop i = s.drop j) : i = j := by
  have := congrArg List.length h
  simp only [List.length_drop] at this
  omega

theorem sa_strict (s : List Char) {j k : Nat} (hj : j < s.length) (hk : k < s.length)
    (hlt : j < k) : suffixLt s (SAf s j) (SAf s k) := by
  have hle : suffixLe s (SAf s j) (SAf s k) := by
    rw [SAf_eq_get s hj, SAf_eq_get s hk]
    exact List.Sorted.rel_get_of_lt (sa_sorted s) (by simpa using hlt)
  refine ⟨hle, ?_⟩
  intro hdrop
  have heq : SAf s j = SAf s k :=
    suffix_inj s (SAf_lt s hj) (SAf_lt s hk) hdrop
  exact absurd (sa_inj s hj hk heq) (Nat.ne_of_lt hlt)

theorem sa_lt_iff (s : List Char) {j k : Nat} (hj : j < s.length) (hk : k < s.length) :
    suffixLt s (SAf s j) (SAf s k) ↔ j < k := by
  constructor
  · intro h
    by_contra hge
    rcases Nat.lt_or_ge k j with h2 | h2
    · exact lexLt_asymm h (sa_strict s hk hj h2)
    · have : j = k := by omega
      subst this
      exact lexLt_irrefl _ h
  · exact sa_strict s hj hk

theorem rankPos_SAf (s : List Char) {k : Nat} (hk : k < s.length) :
    rankPos s (SAf s k) = k := by
  rw [rankPos]
  have hset : (Finset.range s.length).filter (fun q => suffixLt s q (SAf s k))
      = (Finset.range k).image (SAf s) := by
    ext q
    simp only [Finset.mem_filter, Finset.mem_range, Finset.mem_image]
    constructor
    · intro ⟨hq, hlt⟩
      obtain ⟨j, hjn, hje⟩ := sa_surj s hq
      refine ⟨j, ?_, hje⟩
      rw [← hje] at hlt
      exact (sa_lt_iff s hjn hk).mp hlt
    · intro ⟨j, hjk, hje⟩
      have hjn : j < s.length := Nat.lt_trans hjk hk
      subst hje
      exact ⟨SAf_lt s hjn, sa_strict s hjn hk hjk⟩
  rw [hset, Finset.card_image_of_injOn, Finset.card_range]
  intro x hx y hy hxy
  simp only [Finset.coe_range, Set.mem_Iio] at hx hy
  exact sa_inj s (Nat.lt_trans hx hk) (Nat.lt_trans hy hk) hxy

theorem rankPos_lt (s : List Char) {p : Nat} (hp : p < s.length) :
    rankPos s p < s.length := by
  obtain ⟨j, hjn, hje⟩ := sa_surj s hp
  rw [← hje, rankPos_SAf s hjn]
  exact hjn

theorem SAf_rankPos (s : List Char) {p : Nat} (hp : p < s.length) :
    SAf s (rankPos s p) = p := by
  obtain ⟨j, hjn, hje⟩ := sa_surj s hp
  rw [← hje, rankPos_SAf s hjn]

theorem st_length {s : List Char} (hs : SentinelTerminated s) : 1 ≤ s.length := by
  obtain ⟨g, rfl, _⟩ := hs
  simp

theorem st_getD_last {s : List Char} (hs : SentinelTerminated s) :
    s.getD (s.length - 1) '$' = '$' := by
  obtain ⟨g, rfl, _⟩ := hs
  rw [List.getD_eq_getElem?_getD, List.length_append, List.length_cons, List.length_nil,
    Nat.add_sub_cancel, List.getElem?_append_right (Nat.le_refl _)]
  simp

theorem st_getD_nuc {s : List Char} (hs : SentinelTerminated s) {q : Nat}
    (hq : q < s.length - 1) : isNuc (s.getD q '$') = true := by
  obtain ⟨g, rfl, hg⟩ := hs
  have hql : q < g.length := by
    simp only [List.length_append, List.length_cons, List.length_nil] at hq
    omega
  rw [List.getD_eq_getElem?_getD, List.getElem?_append_left hql,
    List.getElem?_eq_getElem hql]
  exact hg _ (List.getElem_mem hql)

theorem isNuc_ne_sentinel {ch : Char} (h : isNuc ch = true) : ch ≠ '$' := by
  rw [isNuc] at h
  intro he
  subst he
  simp at h

theorem isNuc_ge {ch : Char} (h : isNuc ch = true) : '$' < ch := by
  rw [isNuc] at h
  simp only [Bool.or_eq_true, decide_eq_true_eq] at h
  rcases h with ((h | h) | h) | h <;> subst h <;> decide

theorem st_char_cases {s : List Char} (hs : SentinelTerminated s) {q : Nat}
    (hq : q < s.length) : s.getD q '$' = '$' ∨ isNuc (s.getD q '$') = true := by
  rcases Nat.lt_or_ge q (s.length - 1) with h | h
  · exact Or.inr (st_getD_nuc hs h)
  · have : q = s.length - 1 := by omega
    subst this
    exact Or.inl (st_getD_last hs)

theorem st_sentinel_unique {s : List Char} (hs : SentinelTerminated s) {q : Nat}
    (hq : q < s.length) (h : s.getD q '$' = '$') : q = s.length - 1 := by
  rcases Nat.lt_or_ge q (s.length - 1) with h2 | h2
  · exact absurd h (isNuc_ne_sentinel (st_getD_nuc hs h2))
  · omega

theorem bwt_length (s : List Char) : (bwtOf s).length = s.length := by
  rw [bwtOf, construct_bwt, List.length_map, sa_length]

theorem Lf_eq (s : List Char) {i : Nat} (hi : i < s.length) :
    Lf s i = s.getD ((SAf s i + s.length - 1) % s.length) '$' := by
  rw [Lf, bwtOf, construct_bwt, List.getD_eq_getElem?_getD, List.getElem?_map,
    List.getElem?_eq_getElem (by rw [sa_length]; exact hi)]
  rw [SAf_eq_get s hi]
  rfl

/-- On the row of a non-initial suffix, the BWT holds the preceding character. -/
theorem Lf_eq_pred (s : List Char) {i : Nat} (hi : i < s.length) (h1 : 1 ≤ SAf s i) :
    Lf s i = s.getD (SAf s i - 1) '$' := by
  rw [Lf_eq s hi]
  congr 1
  have hlt := SAf_lt s hi
  have h2 : SAf s i + s.length - 1 = (SAf s i - 1) + s.length := by omega
  rw [h2, Nat.add_mod_right, Nat.mod_eq_of_lt (by omega)]

/-- On the row of the whole-string suffix, the BWT holds the sentinel. -/
theorem Lf_eq_sentinel {s : List Char} (hs : SentinelTerminated s) {i : Nat}
    (hi : i < s.length) (h0 : SAf s i = 0) : Lf s i = '$' := by
  rw [Lf_eq s hi, h0, Nat.zero_add, Nat.mod_eq_of_lt (by omega)]
  exact st_getD_last hs

/-- Counting over a take-prefix as a `Finset` card. -/
theorem count_take_card (l : List Char) (d c : Char) :
    ∀ m, m ≤ l.length →
      (l.take m).count c = ((Finset.range m).filter (fun i => l.getD i d = c)).card
  | 0, _ => by simp
  | m + 1, hm => by
    have hml : m < l.length := by omega
    have hgd : l.getD m d = l[m] := by
      rw [List.getD_eq_getElem?_getD, List.getElem?_eq_getElem hml]
      rfl
    rw [List.take_succ, List.getElem?_eq_getElem hml]
    simp only [Option.toList_some, List.count_append, List.count_singleton]
    rw [count_take_card l d c m (by omega), Finset.range_succ, Finset.filter_insert]
    by_cases hc : l[m] = c
    · rw [if_pos (show (l[m] == c) = true by simp [hc]),
        if_pos (by rw [hgd]; exact hc),
        Finset.card_insert_of_not_mem (by simp)]
    · rw [if_neg (show ¬ (l[m] == c) = true by simp [hc]),
        if_neg (by rw [hgd]; exact hc)]
      omega

theorem blocks_lt_mul {S i k : Nat} (hS : 1 ≤ S) (hk : k < (i + S - 1) / S) :
    k * S < i := by
  by_contra hge
  have h1 : i + S - 1 ≤ k * S + S - 1 := by omega
  have h2 : (k * S + S - 1) / S = k := by
    have h3 : k * S + S - 1 = (S - 1) + S * k := by
      rw [Nat.mul_comm]
      omega
    rw [h3, Nat.add_mul_div_left _ _ hS, Nat.div_eq_of_lt (by omega), Nat.zero_add]
  have := Nat.div_le_div_right (c := S) h1
  omega

theorem ranksFor_nil (S : Nat) (hS : 1 ≤ S) (c : Char) : ranksFor S [] c = [] := by
  rw [ranksFor, List.length_nil]
  have h0 : (0 + S - 1) / S = 0 := Nat.div_eq_of_lt (by omega)
  rw [h0]
  rfl

theorem ranksFor_extend_push (S : Nat) (hS : 1 ≤ S) (done : List Char) (ch c : Char)
    (hp : done.length % S = 0) :
    ranksFor S (done ++ [ch]) c = ranksFor S done c ++ [(done ++ [ch]).count c] := by
  rw [ranksFor, ranksFor]
  have hlen : (done ++ [ch]).length = done.length + 1 := by simp
  rw [hlen, ← blocks_step_push hS hp, List.range_succ, List.map_append]
  congr 1
  · apply List.map_congr_left
    intro k hk
    rw [List.mem_range] at hk
    have hkm : k * S < done.length := blocks_lt_mul hS hk
    rw [List.take_append_of_le_length (by omega)]
  · simp only [List.map_cons, List.map_nil]
    have hM : (done.length + S - 1) / S * S = done.length := by
      rw [blocks_val_push hS hp]
      exact Nat.div_mul_cancel (Nat.dvd_of_mod_eq_zero hp)
    rw [hM, List.take_of_length_le (by simp)]

theorem ranksFor_extend_nopush (S : Nat) (hS : 1 ≤ S) (done : List Char) (ch c : Char)
    (hp : done.length % S ≠ 0) :
    ranksFor S (done ++ [ch]) c = ranksFor S done c := by
  rw [ranksFor, ranksFor]
  have hlen : (done ++ [ch]).length = done.length + 1 := by simp
  rw [hlen, ← blocks_step_nopush hS hp]
  apply List.map_congr_left
  intro k hk
  rw [List.mem_range] at hk
  have hkm : k * S < done.length := blocks_lt_mul hS hk
  rw [List.take_append_of_le_length (by omega)]

theorem countsOf_append_char (done : List Char) (ch : Char)
    (h : ch = '$' ∨ isNuc ch = true) :
    (if ch = '$' then some (countsOf done) else (countsOf done).modify ch (· + 1))
      = some (countsOf (done ++ [ch])) := by
  rcases h with h | h
  · subst h
    rw [if_pos rfl]
    congr 1
    simp only [countsOf, List.count_append, List.count_singleton,
      NucStratified.mk.injEq]
    refine ⟨?_, ?_, ?_, ?_⟩ <;> rw [if_neg (by decide)] <;> omega
  · rw [isNuc] at h
    simp only [Bool.or_eq_true, decide_eq_true_eq] at h
    rcases h with ((h | h) | h) | h <;> subst h <;>
      rw [if_neg (by decide)] <;>
      · show some _ = some _
        congr 1
        simp only [countsOf, List.count_append, List.count_singleton,
          NucStratified.modify, NucStratified.mk.injEq]
        refine ⟨?_, ?_, ?_, ?_⟩ <;>
          (first
            | rw [if_pos (by decide)]
            | rw [if_neg (by decide)]) <;>
          omega

theorem rankLoop_spec (S : Nat) (hS : 1 ≤ S) :
    ∀ (L done : List Char),
    (∀ ch ∈ L, ch = '$' ∨ isNuc ch = true) →
    rankLoop S L done.length (countsOf done)
        ⟨ranksFor S done 'A', ranksFor S done 'C', ranksFor S done 'G', ranksFor S done 'T'⟩
      = some (countsOf (done ++ L),
          ⟨ranksFor S (done ++ L) 'A', ranksFor S (done ++ L) 'C',
           ranksFor S (done ++ L) 'G', ranksFor S (done ++ L) 'T'⟩) := by
  intro L
  induction L with
  | nil =>
    intro done _
    rw [rankLoop, List.append_nil]
  | cons ch rest ih =>
    intro done hchars
    rw [rankLoop, countsOf_append_char done ch (hchars ch (by simp)), Option.some_bind]
    by_cases hp : done.length % S = 0
    · rw [if_pos hp]
      have hranks : (⟨ranksFor S done 'A' ++ [(countsOf (done ++ [ch])).a],
          ranksFor S done 'C' ++ [(countsOf (done ++ [ch])).c],
          ranksFor S done 'G' ++ [(countsOf (done ++ [ch])).g],
          ranksFor S done 'T' ++ [(countsOf (done ++ [ch])).t]⟩ : NucStratified (List Nat))
          = ⟨ranksFor S (done ++ [ch]) 'A', ranksFor S (done ++ [ch]) 'C',
             ranksFor S (done ++ [ch]) 'G', ranksFor S (done ++ [ch]) 'T'⟩ := by
        rw [ranksFor_extend_push S hS done ch 'A' hp,
          ranksFor_extend_push S hS done ch 'C' hp,
          ranksFor_extend_push S hS done ch 'G' hp,
          ranksFor_extend_push S hS done ch 'T' hp]
        rfl
      rw [hranks]
      have hlen : done.length + 1 = (done ++ [ch]).length := by simp
      rw [hlen]
      have := ih (done ++ [ch]) (fun c hc => hchars c (by simp [hc]))
      rw [this, List.append_assoc]
      rfl
    · rw [if_neg hp]
      have hranksA := ranksFor_extend_nopush S hS done ch 'A' hp
      have hranksC := ranksFor_extend_nopush S hS done ch 'C' hp
      have hranksG := ranksFor_extend_nopush S hS done ch 'G' hp
      have hranksT := ranksFor_extend_nopush S hS done ch 'T' hp
      have hlen : done.length + 1 = (done ++ [ch]).length := by simp
      rw [hlen]
      have := ih (done ++ [ch]) (fun c hc => hchars c (by simp [hc]))
      rw [hranksA, hranksC, hranksG, hranksT] at this
      rw [this, List.append_assoc]
      rfl

theorem bwt_char_cases {s : List Char} (hs : SentinelTerminated s) :
    ∀ ch ∈ bwtOf s, ch = '$' ∨ isNuc ch = true := by
  intro ch hch
  rw [bwtOf, construct_bwt, List.mem_map] at hch
  obtain ⟨p, hp, rfl⟩ := hch
  have hpn : p < s.length := (sa_mem s p).mp hp
  have hidx : (p + s.length - 1) % s.length < s.length := Nat.mod_lt _ (by omega)
  exact st_char_cases hs hidx

/-- For a sentinel-terminated reference, `FMIndex::new` succeeds and its
fields are the RLE of the BWT, the value-sampled SA, the first-column
offsets from the BWT counts, and the checkpointed rank vectors. -/
theorem fmIndex_new_eq {s : List Char} (hs : SentinelTerminated s) (S_s S_r : Nat)
    (hSr : 1 ≤ S_r) :
    FMIndex.new s S_s S_r = some (fmOf s S_s S_r) := by
  rw [fmOf]
  have hrank := rankLoop_spec S_r hSr (bwtOf s) [] (bwt_char_cases hs)
  rw [List.nil_append] at hrank
  simp only [List.length_nil] at hrank
  have hc0 : countsOf ([] : List Char) = ⟨0, 0, 0, 0⟩ := rfl
  rw [hc0, ranksFor_nil S_r hSr 'A', ranksFor_nil S_r hSr 'C',
    ranksFor_nil S_r hSr 'G', ranksFor_nil S_r hSr 'T'] at hrank
  rw [bwtOf] at hrank
  simp only [FMIndex.new]
  rw [hrank]
  rfl

theorem count_take_add_countSeg (l : List Char) (c : Char) {a i : Nat} (ha : a ≤ i) :
    (l.take (a + 1)).count c + countSeg l c a i = (l.take (i + 1)).count c := by
  rw [countSeg]
  conv_rhs => rw [← List.take_append_drop (a + 1) (l.take (i + 1))]
  rw [List.count_append, List.take_take]
  have : min (a + 1) (i + 1) = a + 1 := by omega
  rw [this]

/-- `get_rank_for_index` returns the number of occurrences of the nucleotide
in the inclusive BWT prefix `L[0..i]`. -/
theorem rank_correct (s : List Char) (S_s S_r : Nat) (hSr : 1 ≤ S_r) {c : Char}
    (hc : isNuc c = true) {i : Nat} (hi : i < s.length) :
    (fmOf s S_s S_r).get_rank_for_index c i = some (((bwtOf s).take (i + 1)).count c) := by
  have hks : i / S_r * S_r ≤ i := Nat.div_mul_le_self i S_r
  have hbl : (bwtOf s).length = s.length := bwt_length s
  have hget : (fmOf s S_s S_r).ranks.get c = some (ranksFor S_r (bwtOf s) c) := by
    rw [isNuc] at hc
    simp only [Bool.or_eq_true, decide_eq_true_eq] at hc
    rcases hc with ((h | h) | h) | h <;> subst h <;> rfl
  rw [FMIndex.get_rank_for_index]
  have hss : (fmOf s S_s S_r).rank_sampling_step_size = S_r := rfl
  rw [hss, hget]
  simp only [Option.bind_eq_bind, Option.some_bind]
  have hrk : (ranksFor S_r (bwtOf s) c)[i / S_r]? =
      some (((bwtOf s).take (i / S_r * S_r + 1)).count c) := by
    rw [ranksFor, List.getElem?_map, hbl,
      List.getElem?_range (length_lt_blocks hSr (by omega))]
    rfl
  rw [hrk]
  simp only [Option.bind_eq_bind, Option.some_bind]
  have hcm : (fmOf s S_s S_r).compressed_bwt.count_matches_from_checkpoint c
      (i / S_r * S_r) i = some (countSeg (bwtOf s) c (i / S_r * S_r) i) := by
    have := count_matches_spec (bwtOf s) S_r hSr c (i / S_r) i hks (by omega)
    exact this
  rw [hcm]
  simp only [Option.bind_eq_bind, Option.some_bind]
  rw [count_take_add_countSeg (bwtOf s) c hks]

/-- `get_char_from_position` on the compressed BWT reads the BWT character. -/
theorem fm_char_correct (s : List Char) (S_s S_r : Nat) (hSr : 1 ≤ S_r) {i : Nat}
    (hi : i < s.length) :
    (fmOf s S_s S_r).compressed_bwt.get_char_from_position i = some (Lf s i) := by
  have hbl : (bwtOf s).length = s.length := bwt_length s
  have := get_char_from_position_spec (bwtOf s) S_r hSr i (by omega)
  rw [fmOf]
  rw [this, Lf, List.getD_eq_getElem?_getD, List.getElem?_eq_getElem (by omega)]
  rfl

theorem firstCol_get (s : List Char) (S_s S_r : Nat) {c : Char} (hc : isNuc c = true) :
    (fmOf s S_s S_r).first_bwt_column_index.get c = some (firstColNat s c) := by
  rw [isNuc] at hc
  simp only [Bool.or_eq_true, decide_eq_true_eq] at hc
  rcases hc with ((h | h) | h) | h <;> subst h <;> rfl

/-- `last_to_first_mapping` computes `C[c] + rank − 1`. -/
theorem lf_eq (s : List Char) (S_s S_r : Nat) {c : Char} (hc : isNuc c = true)
    (r : Nat) :
    (fmOf s S_s S_r).last_to_first_mapping c r = some (firstColNat s c + r - 1) := by
  rw [FMIndex.last_to_first_mapping, firstCol_get s S_s S_r hc]
  simp only [Option.bind_eq_bind, Option.some_bind]

theorem rot_eq_sub_one {n x : Nat} (h1 : 1 ≤ x) (h2 : x < n) :
    (x + n - 1) % n = x - 1 := by
  have h3 : x + n - 1 = (x - 1) + n := by omega
  rw [h3, Nat.add_mod_right, Nat.mod_eq_of_lt (by omega)]

theorem rot_zero {n : Nat} (h : 1 ≤ n) : (0 + n - 1) % n = n - 1 := by
  rw [Nat.zero_add, Nat.mod_eq_of_lt (by omega)]

theorem rot_succ {n b : Nat} (hb : b < n) : ((b + 1) % n + n - 1) % n = b := by
  rcases Nat.lt_or_ge (b + 1) n with h | h
  · rw [Nat.mod_eq_of_lt h, rot_eq_sub_one (by omega) h]
    omega
  · have hbn : b + 1 = n := by omega
    rw [hbn, Nat.mod_self, rot_zero (by omega)]
    omega

/-- The BWT is a permutation of the reference: counts agree. -/
theorem count_bwt_eq (s : List Char) (c : Char) :
    (bwtOf s).count c = s.count c := by
  rcases Nat.eq_zero_or_pos s.length with hn | hn
  · have h1 : bwtOf s = [] := List.eq_nil_of_length_eq_zero (by rw [bwt_length]; exact hn)
    have h2 : s = [] := List.eq_nil_of_length_eq_zero hn
    rw [h1, h2]
  · have hbl : (bwtOf s).length = s.length := bwt_length s
    have hL : (bwtOf s).count c
        = ((Finset.range s.length).filter (fun i => Lf s i = c)).card := by
      have := count_take_card (bwtOf s) '$' c s.length (by omega)
      rwa [List.take_of_length_le (by omega)] at this
    have hS : s.count c
        = ((Finset.range s.length).filter (fun q => s.getD q '$' = c)).card := by
      have := count_take_card s '$' c s.length (Nat.le_refl _)
      rwa [List.take_of_length_le (Nat.le_refl _)] at this
    rw [hL, hS]
    apply Finset.card_bij (fun a _ => (SAf s a + s.length - 1) % s.length)
    · intro a ha
      simp only [Finset.mem_filter, Finset.mem_range] at ha ⊢
      refine ⟨Nat.mod_lt _ (by omega), ?_⟩
      rw [← Lf_eq s ha.1]
      exact ha.2
    · intro a1 ha1 a2 ha2 heq
      simp only [Finset.mem_filter, Finset.mem_range] at ha1 ha2
      have hs1 := SAf_lt s ha1.1
      have hs2 := SAf_lt s ha2.1
      apply sa_inj s ha1.1 ha2.1
      rcases Nat.eq_zero_or_pos (SAf s a1) with h1 | h1 <;>
        rcases Nat.eq_zero_or_pos (SAf s a2) with h2 | h2
      · omega
      · rw [h1, rot_zero (by omega), rot_eq_sub_one h2 hs2] at heq
        omega
      · rw [h2, rot_zero (by omega), rot_eq_sub_one h1 hs1] at heq
        omega
      · rw [rot_eq_sub_one h1 hs1, rot_eq_sub_one h2 hs2] at heq
        omega
    · intro b hb
      simp only [Finset.mem_filter, Finset.mem_range] at hb
      have hbn : (b + 1) % s.length < s.length := Nat.mod_lt _ (by omega)
      refine ⟨rankPos s ((b + 1) % s.length), ?_, ?_⟩
      · simp only [Finset.mem_filter, Finset.mem_range]
        refine ⟨rankPos_lt s hbn, ?_⟩
        rw [Lf_eq s (rankPos_lt s hbn), SAf_rankPos s hbn, rot_succ hb.1]
        exact hb.2
      · rw [SAf_rankPos s hbn, rot_succ hb.1]

theorem count_card (s : List Char) (c : Char) :
    ((Finset.range s.length).filter (fun q => s.getD q '$' = c)).card = s.count c := by
  have := count_take_card s '$' c s.length (Nat.le_refl _)
  rw [List.take_of_length_le (Nat.le_refl _)] at this
  omega

theorem sentinel_card {s : List Char} (hs : SentinelTerminated s) :
    ((Finset.range s.length).filter (fun q => s.getD q '$' = '$')).card = 1 := by
  have h1 : (Finset.range s.length).filter (fun q => s.getD q '$' = '$')
      = {s.length - 1} := by
    ext q
    simp only [Finset.mem_filter, Finset.mem_range, Finset.mem_singleton]
    constructor
    · intro ⟨hq, he⟩
      exact st_sentinel_unique hs hq he
    · intro h
      subst h
      exact ⟨by have := st_length hs; omega, st_getD_last hs⟩
  rw [h1, Finset.card_singleton]

theorem charLt_iff {ch : Char} (h : ch = '$' ∨ isNuc ch = true) :
    ((ch < 'A') ↔ ch = '$') ∧
    ((ch < 'C') ↔ (ch = '$' ∨ ch = 'A')) ∧
    ((ch < 'G') ↔ ((ch = '$' ∨ ch = 'A') ∨ ch = 'C')) ∧
    ((ch < 'T') ↔ (((ch = '$' ∨ ch = 'A') ∨ ch = 'C') ∨ ch = 'G')) := by
  rw [isNuc] at h
  simp only [Bool.or_eq_true, decide_eq_true_eq] at h
  rcases h with h | ((h | h) | h) | h <;> subst h <;> refine ⟨?_, ?_, ?_, ?_⟩ <;>
    constructor <;> intro h2 <;> first | rfl | decide | simp at h2

theorem card_filter_or_disjoint {n : Nat} (p q : Nat → Prop) [DecidablePred p]
    [DecidablePred q] (hdis : ∀ x, ¬ (p x ∧ q x)) :
    ((Finset.range n).filter (fun x => p x ∨ q x)).card
      = ((Finset.range n).filter p).card + ((Finset.range n).filter q).card := by
  rw [Finset.filter_or]
  rw [Finset.card_union_of_disjoint]
  rw [Finset.disjoint_filter]
  intro x _ hp hq
  exact hdis x ⟨hp, hq⟩

theorem charLtCard_eq {s : List Char} (hs : SentinelTerminated s) {c : Char}
    (hc : isNuc c = true) : charLtCard s c = firstColNat s c := by
  have hcases : ∀ q, q ∈ Finset.range s.length →
      s.getD q '$' = '$' ∨ isNuc (s.getD q '$') = true := by
    intro q hq
    rw [Finset.mem_range] at hq
    exact st_char_cases hs hq
  rw [isNuc] at hc
  simp only [Bool.or_eq_true, decide_eq_true_eq] at hc
  have hbA := count_bwt_eq s 'A'
  have hbC := count_bwt_eq s 'C'
  have hbG := count_bwt_eq s 'G'
  rcases hc with ((h | h) | h) | h <;> subst h
  · have hfe : (Finset.range s.length).filter (fun q => s.getD q '$' < 'A')
        = (Finset.range s.length).filter (fun q => s.getD q '$' = '$') :=
      Finset.filter_congr (fun q hq => (charLt_iff (hcases q hq)).1)
    rw [charLtCard, firstColNat, if_pos rfl, hfe]
    exact sentinel_card hs
  · have hfe : (Finset.range s.length).filter (fun q => s.getD q '$' < 'C')
        = (Finset.range s.length).filter
            (fun q => s.getD q '$' = '$' ∨ s.getD q '$' = 'A') :=
      Finset.filter_congr (fun q hq => (charLt_iff (hcases q hq)).2.1)
    rw [charLtCard, firstColNat, if_neg (by decide), if_pos rfl, hfe]
    rw [card_filter_or_disjoint (fun q => s.getD q '$' = '$') (fun q => s.getD q '$' = 'A')
      (fun x ⟨h1, h2⟩ => absurd (h1.symm.trans h2) (by decide))]
    rw [sentinel_card hs, count_card s 'A', hbA]
  · have hfe : (Finset.range s.length).filter (fun q => s.getD q '$' < 'G')
        = (Finset.range s.length).filter
            (fun q => (s.getD q '$' = '$' ∨ s.getD q '$' = 'A') ∨ s.getD q '$' = 'C') :=
      Finset.filter_congr (fun q hq => (charLt_iff (hcases q hq)).2.2.1)
    rw [charLtCard, firstColNat, if_neg (by decide), if_neg (by decide), if_pos rfl, hfe]
    rw [card_filter_or_disjoint (fun q => s.getD q '$' = '$' ∨ s.getD q '$' = 'A')
      (fun q => s.getD q '$' = 'C')
      (fun x ⟨h1, h2⟩ => by
        rcases h1 with h1 | h1 <;> exact absurd (h1.symm.trans h2) (by decide))]
    rw [card_filter_or_disjoint (fun q => s.getD q '$' = '$') (fun q => s.getD q '$' = 'A')
      (fun x ⟨h1, h2⟩ => absurd (h1.symm.trans h2) (by decide))]
    rw [sentinel_card hs, count_card s 'A', count_card s 'C', hbA, hbC]
  · have hfe : (Finset.range s.length).filter (fun q => s.getD q '$' < 'T')
        = (Finset.range s.length).filter
            (fun q => ((s.getD q '$' = '$' ∨ s.getD q '$' = 'A') ∨ s.getD q '$' = 'C')
              ∨ s.getD q '$' = 'G') :=
      Finset.filter_congr (fun q hq => (charLt_iff (hcases q hq)).2.2.2)
    rw [charLtCard, firstColNat, if_neg (by decide), if_neg (by decide),
      if_neg (by decide), hfe]
    rw [card_filter_or_disjoint
      (fun q => (s.getD q '$' = '$' ∨ s.getD q '$' = 'A') ∨ s.getD q '$' = 'C')
      (fun q => s.getD q '$' = 'G')
      (fun x ⟨h1, h2⟩ => by
        rcases h1 with (h1 | h1) | h1 <;> exact absurd (h1.symm.trans h2) (by decide))]
    rw [card_filter_or_disjoint (fun q => s.getD q '$' = '$' ∨ s.getD q '$' = 'A')
      (fun q => s.getD q '$' = 'C')
      (fun x ⟨h1, h2⟩ => by
        rcases h1 with h1 | h1 <;> exact absurd (h1.symm.trans h2) (by decide))]
    rw [card_filter_or_disjoint (fun q => s.getD q '$' = '$') (fun q => s.getD q '$' = 'A')
      (fun x ⟨h1, h2⟩ => absurd (h1.symm.trans h2) (by decide))]
    rw [sentinel_card hs, count_card s 'A', count_card s 'C', count_card s 'G',
      hbA, hbC, hbG]

theorem lexLt_cons_iff {x y : Char} {u v : List Char} :
    lexLt (x :: u) (y :: v) ↔ x < y ∨ (x = y ∧ lexLt u v) := by
  constructor
  · intro ⟨hle, hne⟩
    rcases lt_trichotomy x y with h | h | h
    · exact Or.inl h
    · subst h
      rw [lexLe_cons_same] at hle
      refine Or.inr ⟨rfl, hle, ?_⟩
      intro he
      exact hne (by rw [he])
    · rw [lexLe_cons_of_gt h] at hle
      exact Bool.noConfusion hle
  · intro h
    rcases h with h | ⟨rfl, hlt⟩
    · refine ⟨lexLe_cons_of_lt h u v, ?_⟩
      intro he
      injection he with h1 _
      exact absurd h1 (ne_of_lt h)
    · refine ⟨by rw [lexLe_cons_same]; exact hlt.1, ?_⟩
      intro he
      injection he with _ h2
      exact hlt.2 h2

theorem drop_eq_getD_cons {s : List Char} {q : Nat} (hq : q < s.length) :
    s.drop q = s.getD q '$' :: s.drop (q + 1) := by
  rw [List.drop_eq_getElem_cons hq, List.getD_eq_getElem?_getD,
    List.getElem?_eq_getElem hq]
  rfl

theorem rankPos_lt_iff (s : List Char) {p q : Nat} (hp : p < s.length)
    (hq : q < s.length) : suffixLt s p q ↔ rankPos s p < rankPos s q := by
  have h1 := SAf_rankPos s hp
  have h2 := SAf_rankPos s hq
  constructor
  · intro h
    rw [← h1, ← h2] at h
    exact (sa_lt_iff s (rankPos_lt s hp) (rankPos_lt s hq)).mp h
  · intro h
    have := sa_strict s (rankPos_lt s hp) (rankPos_lt s hq) h
    rwa [h1, h2] at this

theorem Lf_isNuc {s : List Char} (hs : SentinelTerminated s) {i : Nat}
    (hi : i < s.length) (h1 : 1 ≤ SAf s i) : isNuc (Lf s i) = true := by
  rw [Lf_eq_pred s hi h1]
  apply st_getD_nuc hs
  have := SAf_lt s hi
  omega

/-- The key LF-mapping identity: `C[c] + rank(c, i) − 1` is the row of the
predecessor suffix. -/
theorem lf_rank_correct {s : List Char} (hs : SentinelTerminated s) {i : Nat}
    (hi : i < s.length) (h1 : 1 ≤ SAf s i) :
    firstColNat s (Lf s i) + ((bwtOf s).take (i + 1)).count (Lf s i) - 1
      = rankPos s (SAf s i - 1) := by
  have hp := SAf_lt s hi
  have hnuc := Lf_isNuc hs hi h1
  have hpred : s.getD (SAf s i - 1) '$' = Lf s i := (Lf_eq_pred s hi h1).symm
  have hp1 : SAf s i - 1 < s.length := by omega
  have hbl : (bwtOf s).length = s.length := bwt_length s
  -- decompose each suffix comparison against the predecessor suffix
  have hiff : ∀ q ∈ Finset.range s.length,
      (suffixLt s q (SAf s i - 1) ↔
        (s.getD q '$' < Lf s i ∨ (s.getD q '$' = Lf s i ∧ suffixLt s (q + 1) (SAf s i)))) := by
    intro q hq
    rw [Finset.mem_range] at hq
    rw [suffixLt, drop_eq_getD_cons hq, drop_eq_getD_cons hp1, hpred]
    have hpp : SAf s i - 1 + 1 = SAf s i := by omega
    rw [hpp, lexLt_cons_iff]
    exact Iff.rfl
  have hsplit : rankPos s (SAf s i - 1)
      = charLtCard s (Lf s i)
        + ((Finset.range s.length).filter
            (fun q => s.getD q '$' = Lf s i ∧ suffixLt s (q + 1) (SAf s i))).card := by
    rw [rankPos, Finset.filter_congr hiff,
      card_filter_or_disjoint (fun q => s.getD q '$' < Lf s i)
        (fun q => s.getD q '$' = Lf s i ∧ suffixLt s (q + 1) (SAf s i))
        (fun x ⟨ha, hb⟩ => absurd hb.1 (ne_of_lt ha))]
    rfl
  -- the second summand counts the c-rows strictly above row i
  have hbij : ((Finset.range s.length).filter
        (fun q => s.getD q '$' = Lf s i ∧ suffixLt s (q + 1) (SAf s i))).card
      = ((Finset.range i).filter (fun r => Lf s r = Lf s i)).card := by
    apply Finset.card_bij (fun q _ => rankPos s (q + 1))
    · intro q hq
      simp only [Finset.mem_filter, Finset.mem_range] at hq ⊢
      obtain ⟨hqn, hqc, hqlt⟩ := hq
      have hqn1 : q + 1 < s.length := by
        rcases Nat.lt_or_ge (q + 1) s.length with h | h
        · exact h
        · exfalso
          have : q = s.length - 1 := by omega
          subst this
          rw [st_getD_last hs] at hqc
          exact isNuc_ne_sentinel hnuc hqc.symm
      have hrn := rankPos_lt s hqn1
      have hsa : SAf s (rankPos s (q + 1)) = q + 1 := SAf_rankPos s hqn1
      refine ⟨?_, ?_⟩
      · have := (rankPos_lt_iff s hqn1 hp).mp hqlt
        rwa [rankPos_SAf s hi] at this
      · rw [Lf_eq_pred s hrn (by omega), hsa]
        simpa using hqc
    · intro q1 hq1 q2 hq2 heq
      simp only [Finset.mem_filter, Finset.mem_range] at hq1 hq2
      have hqn1 : q1 + 1 < s.length := by
        rcases Nat.lt_or_ge (q1 + 1) s.length with h | h
        · exact h
        · exfalso
          have : q1 = s.length - 1 := by omega
          subst this
          rw [st_getD_last hs] at hq1
          exact isNuc_ne_sentinel hnuc hq1.2.1.symm
      have hqn2 : q2 + 1 < s.length := by
        rcases Nat.lt_or_ge (q2 + 1) s.length with h | h
        · exact h
        · exfalso
          have : q2 = s.length - 1 := by omega
          subst this
          rw [st_getD_last hs] at hq2
          exact isNuc_ne_sentinel hnuc hq2.2.1.symm
      have e1 := SAf_rankPos s hqn1
      have e2 := SAf_rankPos s hqn2
      rw [heq] at e1
      omega
    · intro r hr
      simp only [Finset.mem_filter, Finset.mem_range] at hr
      obtain ⟨hri, hrc⟩ := hr
      have hrn : r < s.length := by omega
      have hr1 : 1 ≤ SAf s r := by
        rcases Nat.eq_zero_or_pos (SAf s r) with h | h
        · exfalso
          rw [Lf_eq_sentinel hs hrn h] at hrc
          exact isNuc_ne_sentinel hnuc hrc.symm
        · exact h
      have hsr := SAf_lt s hrn
      refine ⟨SAf s r - 1, ?_, ?_⟩
      · simp only [Finset.mem_filter, Finset.mem_range]
        have hpp : SAf s r - 1 + 1 = SAf s r := by omega
        refine ⟨by omega, ?_, ?_⟩
        · rw [← Lf_eq_pred s hrn hr1]
          exact hrc
        · rw [hpp]
          have : rankPos s (SAf s r) = r := rankPos_SAf s hrn
          apply (rankPos_lt_iff s hsr hp).mpr
          rw [this, rankPos_SAf s hi]
          exact hri
      · have hpp : SAf s r - 1 + 1 = SAf s r := by omega
        rw [hpp, rankPos_SAf s hrn]
  -- convert the row count to a BWT prefix count
  have hcount : ((Finset.range i).filter (fun r => Lf s r = Lf s i)).card
      = ((bwtOf s).take i).count (Lf s i) := by
    have := count_take_card (bwtOf s) '$' (Lf s i) i (by omega)
    rw [this]
    rfl
  have hlast : ((bwtOf s).take (i + 1)).count (Lf s i)
      = ((bwtOf s).take i).count (Lf s i) + 1 := by
    rw [List.take_succ, List.getElem?_eq_getElem (by omega), Option.toList_some,
      List.count_append, List.count_singleton]
    have hLi : (bwtOf s)[i] = Lf s i := by
      rw [Lf, List.getD_eq_getElem?_getD, List.getElem?_eq_getElem (by omega)]
      rfl
    rw [if_pos (by rw [hLi]; exact beq_self_eq_true _)]
  rw [hlast, hsplit, charLtCard_eq hs hnuc, hbij, hcount]
  omega

theorem lookup_eq_none_of_keys_ne {β : Type} (i : Nat) :
    ∀ (l : List (Nat × β)), (∀ p ∈ l, p.1 ≠ i) → List.lookup i l = none
  | [], _ => rfl
  | (k, v) :: rest, h => by
    have hk : k ≠ i := h (k, v) (by simp)
    have hne : (i == k) = false := by
      simp only [beq_eq_false_iff_ne, ne_eq]
      exact fun he => hk he.symm
    rw [List.lookup_cons, hne]
    exact lookup_eq_none_of_keys_ne i rest (fun p hp => h p (by simp [hp]))

theorem enumFrom_key_ge {β : Type} :
    ∀ (l : List β) (o : Nat), ∀ p ∈ List.enumFrom o l, o ≤ p.1
  | [], _, p, hp => by simp at hp
  | x :: xs, o, p, hp => by
    rw [List.enumFrom] at hp
    rcases List.mem_cons.mp hp with h | h
    · subst h
      exact Nat.le_refl _
    · have := enumFrom_key_ge xs (o + 1) p h
      omega

theorem lookup_enumFrom_filter (step : Nat) :
    ∀ (l : List Nat) (o i : Nat), o ≤ i → i - o < l.length →
      List.lookup i ((List.enumFrom o l).filter (fun p => p.2 % step == 0))
        = if l.getD (i - o) 0 % step = 0 then some (l.getD (i - o) 0) else none
  | [], o, i, hoi, hlen => by simp at hlen
  | x :: xs, o, i, hoi, hlen => by
    rw [List.enumFrom, List.filter]
    rcases Nat.eq_or_lt_of_le hoi with heq | hlt
    · subst heq
      rw [Nat.sub_self]
      simp only [List.getD_cons_zero]
      by_cases hx : x % step = 0
      · rw [if_pos hx]
        have : ((o, x).2 % step == 0) = true := by simpa using hx
        rw [this]
        exact List.lookup_cons_self
      · rw [if_neg hx]
        have : ((o, x).2 % step == 0) = false := by simpa using hx
        rw [this]
        apply lookup_eq_none_of_keys_ne
        intro p hp
        have h1 := List.mem_filter.mp hp
        have h2 := enumFrom_key_ge xs (o + 1) p h1.1
        omega
    · have hsub : i - o = (i - (o + 1)) + 1 := by omega
      have htail : List.lookup i ((List.enumFrom (o + 1) xs).filter
          (fun p => p.2 % step == 0))
          = if xs.getD (i - (o + 1)) 0 % step = 0
            then some (xs.getD (i - (o + 1)) 0) else none :=
        lookup_enumFrom_filter step xs (o + 1) i (by omega)
          (by rw [List.length_cons] at hlen; omega)
      have hgd : (x :: xs).getD (i - o) 0 = xs.getD (i - (o + 1)) 0 := by
        rw [hsub]
        simp
      rw [hgd]
      by_cases hx : ((o, x).2 % step == 0) = true
      · rw [hx]
        have hne : (i == o) = false := by
          simp only [beq_eq_false_iff_ne, ne_eq]
          omega
        rw [List.lookup_cons, hne]
        exact htail
      · rw [Bool.not_eq_true] at hx
        rw [hx]
        exact htail

/-- The sampled suffix array contains exactly the rows whose SA value is
divisible by the sampling step, keyed by row. -/
theorem ssa_lookup (s : List Char) (S_s S_r : Nat) {i : Nat} (hi : i < s.length) :
    List.lookup i (fmOf s S_s S_r).sampled_suffix_array
      = if SAf s i % S_s = 0 then some (SAf s i) else none := by
  have h1 : (fmOf s S_s S_r).sampled_suffix_array
      = (List.enumFrom 0 (construct_suffix_array s)).filter
          (fun p => p.2 % S_s == 0) := rfl
  rw [h1]
  have := lookup_enumFrom_filter S_s (construct_suffix_array s) 0 i
    (Nat.zero_le _) (by rw [sa_length]; omega)
  rw [Nat.sub_zero] at this
  exact this

theorem mod_pred {a m : Nat} (h : a % m ≠ 0) : (a - 1) % m = a % m - 1 := by
  rcases Nat.eq_zero_or_pos m with h0 | hm
  · subst h0
    simp
  have hdm := Nat.div_add_mod a m
  have hr : 1 ≤ a % m := by omega
  have he : a - 1 = (a % m - 1) + m * (a / m) := by omega
  rw [he, Nat.add_mul_mod_self_left, Nat.mod_eq_of_lt
    (by have := Nat.mod_lt a hm; omega)]

/-- The walk-back loop returns the SA value plus the accumulated steps,
within `SA[r] mod S_s` further steps. -/
theorem gpLoop_correct {s : List Char} (hs : SentinelTerminated s) (S_s S_r : Nat)
    (hSr : 1 ≤ S_r) :
    ∀ (fuel steps r : Nat), r < s.length → SAf s r % S_s < fuel →
      gpLoop (fmOf s S_s S_r) fuel steps r = some (SAf s r + steps)
  | 0, steps, r => by omega
  | fuel + 1, steps, r => fun hr hfuel => by
    rw [gpLoop, ssa_lookup s S_s S_r hr]
    by_cases hmod : SAf s r % S_s = 0
    · rw [if_pos hmod]
    · rw [if_neg hmod]
      have hsa1 : 1 ≤ SAf s r := by
        rcases Nat.eq_zero_or_pos (SAf s r) with h | h
        · exfalso
          rw [h, Nat.zero_mod] at hmod
          exact hmod rfl
        · exact h
      have hchar := fm_char_correct s S_s S_r hSr hr
      have hnuc := Lf_isNuc hs hr hsa1
      have hrank := rank_correct s S_s S_r hSr hnuc hr
      have hlf := lf_eq s S_s S_r hnuc (((bwtOf s).take (r + 1)).count (Lf s r))
      rw [hchar]
      simp only [Option.bind_eq_bind, Option.some_bind]
      rw [hrank]
      simp only [Option.some_bind]
      rw [hlf]
      simp only [Option.some_bind]
      rw [lf_rank_correct hs hr hsa1]
      have hsr := SAf_lt s hr
      have hr' : rankPos s (SAf s r - 1) < s.length := rankPos_lt s (by omega)
      have hsa' : SAf s (rankPos s (SAf s r - 1)) = SAf s r - 1 :=
        SAf_rankPos s (by omega)
      have hmod' : SAf s (rankPos s (SAf s r - 1)) % S_s < fuel := by
        rw [hsa', mod_pred hmod]
        omega
      rw [gpLoop_correct hs S_s S_r hSr fuel (steps + 1) _ hr' hmod', hsa']
      congr 1
      omega

/-- `get_genome_position` recovers the suffix-array value. -/
theorem gp_correct {s : List Char} (hs : SentinelTerminated s) (S_s S_r : Nat)
    (hSs : 1 ≤ S_s) (hSr : 1 ≤ S_r) {i : Nat} (hi : i < s.length) :
    (fmOf s S_s S_r).get_genome_position i = some (SAf s i) := by
  rw [FMIndex.get_genome_position]
  have hfm : (fmOf s S_s S_r).suffix_array_sampling_step_size = S_s := rfl
  rw [hfm]
  have := gpLoop_correct hs S_s S_r hSr S_s 0 i hi (Nat.mod_lt _ (by omega))
  rwa [Nat.add_zero] at this

/-- C2: for the FMIndex built by `FMIndex.new` from a sentinel-terminated
reference with sampling steps `S_s, S_r ≥ 1`, and every suffix-array index
`i` below the reference length, `get_genome_position i` hits a sampled
suffix-array entry inside the `S_s`-iteration walk-back loop and returns
`SA[i]`; in particular the result is `some`, so the post-loop
`IndexCorruption` panic is unreachable. -/
theorem C2_genome_position_recovers_sa {s : List Char} {S_s S_r : Nat}
    {fm : FMIndex} (hs : SentinelTerminated s) (hSs : 1 ≤ S_s) (hSr : 1 ≤ S_r)
    (hnew : FMIndex.new s S_s S_r = some fm) {i : Nat} (hi : i < s.length) :
    fm.get_genome_position i = some (SAf s i) := by
  rw [fmIndex_new_eq hs S_s S_r hSr] at hnew
  have h := Option.some.inj hnew
  subst h
  exact gp_correct hs S_s S_r hSs hSr hi

/-- Witness for C2 on the reference "AC$" with `S_s = 2`, `S_r = 1`,
suffix-array index 1. -/
theorem C2_genome_position_recovers_sa_witness :
    SentinelTerminated (['A', 'C', '$'] : List Char) ∧
    FMIndex.new ['A', 'C', '$'] 2 1 = some (fmOf ['A', 'C', '$'] 2 1) ∧
    (fmOf ['A', 'C', '$'] 2 1).get_genome_position 1 = some (SAf ['A', 'C', '$'] 1) :=
  ⟨⟨['A', 'C'], rfl, by decide⟩,
   fmIndex_new_eq ⟨['A', 'C'], rfl, by decide⟩ 2 1 (by decide),
   C2_genome_position_recovers_sa ⟨['A', 'C'], rfl, by decide⟩ (by decide)
     (by decide) (fmIndex_new_eq ⟨['A', 'C'], rfl, by decide⟩ 2 1 (by decide))
     (by decide)⟩

theorem occursAt_nil (s : List Char) (p : Nat) : occursAt s [] p := rfl

theorem occ_nil (s : List Char) : occCount s [] = s.length := by
  rw [occCount, Finset.filter_true_of_mem (fun x _ => occursAt_nil s x),
    Finset.card_range]

theorem lowIdx_nil (s : List Char) : lowIdx s [] = 0 := by
  rw [lowIdx, Finset.card_eq_zero, Finset.filter_eq_empty_iff]
  intro q _
  intro ⟨h1, h2⟩
  cases hd : s.drop q with
  | nil => exact h2 hd
  | cons a as =>
    rw [hd, lexLe_cons_nil] at h1
    exact Bool.noConfusion h1

theorem occursAt_cons_iff {s : List Char} {c : Char} {q : List Char} {pos : Nat}
    (hpos : pos < s.length) :
    occursAt s (c :: q) pos ↔ (s.getD pos '$' = c ∧ occursAt s q (pos + 1)) := by
  unfold occursAt
  rw [drop_eq_getD_cons hpos, List.length_cons, List.take_succ_cons]
  constructor
  · intro h
    injection h with h1 h2
    exact ⟨h1, h2⟩
  · intro ⟨h1, h2⟩
    rw [h1, h2]

theorem occursAt_pos_lt {s v : List Char} (hv : v ≠ []) {p : Nat}
    (h : occursAt s v p) : p < s.length := by
  by_contra hge
  unfold occursAt at h
  rw [List.drop_eq_nil_of_le (by omega), List.take_nil] at h
  exact hv h.symm

theorem occursAt_append_right {s u v : List Char} {p : Nat}
    (h : occursAt s (u ++ v) p) : occursAt s v (p + u.length) := by
  unfold occursAt at h ⊢
  rw [List.length_append] at h
  rw [← List.drop_drop, List.take_drop, h, List.drop_left]

/-- Transfer of counting from suffix-array rows to reference positions. -/
theorem card_filter_sa (s : List Char) (P : Nat → Prop) [DecidablePred P] :
    ((Finset.range s.length).filter (fun r => P (SAf s r))).card
      = ((Finset.range s.length).filter P).card := by
  apply Finset.card_bij (fun r _ => SAf s r)
  · intro a ha
    simp only [Finset.mem_filter, Finset.mem_range] at ha ⊢
    exact ⟨SAf_lt s ha.1, ha.2⟩
  · intro a1 ha1 a2 ha2 heq
    simp only [Finset.mem_filter, Finset.mem_range] at ha1 ha2
    exact sa_inj s ha1.1 ha2.1 heq
  · intro q hq
    simp only [Finset.mem_filter, Finset.mem_range] at hq
    obtain ⟨r, hrn, hre⟩ := sa_surj s hq.1
    refine ⟨r, ?_, hre⟩
    simp only [Finset.mem_filter, Finset.mem_range]
    exact ⟨hrn, by rw [hre]; exact hq.2⟩

/-- A downward-closed predicate on `[0, n)` holds exactly below its count. -/
theorem downward_filter_iff {n : Nat} (P : Nat → Prop) [DecidablePred P]
    (hdc : ∀ r r', r' ≤ r → r < n → P r → P r') {r : Nat} (hr : r < n) :
    P r ↔ r < ((Finset.range n).filter P).card := by
  constructor
  · intro hP
    have hsub : Finset.range (r + 1) ⊆ (Finset.range n).filter P := by
      intro x hx
      rw [Finset.mem_range] at hx
      rw [Finset.mem_filter, Finset.mem_range]
      exact ⟨by omega, hdc r x (by omega) hr hP⟩
    have := Finset.card_le_card hsub
    rw [Finset.card_range] at this
    omega
  · intro hlt
    by_contra hnP
    have hsub : (Finset.range n).filter P ⊆ Finset.range r := by
      intro x hx
      rw [Finset.mem_filter, Finset.mem_range] at hx
      rw [Finset.mem_range]
      by_contra hge
      exact hnP (hdc x r (by omega) hx.1 hx.2)
    have := Finset.card_le_card hsub
    rw [Finset.card_range] at this
    omega

/-- A row's suffix is below the pattern iff the row is below `lowIdx`. -/
theorem row_below_iff (s : List Char) (pat : List Char) {r : Nat}
    (hr : r < s.length) :
    lexLt (s.drop (SAf s r)) pat ↔ r < lowIdx s pat := by
  have hcard : ((Finset.range s.length).filter
      (fun r => lexLt (s.drop (SAf s r)) pat)).card = lowIdx s pat :=
    card_filter_sa s (fun pos => lexLt (s.drop pos) pat)
  rw [← hcard]
  refine downward_filter_iff (fun a => lexLt (s.drop (SAf s a)) pat) ?_ hr
  intro a a' hle han hP
  rcases Nat.eq_or_lt_of_le hle with h | h
  · subst h
    exact hP
  · exact lexLt_trans (sa_strict s (by omega) han h) hP

/-- The rows whose suffix is below the pattern or starts with it form the
initial segment of length `lowIdx + occCount`. -/
theorem row_union_iff {s : List Char} (pat : List Char) {r : Nat}
    (hr : r < s.length) :
    (lexLt (s.drop (SAf s r)) pat ∨ occursAt s pat (SAf s r))
      ↔ r < lowIdx s pat + occCount s pat := by
  have hdis : ∀ x, ¬ (lexLt (s.drop x) pat ∧ occursAt s pat x) := by
    intro x ⟨h1, h2⟩
    exact not_lexLt_of_take_eq h2 h1
  have hcard : ((Finset.range s.length).filter
      (fun r => lexLt (s.drop (SAf s r)) pat ∨ occursAt s pat (SAf s r))).card
      = lowIdx s pat + occCount s pat := by
    rw [card_filter_sa s (fun pos => lexLt (s.drop pos) pat ∨ occursAt s pat pos)]
    rw [lowIdx, occCount]
    exact card_filter_or_disjoint _ _ hdis
  rw [← hcard]
  refine downward_filter_iff
    (fun a => lexLt (s.drop (SAf s a)) pat ∨ occursAt s pat (SAf s a)) ?_ hr
  intro a a' hle han hP
  rcases Nat.eq_or_lt_of_le hle with h | h
  · subst h
    exact hP
  · have hlt := sa_strict s (by omega) han h
    rcases hP with hP | hP
    · exact Or.inl (lexLt_trans hlt hP)
    · rcases lexLt_or_eq_or_gt (s.drop (SAf s a')) pat with h2 | h2 | h2
      · exact Or.inl h2
      · refine Or.inr ?_
        show (s.drop (SAf s a')).take pat.length = pat
        rw [h2, List.take_length]
      · by_cases h3 : (s.drop (SAf s a')).take pat.length = pat
        · exact Or.inr h3
        · exact absurd (lexLt_of_take_eq_of_lexLt pat _ _ hP h2 h3) (lexLt_asymm hlt)

/-- The rows whose suffix starts with the pattern are exactly the window
`[lowIdx, lowIdx + occCount)`. -/
theorem row_occ_iff {s : List Char} (pat : List Char) {r : Nat} (hr : r < s.length) :
    occursAt s pat (SAf s r) ↔
      (lowIdx s pat ≤ r ∧ r < lowIdx s pat + occCount s pat) := by
  constructor
  · intro h
    have h1 := (row_union_iff pat hr).mp (Or.inr h)
    have h3 : ¬ (r < lowIdx s pat) :=
      fun hlt => not_lexLt_of_take_eq h ((row_below_iff s pat hr).mpr hlt)
    exact ⟨by omega, h1⟩
  · intro ⟨h1, h2⟩
    rcases (row_union_iff pat hr).mpr h2 with h3 | h3
    · exact absurd ((row_below_iff s pat hr).mp h3) (by omega)
    · exact h3

theorem lowIdx_le (s : List Char) (pat : List Char) : lowIdx s pat ≤ s.length := by
  rw [lowIdx]
  have := Finset.card_filter_le (Finset.range s.length)
    (fun q => lexLt (s.drop q) pat)
  rwa [Finset.card_range] at this

theorem lowIdx_add_occ_le (s : List Char) (pat : List Char) :
    lowIdx s pat + occCount s pat ≤ s.length := by
  have hdis : ∀ x, ¬ (lexLt (s.drop x) pat ∧ occursAt s pat x) := by
    intro x ⟨h1, h2⟩
    exact not_lexLt_of_take_eq h2 h1
  have h : ((Finset.range s.length).filter
      (fun x => lexLt (s.drop x) pat ∨ occursAt s pat x)).card
      = ((Finset.range s.length).filter (fun q => lexLt (s.drop q) pat)).card
        + ((Finset.range s.length).filter (fun p => occursAt s pat p)).card :=
    card_filter_or_disjoint _ _ hdis
  rw [lowIdx, occCount, ← h]
  have := Finset.card_filter_le (Finset.range s.length)
    (fun x => lexLt (s.drop x) pat ∨ occursAt s pat x)
  rwa [Finset.card_range] at this

theorem SAf_pos_of_Lf_eq_nuc {s : List Char} (hs : SentinelTerminated s) {r : Nat}
    (hr : r < s.length) {c : Char} (hc : isNuc c = true) (hLc : Lf s r = c) :
    1 ≤ SAf s r := by
  by_contra h0
  have h00 : SAf s r = 0 := by omega
  rw [Lf_eq_sentinel hs hr h00] at hLc
  exact (isNuc_ne_sentinel hc) hLc.symm

theorem pos_succ_lt {s : List Char} (hs : SentinelTerminated s) {pos : Nat}
    (hpos : pos < s.length) {c : Char} (hc : isNuc c = true)
    (hpc : s.getD pos '$' = c) : pos + 1 < s.length := by
  by_contra hge
  have hlast : pos = s.length - 1 := by
    have := st_length hs
    omega
  rw [hlast, st_getD_last hs] at hpc
  exact (isNuc_ne_sentinel hc) hpc.symm

/-- BWT occurrences of a nucleotide in a row window biject with reference
positions holding that nucleotide whose successor position satisfies the
window's defining property. -/
theorem card_window_eq (s : List Char) (hs : SentinelTerminated s) {c : Char}
    (hc : isNuc c = true) {lo hi : Nat} (hhi : hi ≤ s.length) (P : Nat → Prop)
    [DecidablePred P]
    (hiff : ∀ r, r < s.length → (P (SAf s r) ↔ (lo ≤ r ∧ r < hi))) :
    ((Finset.Ico lo hi).filter (fun r => Lf s r = c)).card
      = ((Finset.range s.length).filter
          (fun pos => s.getD pos '$' = c ∧ P (pos + 1))).card := by
  apply Finset.card_bij (fun r _ => SAf s r - 1)
  · intro r hrm
    rw [Finset.mem_filter, Finset.mem_Ico] at hrm
    obtain ⟨⟨hlo, hhir⟩, hLc⟩ := hrm
    have hrn : r < s.length := by omega
    have hsa1 : 1 ≤ SAf s r := SAf_pos_of_Lf_eq_nuc hs hrn hc hLc
    have hsan := SAf_lt s hrn
    rw [Finset.mem_filter, Finset.mem_range]
    have hplus : SAf s r - 1 + 1 = SAf s r := by omega
    refine ⟨by omega, ?_, ?_⟩
    · rw [← Lf_eq_pred s hrn hsa1]
      exact hLc
    · rw [hplus]
      exact (hiff r hrn).mpr ⟨hlo, hhir⟩
  · intro a1 ha1 a2 ha2 heq
    rw [Finset.mem_filter, Finset.mem_Ico] at ha1 ha2
    have h1n : a1 < s.length := by omega
    have h2n : a2 < s.length := by omega
    have hs1 : 1 ≤ SAf s a1 := SAf_pos_of_Lf_eq_nuc hs h1n hc ha1.2
    have hs2 : 1 ≤ SAf s a2 := SAf_pos_of_Lf_eq_nuc hs h2n hc ha2.2
    apply sa_inj s h1n h2n
    omega
  · intro pos hpos
    rw [Finset.mem_filter, Finset.mem_range] at hpos
    obtain ⟨hposn, hpc, hP⟩ := hpos
    have hp1 : pos + 1 < s.length := pos_succ_lt hs hposn hc hpc
    have hrn : rankPos s (pos + 1) < s.length := rankPos_lt s hp1
    have hsa : SAf s (rankPos s (pos + 1)) = pos + 1 := SAf_rankPos s hp1
    refine ⟨rankPos s (pos + 1), ?_, by omega⟩
    rw [Finset.mem_filter, Finset.mem_Ico]
    have hwin := (hiff (rankPos s (pos + 1)) hrn).mp (by rw [hsa]; exact hP)
    refine ⟨hwin, ?_⟩
    rw [Lf_eq_pred s hrn (by omega), hsa]
    simpa using hpc

/-- Backward-search lower bound: the number of suffixes strictly below
`c :: v` is the first-column offset of `c` plus the count of `c` in the BWT
prefix of length `lowIdx v`. -/
theorem lowIdx_cons {s : List Char} (hs : SentinelTerminated s) {c : Char}
    (hc : isNuc c = true) (v : List Char) :
    lowIdx s (c :: v) = firstColNat s c + ((bwtOf s).take (lowIdx s v)).count c := by
  have hfe : (Finset.range s.length).filter (fun pos => lexLt (s.drop pos) (c :: v))
      = (Finset.range s.length).filter
          (fun pos => s.getD pos '$' < c
            ∨ (s.getD pos '$' = c ∧ lexLt (s.drop (pos + 1)) v)) := by
    apply Finset.filter_congr
    intro pos hpos
    rw [Finset.mem_range] at hpos
    rw [drop_eq_getD_cons hpos, lexLt_cons_iff]
  have hdis : ∀ x, ¬ ((s.getD x '$' < c)
      ∧ (s.getD x '$' = c ∧ lexLt (s.drop (x + 1)) v)) := by
    intro x ⟨h1, h2, _⟩
    rw [h2] at h1
    exact lt_irrefl _ h1
  have hsum : ((Finset.range s.length).filter
      (fun pos => s.getD pos '$' < c
        ∨ (s.getD pos '$' = c ∧ lexLt (s.drop (pos + 1)) v))).card
      = ((Finset.range s.length).filter (fun pos => s.getD pos '$' < c)).card
        + ((Finset.range s.length).filter
            (fun pos => s.getD pos '$' = c ∧ lexLt (s.drop (pos + 1)) v)).card :=
    card_filter_or_disjoint _ _ hdis
  rw [lowIdx, hfe, hsum]
  have hfirst : ((Finset.range s.length).filter
      (fun pos => s.getD pos '$' < c)).card = firstColNat s c := by
    have : ((Finset.range s.length).filter (fun pos => s.getD pos '$' < c)).card
        = charLtCard s c := rfl
    rw [this, charLtCard_eq hs hc]
  have hM : ((bwtOf s).take (lowIdx s v)).count c
      = ((Finset.range s.length).filter
          (fun pos => s.getD pos '$' = c ∧ lexLt (s.drop (pos + 1)) v)).card := by
    have hcnt : ((bwtOf s).take (lowIdx s v)).count c
        = ((Finset.range (lowIdx s v)).filter (fun r => Lf s r = c)).card :=
      count_take_card (bwtOf s) '$' c (lowIdx s v)
        (by rw [bwt_length]; exact lowIdx_le s v)
    rw [hcnt]
    nth_rewrite 1 [Finset.range_eq_Ico]
    exact card_window_eq s hs hc (lowIdx_le s v) (fun x => lexLt (s.drop x) v)
      (fun r hrn => ⟨fun h => ⟨Nat.zero_le _, (row_below_iff s v hrn).mp h⟩,
        fun h => (row_below_iff s v hrn).mpr h.2⟩)
  rw [hfirst, hM]

/-- Backward-search window count: the occurrences of `c :: v` are counted by
the `c`-entries of the BWT inside the `v`-window. -/
theorem occ_cons {s : List Char} (hs : SentinelTerminated s) {c : Char}
    (hc : isNuc c = true) (v : List Char) :
    ((bwtOf s).take (lowIdx s v)).count c + occCount s (c :: v)
      = ((bwtOf s).take (lowIdx s v + occCount s v)).count c := by
  have hbl := bwt_length s
  have h1 : ((bwtOf s).take (lowIdx s v)).count c
      = ((Finset.range (lowIdx s v)).filter (fun r => Lf s r = c)).card :=
    count_take_card (bwtOf s) '$' c (lowIdx s v)
      (by rw [hbl]; exact lowIdx_le s v)
  have h2 : ((bwtOf s).take (lowIdx s v + occCount s v)).count c
      = ((Finset.range (lowIdx s v + occCount s v)).filter
          (fun r => Lf s r = c)).card :=
    count_take_card (bwtOf s) '$' c (lowIdx s v + occCount s v)
      (by rw [hbl]; exact lowIdx_add_occ_le s v)
  rw [h1, h2]
  have hsplit : Finset.range (lowIdx s v + occCount s v)
      = Finset.range (lowIdx s v)
        ∪ Finset.Ico (lowIdx s v) (lowIdx s v + occCount s v) := by
    rw [Finset.range_eq_Ico,
      Finset.Ico_union_Ico_eq_Ico (Nat.zero_le _) (Nat.le_add_right _ _)]
  have hdisj : Disjoint
      ((Finset.range (lowIdx s v)).filter (fun r => Lf s r = c))
      ((Finset.Ico (lowIdx s v) (lowIdx s v + occCount s v)).filter
        (fun r => Lf s r = c)) := by
    apply Finset.disjoint_filter_filter
    rw [Finset.range_eq_Ico]
    exact Finset.Ico_disjoint_Ico_consecutive _ _ _
  rw [hsplit, Finset.filter_union, Finset.card_union_of_disjoint hdisj]
  congr 1
  have hwin := card_window_eq s hs hc (lowIdx_add_occ_le s v)
    (fun x => occursAt s v x) (fun r hrn => row_occ_iff v hrn)
  rw [hwin]
  have hfe : (Finset.range s.length).filter
      (fun pos => s.getD pos '$' = c ∧ occursAt s v (pos + 1))
      = (Finset.range s.length).filter (fun pos => occursAt s (c :: v) pos) := by
    apply Finset.filter_congr
    intro pos hpos
    rw [Finset.mem_range] at hpos
    exact (occursAt_cons_iff hpos).symm
  rw [occCount, hfe]

theorem firstColNat_pos (s : List Char) (c : Char) : 1 ≤ firstColNat s c := by
  unfold firstColNat
  split_ifs <;> omega

theorem bottomRank_eq (s : List Char) (S_s S_r : Nat) (hSr : 1 ≤ S_r) {c : Char}
    (hc : isNuc c = true) :
    ∀ (m : Nat), m ≤ s.length →
      bottom_rank_of (fmOf s S_s S_r) c m = some (((bwtOf s).take m).count c + 1)
  | 0, _ => rfl
  | b + 1, hm => by
    rw [bottom_rank_of, rank_correct s S_s S_r hSr hc (show b < s.length by omega)]
    rfl

theorem occ_zero_ext {s : List Char} {u v : List Char} (hv : v ≠ [])
    (h0 : occCount s v = 0) : occCount s (u ++ v) = 0 := by
  rw [occCount, Finset.card_eq_zero, Finset.filter_eq_empty_iff]
  intro pos _ hocc
  have h2 := occursAt_append_right hocc
  have h3 : pos + u.length < s.length := occursAt_pos_lt hv h2
  rw [occCount] at h0
  have h4 := Finset.card_eq_zero.mp h0
  have h5 : pos + u.length ∈ (Finset.range s.length).filter
      (fun q => occursAt s v q) :=
    Finset.mem_filter.mpr ⟨Finset.mem_range.mpr h3, h2⟩
  rw [h4] at h5
  exact absurd h5 (Finset.not_mem_empty _)

/-- The backward-search loop invariant: starting from the exact window of
the already-matched suffix `v`, processing the remaining (reversed) pattern
characters yields the window of the full pattern, or the empty range if it
stops occurring. -/
theorem lookupLoop_correct {s : List Char} (hs : SentinelTerminated s)
    (S_s S_r : Nat) (hSr : 1 ≤ S_r) :
    ∀ (rev v : List Char), (∀ ch ∈ rev, isNuc ch = true) → 1 ≤ occCount s v →
      lookupLoop (fmOf s S_s S_r) rev (lowIdx s v) (lowIdx s v + occCount s v)
        = some (if 1 ≤ occCount s (rev.reverse ++ v) then
              (lowIdx s (rev.reverse ++ v),
                lowIdx s (rev.reverse ++ v) + occCount s (rev.reverse ++ v))
            else (0, 0))
  | [], v, _, hocc => by
    rw [List.reverse_nil, List.nil_append, lookupLoop, if_pos hocc]
  | c :: rest, v, hnuc, hocc => by
    have hc : isNuc c = true := hnuc c (by simp)
    have hrest : ∀ ch ∈ rest, isNuc ch = true := fun ch hch => hnuc ch (by simp [hch])
    have hfull : (c :: rest).reverse ++ v = rest.reverse ++ (c :: v) := by simp
    rw [hfull]
    have hlow := lowIdx_le s v
    have htop := lowIdx_add_occ_le s v
    have hbr := bottomRank_eq s S_s S_r hSr hc (lowIdx s v) hlow
    have h1 : lowIdx s v + occCount s v - 1 < s.length := by omega
    have h2 : lowIdx s v + occCount s v - 1 + 1 = lowIdx s v + occCount s v := by
      omega
    have htr := rank_correct s S_s S_r hSr hc h1
    rw [h2] at htr
    have hocc_eq := occ_cons hs hc v
    have hfc := firstColNat_pos s c
    rw [lookupLoop, hbr]
    simp only [Option.bind_eq_bind, Option.some_bind]
    rw [htr]
    simp only [Option.some_bind]
    by_cases hcv : 1 ≤ occCount s (c :: v)
    · rw [if_neg (by omega)]
      rw [lf_eq s S_s S_r hc (((bwtOf s).take (lowIdx s v)).count c + 1)]
      simp only [Option.bind_eq_bind, Option.some_bind]
      rw [lf_eq s S_s S_r hc
        (((bwtOf s).take (lowIdx s v + occCount s v)).count c)]
      simp only [Option.some_bind]
      have hb' : firstColNat s c + (((bwtOf s).take (lowIdx s v)).count c + 1) - 1
          = lowIdx s (c :: v) := by
        rw [lowIdx_cons hs hc v]
        omega
      rw [hb']
      have ht' : firstColNat s c
            + ((bwtOf s).take (lowIdx s v + occCount s v)).count c - 1 + 1
          = lowIdx s (c :: v) + occCount s (c :: v) := by
        rw [lowIdx_cons hs hc v]
        omega
      rw [ht']
      exact lookupLoop_correct hs S_s S_r hSr rest (c :: v) hrest hcv
    · have hz : occCount s (c :: v) = 0 := by omega
      rw [if_pos (by omega)]
      have hext : occCount s (rest.reverse ++ (c :: v)) = 0 :=
        occ_zero_ext (by simp) hz
      rw [hext, if_neg (by omega)]

/-- `FMIndex::lookup` on a nucleotide pattern returns the suffix-array
window of the pattern (the explicit empty range when it does not occur). -/
theorem lookup_correct {s : List Char} (hs : SentinelTerminated s) (S_s S_r : Nat)
    (hSr : 1 ≤ S_r) {p : List Char} (hp : ∀ ch ∈ p, isNuc ch = true) :
    (fmOf s S_s S_r).lookup p
      = some (if 1 ≤ occCount s p then (lowIdx s p, lowIdx s p + occCount s p)
          else (0, 0)) := by
  rw [FMIndex.lookup]
  have hseq : (fmOf s S_s S_r).seq_len = s.length := rfl
  rw [hseq]
  have h := lookupLoop_correct hs S_s S_r hSr p.reverse []
    (fun ch hch => hp ch (List.mem_reverse.mp hch))
    (by rw [occ_nil]; exact st_length hs)
  rw [lowIdx_nil, occ_nil, List.reverse_reverse, List.append_nil, Nat.zero_add] at h
  exact h

/-- Counterexample to C1 as stated: `"$"` is a substring of the reference
`"A$"` (it occurs at position 1), yet `lookup` panics on it — the rank query
reaches `NucStratified::get('$')` — instead of returning a range. -/
theorem C1_counterexample :
    SentinelTerminated (['A', '$'] : List Char) ∧
    occursAt ['A', '$'] ['$'] 1 ∧
    FMIndex.new ['A', '$'] 1 1 = some (fmOf ['A', '$'] 1 1) ∧
    (fmOf ['A', '$'] 1 1).lookup ['$'] = none :=
  ⟨⟨['A'], rfl, by decide⟩, by decide,
   fmIndex_new_eq ⟨['A'], rfl, by decide⟩ 1 1 (by decide), by decide⟩

/-- C1 (amended to patterns over `{A,C,G,T}`): on the FMIndex of a
sentinel-terminated reference, `lookup` of a nucleotide pattern returns a
half-open range whose size is the number of occurrences of the pattern
(in particular an empty range when the pattern does not occur), and
`get_genome_position` maps every SA index of the range to a reference
position where the pattern occurs. -/
theorem C1_lookup_counts_and_positions {s : List Char} {S_s S_r : Nat}
    {fm : FMIndex} (hs : SentinelTerminated s) (hSs : 1 ≤ S_s) (hSr : 1 ≤ S_r)
    (hnew : FMIndex.new s S_s S_r = some fm) {p : List Char}
    (hp : ∀ ch ∈ p, isNuc ch = true) :
    ∃ b t, fm.lookup p = some (b, t) ∧ t - b = occCount s p ∧
      ∀ i, b ≤ i → i < t →
        ∃ pos, fm.get_genome_position i = some pos ∧ occursAt s p pos := by
  rw [fmIndex_new_eq hs S_s S_r hSr] at hnew
  have heq := Option.some.inj hnew
  subst heq
  rw [lookup_correct hs S_s S_r hSr hp]
  by_cases hocc : 1 ≤ occCount s p
  · rw [if_pos hocc]
    refine ⟨lowIdx s p, lowIdx s p + occCount s p, rfl, by omega, ?_⟩
    intro i hbi hit
    have hin : i < s.length := lt_of_lt_of_le hit (lowIdx_add_occ_le s p)
    refine ⟨SAf s i, gp_correct hs S_s S_r hSs hSr hin, ?_⟩
    exact (row_occ_iff p hin).mpr ⟨hbi, hit⟩
  · rw [if_neg hocc]
    refine ⟨0, 0, rfl, by omega, ?_⟩
    intro i hbi hit
    omega

/-- Witness for C1 on the reference "AC$" with pattern "A". -/
theorem C1_lookup_counts_and_positions_witness :
    SentinelTerminated (['A', 'C', '$'] : List Char) ∧
    (∀ ch ∈ (['A'] : List Char), isNuc ch = true) ∧
    (∃ b t, (fmOf ['A', 'C', '$'] 1 1).lookup ['A'] = some (b, t) ∧
      t - b = occCount ['A', 'C', '$'] ['A'] ∧
      ∀ i, b ≤ i → i < t →
        ∃ pos, (fmOf ['A', 'C', '$'] 1 1).get_genome_position i = some pos ∧
          occursAt ['A', 'C', '$'] ['A'] pos) :=
  ⟨⟨['A', 'C'], rfl, by decide⟩, by decide,
   C1_lookup_counts_and_positions ⟨['A', 'C'], rfl, by decide⟩ (by decide)
     (by decide) (fmIndex_new_eq ⟨['A', 'C'], rfl, by decide⟩ 1 1 (by decide))
     (by decide)⟩

theorem NucStratified.get_nonnuc {T : Type} (ns : NucStratified T) {d : Char}
    (hd : isNuc d = false) : ns.get d = none := by
  unfold NucStratified.get
  split
  · rw [isNuc] at hd
    simp at hd
  · rw [isNuc] at hd
    simp at hd
  · rw [isNuc] at hd
    simp at hd
  · rw [isNuc] at hd
    simp at hd
  · rfl

theorem rank_nonnuc (fm : FMIndex) {d : Char} (hd : isNuc d = false) (i : Nat) :
    fm.get_rank_for_index d i = none := by
  rw [FMIndex.get_rank_for_index, NucStratified.get_nonnuc fm.ranks hd]
  rfl

/-- Backward search starting from an exact nonempty window panics as soon as
it reaches a non-nucleotide character (unless an earlier character already
emptied the window, in which case it returns `(0, 0)`). -/
theorem lookupLoop_stuck {s : List Char} (hs : SentinelTerminated s)
    (S_s S_r : Nat) (hSr : 1 ≤ S_r) {d : Char} (hd : isNuc d = false) :
    ∀ (rev : List Char) (tail v : List Char), (∀ ch ∈ rev, isNuc ch = true) →
      1 ≤ occCount s v →
      lookupLoop (fmOf s S_s S_r) (rev ++ d :: tail) (lowIdx s v)
          (lowIdx s v + occCount s v)
        = if 1 ≤ occCount s (rev.reverse ++ v) then none else some (0, 0)
  | [], tail, v, _, hocc => by
    rw [List.reverse_nil]
    simp only [List.nil_append]
    rw [if_pos hocc, lookupLoop]
    rcases hE : lowIdx s v with _ | b
    · have hbr : bottom_rank_of (fmOf s S_s S_r) d 0 = some 1 := rfl
      rw [hbr]
      simp only [Option.bind_eq_bind, Option.some_bind]
      rw [rank_nonnuc _ hd]
      rfl
    · have hbr : bottom_rank_of (fmOf s S_s S_r) d (b + 1)
          = ((fmOf s S_s S_r).get_rank_for_index d b).bind fun r => some (r + 1) :=
        rfl
      rw [hbr, rank_nonnuc _ hd]
      rfl
  | c :: rest, tail, v, hnuc, hocc => by
    have hc : isNuc c = true := hnuc c (by simp)
    have hrest : ∀ ch ∈ rest, isNuc ch = true := fun ch hch => hnuc ch (by simp [hch])
    have hfull : (c :: rest).reverse ++ v = rest.reverse ++ (c :: v) := by simp
    rw [hfull]
    have hlow := lowIdx_le s v
    have htop := lowIdx_add_occ_le s v
    have hbr := bottomRank_eq s S_s S_r hSr hc (lowIdx s v) hlow
    have h1 : lowIdx s v + occCount s v - 1 < s.length := by omega
    have h2 : lowIdx s v + occCount s v - 1 + 1 = lowIdx s v + occCount s v := by
      omega
    have htr := rank_correct s S_s S_r hSr hc h1
    rw [h2] at htr
    have hocc_eq := occ_cons hs hc v
    have hfc := firstColNat_pos s c
    rw [List.cons_append, lookupLoop, hbr]
    simp only [Option.bind_eq_bind, Option.some_bind]
    rw [htr]
    simp only [Option.some_bind]
    by_cases hcv : 1 ≤ occCount s (c :: v)
    · rw [if_neg (by omega)]
      rw [lf_eq s S_s S_r hc (((bwtOf s).take (lowIdx s v)).count c + 1)]
      simp only [Option.bind_eq_bind, Option.some_bind]
      rw [lf_eq s S_s S_r hc
        (((bwtOf s).take (lowIdx s v + occCount s v)).count c)]
      simp only [Option.some_bind]
      have hb' : firstColNat s c + (((bwtOf s).take (lowIdx s v)).count c + 1) - 1
          = lowIdx s (c :: v) := by
        rw [lowIdx_cons hs hc v]
        omega
      rw [hb']
      have ht' : firstColNat s c
            + ((bwtOf s).take (lowIdx s v + occCount s v)).count c - 1 + 1
          = lowIdx s (c :: v) + occCount s (c :: v) := by
        rw [lowIdx_cons hs hc v]
        omega
      rw [ht']
      exact lookupLoop_stuck hs S_s S_r hSr hd rest tail (c :: v) hrest hcv
    · have hz : occCount s (c :: v) = 0 := by omega
      rw [if_pos (by omega)]
      have hext : occCount s (rest.reverse ++ (c :: v)) = 0 :=
        occ_zero_ext (by simp) hz
      rw [hext, if_neg (by omega)]

/-- `FMIndex::lookup` on a pattern whose last non-nucleotide character is
`d`: the result does not depend on the sampling parameters. -/
theorem lookup_nonnuc_eq {s : List Char} (hs : SentinelTerminated s)
    (S_s S_r : Nat) (hSr : 1 ≤ S_r) {a v : List Char} {d : Char}
    (hd : isNuc d = false) (hv : ∀ ch ∈ v, isNuc ch = true) :
    (fmOf s S_s S_r).lookup (a ++ d :: v)
      = if 1 ≤ occCount s v then none else some (0, 0) := by
  rw [FMIndex.lookup]
  have hseq : (fmOf s S_s S_r).seq_len = s.length := rfl
  rw [hseq]
  have hrev : (a ++ d :: v).reverse = v.reverse ++ d :: a.reverse := by
    simp
  rw [hrev]
  have h := lookupLoop_stuck hs S_s S_r hSr hd v.reverse a.reverse []
    (fun ch hch => hv ch (List.mem_reverse.mp hch))
    (by rw [occ_nil]; exact st_length hs)
  rw [lowIdx_nil, occ_nil, List.reverse_reverse, List.append_nil, Nat.zero_add] at h
  exact h

/-- Every pattern is a nucleotide string, or splits at its last
non-nucleotide character. -/
theorem nuc_decomp (p : List Char) :
    (∀ ch ∈ p, isNuc ch = true)
      ∨ ∃ a d v, p = a ++ d :: v ∧ isNuc d = false ∧ ∀ ch ∈ v, isNuc ch = true := by
  induction p with
  | nil => exact Or.inl (by simp)
  | cons c rest ih =>
    rcases ih with hall | ⟨a, d, v, hre, hd, hv⟩
    · by_cases hc : isNuc c = true
      · refine Or.inl ?_
        intro ch hch
        rcases List.mem_cons.mp hch with h | h
        · rw [h]
          exact hc
        · exact hall ch h
      · exact Or.inr ⟨[], c, rest, rfl, by simpa using hc, hall⟩
    · exact Or.inr ⟨c :: a, d, v, by rw [hre, List.cons_append], hd, hv⟩

/-- C7: two FMIndexes built over the same sentinel-terminated reference with
any sampling steps `≥ 1` answer every `lookup` (on arbitrary patterns,
panics included) and every in-range `get_genome_position` identically. -/
theorem C7_sampling_independence {s : List Char} (hs : SentinelTerminated s)
    {S_s S_r S_s2 S_r2 : Nat} (h1 : 1 ≤ S_s) (h2 : 1 ≤ S_r) (h3 : 1 ≤ S_s2)
    (h4 : 1 ≤ S_r2) {fm fm2 : FMIndex}
    (hnew : FMIndex.new s S_s S_r = some fm)
    (hnew2 : FMIndex.new s S_s2 S_r2 = some fm2) :
    (∀ p : List Char, fm.lookup p = fm2.lookup p) ∧
    (∀ i, i < s.length → fm.get_genome_position i = fm2.get_genome_position i) := by
  rw [fmIndex_new_eq hs S_s S_r h2] at hnew
  rw [fmIndex_new_eq hs S_s2 S_r2 h4] at hnew2
  have heq := Option.some.inj hnew
  have heq2 := Option.some.inj hnew2
  subst heq
  subst heq2
  constructor
  · intro p
    rcases nuc_decomp p with hall | ⟨a, d, v, hre, hd, hv⟩
    · rw [lookup_correct hs S_s S_r h2 hall, lookup_correct hs S_s2 S_r2 h4 hall]
    · subst hre
      rw [lookup_nonnuc_eq hs S_s S_r h2 hd hv,
        lookup_nonnuc_eq hs S_s2 S_r2 h4 hd hv]
  · intro i hi
    rw [gp_correct hs S_s S_r h1 h2 hi, gp_correct hs S_s2 S_r2 h3 h4 hi]

/-- Witness for C7 on the reference "A$" with steps (1,1) versus (2,3),
pattern "A" and SA index 1. -/
theorem C7_sampling_independence_witness :
    SentinelTerminated (['A', '$'] : List Char) ∧
    FMIndex.new ['A', '$'] 1 1 = some (fmOf ['A', '$'] 1 1) ∧
    FMIndex.new ['A', '$'] 2 3 = some (fmOf ['A', '$'] 2 3) ∧
    (fmOf ['A', '$'] 1 1).lookup ['A'] = (fmOf ['A', '$'] 2 3).lookup ['A'] ∧
    (fmOf ['A', '$'] 1 1).get_genome_position 1
      = (fmOf ['A', '$'] 2 3).get_genome_position 1 :=
  ⟨⟨['A'], rfl, by decide⟩,
   fmIndex_new_eq ⟨['A'], rfl, by decide⟩ 1 1 (by decide),
   fmIndex_new_eq ⟨['A'], rfl, by decide⟩ 2 3 (by decide),
   (C7_sampling_independence ⟨['A'], rfl, by decide⟩ (by decide) (by decide)
      (by decide) (by decide)
      (fmIndex_new_eq ⟨['A'], rfl, by decide⟩ 1 1 (by decide))
      (fmIndex_new_eq ⟨['A'], rfl, by decide⟩ 2 3 (by decide))).1 ['A'],
   (C7_sampling_independence ⟨['A'], rfl, by decide⟩ (by decide) (by decide)
      (by decide) (by decide)
      (fmIndex_new_eq ⟨['A'], rfl, by decide⟩ 1 1 (by decide))
      (fmIndex_new_eq ⟨['A'], rfl, by decide⟩ 2 3 (by decide))).2 1 (by decide)⟩

/-- The extension loop counts, and maximizes, the matches of the extension
characters against the reference characters preceding `SA[r]`, right to
left. -/
theorem cemLoop_correct {s : List Char} (hs : SentinelTerminated s)
    (S_s S_r : Nat) (hSr : 1 ≤ S_r) :
    ∀ (e : List Char) (k r : Nat), r < s.length → (∀ ch ∈ e, isNuc ch = true) →
      ∃ m, cemLoop (fmOf s S_s S_r) e k r = some (k + m) ∧ m ≤ e.length ∧
        m ≤ SAf s r ∧
        (∀ j, j < m → e.getD j '$' = s.getD (SAf s r - 1 - j) '$') ∧
        (∀ kk, kk ≤ e.length → kk ≤ SAf s r →
          (∀ j, j < kk → e.getD j '$' = s.getD (SAf s r - 1 - j) '$') → kk ≤ m)
  | [], k, r, hr, _ => by
    refine ⟨0, ?_, by omega, by omega, ?_, ?_⟩
    · rw [cemLoop, Nat.add_zero]
    · intro j hj
      omega
    · intro kk hk1 _ _
      simp at hk1
      omega
  | c :: e2, k, r, hr, hnuc => by
    have hc : isNuc c = true := hnuc c (by simp)
    have he2 : ∀ ch ∈ e2, isNuc ch = true := fun ch hch => hnuc ch (by simp [hch])
    have hchar := fm_char_correct s S_s S_r hSr hr
    rw [cemLoop, hchar]
    simp only [Option.bind_eq_bind, Option.some_bind]
    by_cases hm0 : SAf s r = 0
    · have hLf : Lf s r = '$' := Lf_eq_sentinel hs hr hm0
      have hne : Lf s r ≠ c := by
        rw [hLf]
        exact fun he => (isNuc_ne_sentinel hc) he.symm
      rw [if_pos hne]
      refine ⟨0, by rw [Nat.add_zero], by omega, by omega, ?_, ?_⟩
      · intro j hj
        omega
      · intro kk _ hk2 _
        omega
    · have hsa1 : 1 ≤ SAf s r := by omega
      have hpred : Lf s r = s.getD (SAf s r - 1) '$' := Lf_eq_pred s hr hsa1
      by_cases hne : Lf s r ≠ c
      · rw [if_pos hne]
        refine ⟨0, by rw [Nat.add_zero], by omega, by omega, ?_, ?_⟩
        · intro j hj
          omega
        · intro kk hk1 hk2 hmatch
          by_contra hgt
          have h0 := hmatch 0 (by omega)
          rw [List.getD_cons_zero, Nat.sub_zero] at h0
          exact hne (hpred.trans h0.symm)
      · rw [if_neg hne]
        have hLc : Lf s r = c := not_not.mp hne
        have hnucL := Lf_isNuc hs hr hsa1
        have hrank := rank_correct s S_s S_r hSr hnucL hr
        rw [hrank]
        simp only [Option.bind_eq_bind, Option.some_bind]
        have hlf := lf_eq s S_s S_r hnucL (((bwtOf s).take (r + 1)).count (Lf s r))
        rw [hlf]
        simp only [Option.some_bind]
        rw [lf_rank_correct hs hr hsa1]
        have hsan := SAf_lt s hr
        have hr2 : rankPos s (SAf s r - 1) < s.length := rankPos_lt s (by omega)
        have hsa2 : SAf s (rankPos s (SAf s r - 1)) = SAf s r - 1 :=
          SAf_rankPos s (by omega)
        obtain ⟨m2, hm2eq, hm2len, hm2sa, hm2match, hm2max⟩ :=
          cemLoop_correct hs S_s S_r hSr e2 (k + 1) (rankPos s (SAf s r - 1))
            hr2 he2
        rw [hsa2] at hm2sa hm2match hm2max
        refine ⟨m2 + 1, ?_, by rw [List.length_cons]; omega, by omega, ?_, ?_⟩
        · rw [hm2eq]
          congr 1
          omega
        · intro j hj
          cases j with
          | zero =>
            rw [List.getD_cons_zero, Nat.sub_zero, ← hpred, hLc]
          | succ j2 =>
            have hj2 : j2 < m2 := by omega
            have hstep := hm2match j2 hj2
            rw [List.getD_cons_succ, hstep]
            congr 1
            omega
        · intro kk hk1 hk2 hmatch
          cases kk with
          | zero => omega
          | succ kk2 =>
            rw [List.length_cons] at hk1
            have h1 : kk2 ≤ e2.length := by omega
            have h2 : kk2 ≤ SAf s r - 1 := by omega
            have h3 : ∀ j, j < kk2 →
                e2.getD j '$' = s.getD (SAf s r - 1 - 1 - j) '$' := by
              intro j hj
              have hstep := hmatch (j + 1) (by omega)
              rw [List.getD_cons_succ] at hstep
              rw [hstep]
              congr 1
              omega
            have := hm2max kk2 h1 h2 h3
            omega

/-- C3: `count_extension_matches(i, e)` for a nucleotide extension `e` and
an SA index `i` whose recovered genome position is `p` returns the length of
the longest prefix of `e` matching, right-to-left, the reference characters
immediately preceding position `p` (`e[j]` against `R[p−1−j]`); maximality
includes the full-match case `m = len(e)`. -/
theorem C3_count_extension_matches {s : List Char} {S_s S_r : Nat}
    {fm : FMIndex} (hs : SentinelTerminated s) (hSs : 1 ≤ S_s) (hSr : 1 ≤ S_r)
    (hnew : FMIndex.new s S_s S_r = some fm) {i : Nat} (hi : i < s.length)
    {p : Nat} (hgp : fm.get_genome_position i = some p) {e : List Char}
    (he : ∀ ch ∈ e, isNuc ch = true) :
    ∃ m, fm.count_extension_matches i e = some m ∧ m ≤ e.length ∧ m ≤ p ∧
      (∀ j, j < m → e.getD j '$' = s.getD (p - 1 - j) '$') ∧
      (∀ kk, kk ≤ e.length → kk ≤ p →
        (∀ j, j < kk → e.getD j '$' = s.getD (p - 1 - j) '$') → kk ≤ m) := by
  rw [fmIndex_new_eq hs S_s S_r hSr] at hnew
  have heqf := Option.some.inj hnew
  subst heqf
  have hp : p = SAf s i := by
    have hgp2 := gp_correct hs S_s S_r hSs hSr hi
    rw [hgp2] at hgp
    exact (Option.some.inj hgp).symm
  subst hp
  obtain ⟨m, hme, h1, h2, h3, h4⟩ := cemLoop_correct hs S_s S_r hSr e 0 i hi he
  rw [Nat.zero_add] at hme
  exact ⟨m, hme, h1, h2, h3, h4⟩

/-- Witness for C3 on the reference "AC$", SA index 2 (suffix "C$" at
position 1), extension "A": one match against the preceding character
`R[0] = 'A'`. -/
theorem C3_count_extension_matches_witness :
    SentinelTerminated (['A', 'C', '$'] : List Char) ∧
    FMIndex.new ['A', 'C', '$'] 1 1 = some (fmOf ['A', 'C', '$'] 1 1) ∧
    (fmOf ['A', 'C', '$'] 1 1).get_genome_position 2 = some 1 ∧
    (∃ m, (fmOf ['A', 'C', '$'] 1 1).count_extension_matches 2 ['A'] = some m ∧
      m ≤ (['A'] : List Char).length ∧ m ≤ 1 ∧
      (∀ j, j < m →
        (['A'] : List Char).getD j '$' = (['A', 'C', '$'] : List Char).getD (1 - 1 - j) '$') ∧
      (∀ kk, kk ≤ (['A'] : List Char).length → kk ≤ 1 →
        (∀ j, j < kk →
          (['A'] : List Char).getD j '$'
            = (['A', 'C', '$'] : List Char).getD (1 - 1 - j) '$') → kk ≤ m)) :=
  ⟨⟨['A', 'C'], rfl, by decide⟩,
   fmIndex_new_eq ⟨['A', 'C'], rfl, by decide⟩ 1 1 (by decide),
   by decide,
   C3_count_extension_matches ⟨['A', 'C'], rfl, by decide⟩ (by decide) (by decide)
     (fmIndex_new_eq ⟨['A', 'C'], rfl, by decide⟩ 1 1 (by decide)) (by decide)
     (by decide) (by decide)⟩

/-- `ReadMappingIndex::new` on a nucleotide genome builds the two
FM-indexes over the sentinel-terminated genome and its reversal. -/
theorem rmIndex_new_eq {g : List Char} (hg : ∀ ch ∈ g, isNuc ch = true) :
    ReadMappingIndex.new g
      = some ⟨fmOf (g ++ ['$']) 128 128, fmOf (g.reverse ++ ['$']) 128 128,
          g.length + 1⟩ := by
  rw [ReadMappingIndex.new]
  rw [fmIndex_new_eq ⟨g, rfl, hg⟩ 128 128 (by omega)]
  simp only [Option.bind_eq_bind, Option.some_bind]
  rw [fmIndex_new_eq
    ⟨g.reverse, rfl, fun ch hch => hg ch (List.mem_reverse.mp hch)⟩
    128 128 (by omega)]
  simp only [Option.some_bind]

/-- C10: with `max_seeds = 0` the capped seed loop runs zero iterations, so
`map_read` returns `None` (and does not panic) for every valid read. -/
theorem C10_zero_max_seeds {g : List Char} {idx : ReadMappingIndex}
    (hidx : ReadMappingIndex.new g = some idx) {read : List Char}
    {seed_length : Nat} (hL : 1 ≤ seed_length) (hlen : seed_length ≤ read.length)
    (σ : List (Nat × Nat) → List (Nat × Nat)) :
    idx.map_read read seed_length 0 σ = some none := by
  rw [ReadMappingIndex.map_read, if_neg (by omega), Nat.min_zero]
  rfl

/-- Witness for C10 on the genome "A" with read "A", seed length 1. -/
theorem C10_zero_max_seeds_witness :
    ReadMappingIndex.new ['A']
      = some ⟨fmOf (['A'] ++ ['$']) 128 128, fmOf (['A'].reverse ++ ['$']) 128 128, 2⟩ ∧
    (⟨fmOf (['A'] ++ ['$']) 128 128, fmOf (['A'].reverse ++ ['$']) 128 128, 2⟩ :
        ReadMappingIndex).map_read ['A'] 1 0 (fun m => m) = some none :=
  ⟨rmIndex_new_eq (by decide),
   C10_zero_max_seeds (rmIndex_new_eq (by decide)) (by decide) (by decide)
     (fun m => m)⟩

/-- C8: `map_read` panics exactly when the read is shorter than the seed
length, and the seed loop is capped at `read.len() / seed_length` attempts:
any larger `max_seeds` behaves identically to the cap. -/
theorem C8_assert_and_cap (idx : ReadMappingIndex) (read : List Char)
    (seed_length max_seeds : Nat) (σ : List (Nat × Nat) → List (Nat × Nat)) :
    (read.length < seed_length → idx.map_read read seed_length max_seeds σ = none) ∧
    idx.map_read read seed_length max_seeds σ
      = idx.map_read read seed_length
          (min (read.length / seed_length) max_seeds) σ := by
  constructor
  · intro h
    rw [ReadMappingIndex.map_read, if_pos h]
  · rw [ReadMappingIndex.map_read, ReadMappingIndex.map_read]
    by_cases h : read.length < seed_length
    · rw [if_pos h, if_pos h]
    · rw [if_neg h, if_neg h, ← Nat.min_assoc, Nat.min_self]

/-- Witness for C8: the panicking short read "A" with seed length 2, and
cap-equivalence on the read "AA" with seed length 1, `max_seeds = 5`. -/
theorem C8_assert_and_cap_witness :
    ((['A'] : List Char).length < 2) ∧
    (⟨fmOf (['A'] ++ ['$']) 128 128, fmOf (['A'].reverse ++ ['$']) 128 128, 2⟩ :
        ReadMappingIndex).map_read ['A'] 2 4 (fun m => m) = none ∧
    (⟨fmOf (['A'] ++ ['$']) 128 128, fmOf (['A'].reverse ++ ['$']) 128 128, 2⟩ :
        ReadMappingIndex).map_read ['A', 'A'] 1 5 (fun m => m)
      = (⟨fmOf (['A'] ++ ['$']) 128 128, fmOf (['A'].reverse ++ ['$']) 128 128, 2⟩ :
        ReadMappingIndex).map_read ['A', 'A'] 1
          (min ((['A', 'A'] : List Char).length / 1) 5) (fun m => m) :=
  ⟨by decide,
   (C8_assert_and_cap _ ['A'] 2 4 (fun m => m)).1 (by decide),
   (C8_assert_and_cap _ ['A', 'A'] 1 5 (fun m => m)).2⟩

/-- Counterexample to C9 as stated: on the genome "AA" with read "A"
(`seed_length = 1`, `max_seeds = 1`) the candidate maps ties two alignments
of match length 1 at positions 0 and 1, and the returned `genome_position`
depends on the `HashMap` iteration order — the identity order and the
reversed order (both permutations, as Rust's randomized hashing may produce
either) yield different results. -/
theorem C9_counterexample :
    (∀ m : List (Nat × Nat), (List.reverse m).Perm m) ∧
    ReadMappingIndex.new ['A', 'A']
      = some ⟨fmOf (['A', 'A'] ++ ['$']) 128 128,
          fmOf (['A', 'A'].reverse ++ ['$']) 128 128, 3⟩ ∧
    (⟨fmOf (['A', 'A'] ++ ['$']) 128 128,
        fmOf (['A', 'A'].reverse ++ ['$']) 128 128, 3⟩ :
      ReadMappingIndex).map_read ['A'] 1 1 (fun m => m)
      = some (some ⟨1, 1, 0⟩) ∧
    (⟨fmOf (['A', 'A'] ++ ['$']) 128 128,
        fmOf (['A', 'A'].reverse ++ ['$']) 128 128, 3⟩ :
      ReadMappingIndex).map_read ['A'] 1 1 List.reverse
      = some (some ⟨0, 1, 0⟩) :=
  ⟨fun m => List.reverse_perm m, rmIndex_new_eq (by decide), by decide, by decide⟩

theorem foldl_maxBy :
    ∀ (rest : List (Nat × Nat)) (acc : Nat × Nat),
      ((rest.foldl (fun acc q => if acc.2 ≤ q.2 then q else acc) acc) = acc
        ∨ (rest.foldl (fun acc q => if acc.2 ≤ q.2 then q else acc) acc) ∈ rest)
      ∧ acc.2 ≤ (rest.foldl (fun acc q => if acc.2 ≤ q.2 then q else acc) acc).2
      ∧ ∀ x ∈ rest,
          x.2 ≤ (rest.foldl (fun acc q => if acc.2 ≤ q.2 then q else acc) acc).2
  | [], acc => ⟨Or.inl rfl, Nat.le_refl _, by simp⟩
  | q :: rest, acc => by
    simp only [List.foldl_cons]
    obtain ⟨hmem, hacc, hall⟩ := foldl_maxBy rest (if acc.2 ≤ q.2 then q else acc)
    by_cases h : acc.2 ≤ q.2
    · rw [if_pos h] at hmem hacc hall ⊢
      refine ⟨?_, ?_, ?_⟩
      · rcases hmem with h1 | h1
        · exact Or.inr (by rw [h1]; simp)
        · exact Or.inr (List.mem_cons_of_mem _ h1)
      · exact le_trans h hacc
      · intro x hx
        rcases List.mem_cons.mp hx with h1 | h1
        · subst h1
          exact hacc
        · exact hall x h1
    · rw [if_neg h] at hmem hacc hall ⊢
      refine ⟨?_, ?_, ?_⟩
      · rcases hmem with h1 | h1
        · exact Or.inl h1
        · exact Or.inr (List.mem_cons_of_mem _ h1)
      · exact hacc
      · intro x hx
        rcases List.mem_cons.mp hx with h1 | h1
        · subst h1
          omega
        · exact hall x h1

/-- The last-maximum selected by `max_by_key` is a member of the list and
dominates every entry's value. -/
theorem maxByKeyLast_spec {l : List (Nat × Nat)} {q : Nat × Nat}
    (h : maxByKeyLast l = some q) : q ∈ l ∧ ∀ x ∈ l, x.2 ≤ q.2 := by
  cases l with
  | nil => exact absurd h (by rw [maxByKeyLast]; exact fun he => Option.noConfusion he)
  | cons p rest =>
    rw [maxByKeyLast] at h
    have heq := Option.some.inj h
    obtain ⟨hmem, hacc, hall⟩ := foldl_maxBy rest p
    rw [heq] at hmem hacc hall
    refine ⟨?_, ?_⟩
    · rcases hmem with h1 | h1
      · rw [h1]
        simp
      · exact List.mem_cons_of_mem _ h1
    · intro x hx
      rcases List.mem_cons.mp hx with h1 | h1
      · subst h1
        exact hacc
      · exact hall x h1

theorem maxByKeyLast_none_iff {l : List (Nat × Nat)} :
    maxByKeyLast l = none ↔ l = [] := by
  cases l with
  | nil => simp [maxByKeyLast]
  | cons p rest => simp [maxByKeyLast]

/-- Two permutations of the same candidate list select the same maximal
match length. -/
theorem maxByKeyLast_perm_val {l1 l2 : List (Nat × Nat)} (hp : l1.Perm l2)
    {q1 q2 : Nat × Nat} (h1 : maxByKeyLast l1 = some q1)
    (h2 : maxByKeyLast l2 = some q2) : q1.2 = q2.2 := by
  obtain ⟨hm1, ha1⟩ := maxByKeyLast_spec h1
  obtain ⟨hm2, ha2⟩ := maxByKeyLast_spec h2
  have hv1 := ha2 q1 (hp.mem_iff.mp hm1)
  have hv2 := ha1 q2 (hp.mem_iff.mpr hm2)
  omega

/-- The iteration order only influences the tie-breaking inside
`max_by_key`: across two permutation orders, one seed attempt panics,
continues, or returns alike, with the same match length. -/
theorem attemptResult_rel (idx : ReadMappingIndex) (read rrev : List Char)
    (L a : Nat) {σ σ2 : List (Nat × Nat) → List (Nat × Nat)}
    (hσ : ∀ m, (σ m).Perm m) (hσ2 : ∀ m, (σ2 m).Perm m) :
    (attemptResult idx read rrev L a σ = none
      ↔ attemptResult idx read rrev L a σ2 = none) ∧
    (attemptResult idx read rrev L a σ = some none
      ↔ attemptResult idx read rrev L a σ2 = some none) ∧
    ∀ r r2, attemptResult idx read rrev L a σ = some (some r) →
      attemptResult idx read rrev L a σ2 = some (some r2) →
      r.seed_attempt = r2.seed_attempt ∧ r.match_length = r2.match_length := by
  rw [attemptResult, attemptResult]
  cases hM : attemptMap idx read rrev L a with
  | none =>
    simp only [Option.none_bind]
    refine ⟨by simp, by simp, ?_⟩
    intro r r2 hr _
    exact absurd hr (by simp)
  | some mm =>
    simp only [Option.some_bind]
    cases mm with
    | none =>
      rw [selectLongest, selectLongest]
      refine ⟨by simp, by simp, ?_⟩
      intro r r2 hr _
      simp at hr
    | some final_map =>
      rw [selectLongest, selectLongest]
      have hperm : (σ final_map).Perm (σ2 final_map) :=
        (hσ final_map).trans (hσ2 final_map).symm
      cases hx : maxByKeyLast (σ final_map) with
      | none =>
        have h1 : σ final_map = [] := maxByKeyLast_none_iff.mp hx
        have h2 : σ2 final_map = [] := by
          have hp := hperm
          rw [h1] at hp
          exact hp.symm.eq_nil
        have h3 : maxByKeyLast (σ2 final_map) = none := by
          rw [h2, maxByKeyLast]
        rw [h3]
        simp only [Option.bind_eq_bind, Option.none_bind]
        refine ⟨by simp, by simp, ?_⟩
        intro r r2 hr _
        exact absurd hr (by simp)
      | some lm =>
        have h1 : σ final_map ≠ [] := by
          intro he
          rw [he, maxByKeyLast] at hx
          exact Option.noConfusion hx
        have h2 : σ2 final_map ≠ [] := by
          intro he
          apply h1
          have hp := hperm
          rw [he] at hp
          exact hp.eq_nil
        cases hy : maxByKeyLast (σ2 final_map) with
        | none => exact absurd (maxByKeyLast_none_iff.mp hy) h2
        | some lm2 =>
          simp only [Option.bind_eq_bind, Option.some_bind]
          refine ⟨by simp, by simp, ?_⟩
          intro r r2 hr hr2
          have hrr := Option.some.inj (Option.some.inj hr)
          have hrr2 := Option.some.inj (Option.some.inj hr2)
          rw [← hrr, ← hrr2]
          exact ⟨rfl, maxByKeyLast_perm_val hperm hx hy⟩

/-- Across two permutation iteration orders, the whole seed loop panics,
exhausts its attempts, or returns at the same attempt with the same match
length. -/
theorem mapReadLoop_rel (idx : ReadMappingIndex) (read rrev : List Char)
    (L : Nat) {σ σ2 : List (Nat × Nat) → List (Nat × Nat)}
    (hσ : ∀ m, (σ m).Perm m) (hσ2 : ∀ m, (σ2 m).Perm m) :
    ∀ (fuel a : Nat),
      (mapReadLoop idx read rrev L σ a fuel = none
        ↔ mapReadLoop idx read rrev L σ2 a fuel = none) ∧
      (mapReadLoop idx read rrev L σ a fuel = some none
        ↔ mapReadLoop idx read rrev L σ2 a fuel = some none) ∧
      ∀ r r2, mapReadLoop idx read rrev L σ a fuel = some (some r) →
        mapReadLoop idx read rrev L σ2 a fuel = some (some r2) →
        r.seed_attempt = r2.seed_attempt ∧ r.match_length = r2.match_length
  | 0, a => by
    rw [mapReadLoop, mapReadLoop]
    refine ⟨Iff.rfl, Iff.rfl, ?_⟩
    intro r r2 hr _
    exact absurd hr (by simp)
  | fuel + 1, a => by
    obtain ⟨hrel1, hrel2, hrel3⟩ := attemptResult_rel idx read rrev L a hσ hσ2
    rw [mapReadLoop, mapReadLoop]
    cases hA : attemptResult idx read rrev L a σ with
    | none =>
      have hA2 : attemptResult idx read rrev L a σ2 = none := hrel1.mp hA
      rw [hA2]
      simp only [Option.none_bind]
      refine ⟨by simp, by simp, ?_⟩
      intro r r2 hr _
      exact absurd hr (by simp)
    | some ra =>
      cases ra with
      | none =>
        have hA2 : attemptResult idx read rrev L a σ2 = some none := by
          apply hrel2.mp
          rw [hA]
        rw [hA2]
        simp only [Option.some_bind]
        rw [loopContinue, loopContinue]
        exact mapReadLoop_rel idx read rrev L hσ hσ2 fuel (a + 1)
      | some res =>
        have hA2ne : attemptResult idx read rrev L a σ2 ≠ none := by
          intro he
          rw [hrel1.mpr he] at hA
          exact Option.noConfusion hA
        have hA2nn : attemptResult idx read rrev L a σ2 ≠ some none := by
          intro he
          have hba := hrel2.mpr he
          rw [hA] at hba
          simp at hba
        cases hA2 : attemptResult idx read rrev L a σ2 with
        | none => exact absurd hA2 hA2ne
        | some ra2 =>
          cases ra2 with
          | none => exact absurd hA2 hA2nn
          | some res2 =>
            simp only [Option.some_bind]
            rw [loopContinue, loopContinue]
            refine ⟨by simp, by simp, ?_⟩
            intro r r2 hr hr2
            have e1 := Option.some.inj (Option.some.inj hr)
            have e2 := Option.some.inj (Option.some.inj hr2)
            rw [← e1, ← e2]
            exact hrel3 res res2 hA hA2

/-- C9 (amended): `map_read` is a pure function of the reference, the
arguments and the `HashMap` iteration order, so repeated executions with the
same order agree exactly; across different (permutation) iteration orders
the panic/`None`/`Some` outcome, the returned `seed_attempt` and the
returned `match_length` are invariant, but the returned `genome_position`
may differ when several candidates tie on the maximal match length. -/
theorem C9_deterministic_up_to_ties {g : List Char} {idx : ReadMappingIndex}
    (hidx : ReadMappingIndex.new g = some idx) (read : List Char)
    (seed_length max_seeds : Nat)
    {σ σ2 : List (Nat × Nat) → List (Nat × Nat)}
    (hσ : ∀ m, (σ m).Perm m) (hσ2 : ∀ m, (σ2 m).Perm m) :
    (idx.map_read read seed_length max_seeds σ = none
      ↔ idx.map_read read seed_length max_seeds σ2 = none) ∧
    (idx.map_read read seed_length max_seeds σ = some none
      ↔ idx.map_read read seed_length max_seeds σ2 = some none) ∧
    ∀ r r2, idx.map_read read seed_length max_seeds σ = some (some r) →
      idx.map_read read seed_length max_seeds σ2 = some (some r2) →
      r.seed_attempt = r2.seed_attempt ∧ r.match_length = r2.match_length := by
  rw [ReadMappingIndex.map_read, ReadMappingIndex.map_read]
  by_cases h : read.length < seed_length
  · rw [if_pos h, if_pos h]
    refine ⟨Iff.rfl, by simp, ?_⟩
    intro r r2 hr _
    exact absurd hr (by simp)
  · rw [if_neg h, if_neg h]
    exact mapReadLoop_rel idx read read.reverse seed_length hσ hσ2 _ 0

/-- Witness for C9 on the genome "AA" with read "A": the identity and the
reversed iteration orders return tied candidates at different positions but
the same seed attempt and match length. -/
theorem C9_deterministic_up_to_ties_witness :
    ReadMappingIndex.new ['A', 'A']
      = some ⟨fmOf (['A', 'A'] ++ ['$']) 128 128,
          fmOf (['A', 'A'].reverse ++ ['$']) 128 128, 3⟩ ∧
    (⟨fmOf (['A', 'A'] ++ ['$']) 128 128,
        fmOf (['A', 'A'].reverse ++ ['$']) 128 128, 3⟩ :
      ReadMappingIndex).map_read ['A'] 1 1 (fun m => m) = some (some ⟨1, 1, 0⟩) ∧
    (⟨fmOf (['A', 'A'] ++ ['$']) 128 128,
        fmOf (['A', 'A'].reverse ++ ['$']) 128 128, 3⟩ :
      ReadMappingIndex).map_read ['A'] 1 1 List.reverse = some (some ⟨0, 1, 0⟩) ∧
    (MapReadResult.seed_attempt ⟨1, 1, 0⟩ = MapReadResult.seed_attempt ⟨0, 1, 0⟩ ∧
      MapReadResult.match_length ⟨1, 1, 0⟩ = MapReadResult.match_length ⟨0, 1, 0⟩) :=
  ⟨rmIndex_new_eq (by decide), by decide, by decide,
   (C9_deterministic_up_to_ties (@rmIndex_new_eq ['A', 'A'] (by decide)) ['A'] 1 1
      (fun m => List.Perm.refl m) (fun m => List.reverse_perm m)).2.2
     ⟨1, 1, 0⟩ ⟨0, 1, 0⟩ (by decide) (by decide)⟩

theorem slice_reverse (l : List Char) {x y : Nat} (hxy : x ≤ y)
    (hy : y ≤ l.length) :
    slice l.reverse (l.length - y) (l.length - x) = (slice l x y).reverse := by
  rw [slice, slice, List.drop_reverse]
  have h1 : l.length - (l.length - y) = y := by omega
  rw [h1]
  have h2 : l.length - x - (l.length - y) = y - x := by omega
  rw [h2, List.take_reverse]
  have h3 : (l.take y).length = y := by
    rw [List.length_take]
    omega
  rw [h3]
  have h4 : y - (y - x) = x := by omega
  rw [h4]
  congr 1
  rw [List.take_drop]
  have h5 : x + (y - x) = y := by omega
  rw [h5]

theorem occursAt_getD {s p : List Char} {pos : Nat} (h : occursAt s p pos)
    {j : Nat} (hj : j < p.length) : s.getD (pos + j) '$' = p.getD j '$' := by
  unfold occursAt at h
  conv_rhs => rw [← h]
  rw [List.getD_eq_getElem?_getD, List.getD_eq_getElem?_getD,
    List.getElem?_take_of_lt hj, List.getElem?_drop]

theorem occursAt_len {s p : List Char} {pos : Nat} (hp : p ≠ [])
    (h : occursAt s p pos) : pos + p.length ≤ s.length := by
  have hlt := occursAt_pos_lt hp h
  unfold occursAt at h
  have hlen := congrArg List.length h
  rw [List.length_take, List.length_drop] at hlen
  omega

/-- A nucleotide occurrence in the sentinel-terminated reference lies
entirely inside the genome part. -/
theorem occursAt_inside {g p : List Char} (hp : ∀ ch ∈ p, isNuc ch = true)
    (hne : p ≠ []) {pos : Nat} (h : occursAt (g ++ ['$']) p pos) :
    pos + p.length ≤ g.length ∧ occursAt g p pos := by
  have hlen := occursAt_len hne h
  rw [List.length_append, List.length_cons, List.length_nil] at hlen
  have hidx : p.length - 1 < p.length := by
    cases p with
    | nil => exact absurd rfl hne
    | cons c q => simp
  have hle : pos + p.length ≤ g.length := by
    by_contra hgt
    have heq : pos + (p.length - 1) = g.length := by omega
    have hch := occursAt_getD h hidx
    rw [heq] at hch
    have hsent : (g ++ ['$']).getD g.length '$' = '$' := by
      rw [List.getD_eq_getElem?_getD, List.getElem?_append_right (Nat.le_refl _)]
      simp
    rw [hsent] at hch
    have hgetd : p.getD (p.length - 1) '$' = p.get ⟨p.length - 1, hidx⟩ := by
      rw [List.getD_eq_getElem?_getD, List.getElem?_eq_getElem hidx]
      rfl
    have hnuc2 := hp (p.getD (p.length - 1) '$')
      (by rw [hgetd]; exact List.get_mem _ _ _)
    rw [← hch] at hnuc2
    exact absurd hnuc2 (by decide)
  refine ⟨hle, ?_⟩
  unfold occursAt at h ⊢
  rw [List.drop_append_of_le_length (by omega),
    List.take_append_of_le_length (by rw [List.length_drop]; omega)] at h
  exact h

theorem occursAt_append_sentinel {g p : List Char} {pos : Nat}
    (h : occursAt g p pos) : occursAt (g ++ ['$']) p pos := by
  by_cases hne : p = []
  · subst hne
    exact occursAt_nil _ _
  · have hlen := occursAt_len hne h
    unfold occursAt at h ⊢
    rw [List.drop_append_of_le_length (by omega),
      List.take_append_of_le_length (by rw [List.length_drop]; omega)]
    exact h

/-- Occurrences reverse: `p` at `pos` in `g` iff `p.reverse` at
`|g| − pos − |p|` in `g.reverse`. -/
theorem occursAt_reverse {g p : List Char} {pos : Nat} (hne : p ≠ [])
    (h : occursAt g p pos) :
    occursAt g.reverse p.reverse (g.length - pos - p.length) := by
  have hlen := occursAt_len hne h
  unfold occursAt at h ⊢
  rw [List.length_reverse, List.drop_reverse]
  have h1 : g.length - (g.length - pos - p.length) = pos + p.length := by omega
  rw [h1, List.take_reverse]
  have h2 : (g.take (pos + p.length)).length = pos + p.length := by
    rw [List.length_take]
    omega
  rw [h2]
  have h3 : pos + p.length - p.length = pos := by omega
  rw [h3]
  congr 1
  rw [← List.take_drop]
  exact h

theorem occCount_pos_iff {s p : List Char} :
    1 ≤ occCount s p ↔ ∃ pos, pos < s.length ∧ occursAt s p pos := by
  rw [occCount]
  constructor
  · intro h
    have hne : ((Finset.range s.length).filter (fun q => occursAt s p q)).Nonempty :=
      Finset.card_pos.mp (by omega)
    obtain ⟨pos, hpos⟩ := hne
    rw [Finset.mem_filter, Finset.mem_range] at hpos
    exact ⟨pos, hpos.1, hpos.2⟩
  · intro ⟨pos, hlt, hocc⟩
    have : pos ∈ (Finset.range s.length).filter (fun q => occursAt s p q) :=
      Finset.mem_filter.mpr ⟨Finset.mem_range.mpr hlt, hocc⟩
    have := Finset.card_pos.mpr ⟨pos, this⟩
    omega

/-- A nucleotide pattern occurs in the sentinel-terminated genome iff its
reversal occurs in the sentinel-terminated reversed genome. -/
theorem occ_fwd_iff_rev {g p : List Char} (hp : ∀ ch ∈ p, isNuc ch = true)
    (hne : p ≠ []) :
    1 ≤ occCount (g ++ ['$']) p ↔ 1 ≤ occCount (g.reverse ++ ['$']) p.reverse := by
  constructor
  · intro h
    obtain ⟨pos, hlt, hocc⟩ := occCount_pos_iff.mp h
    obtain ⟨hle, hocc_g⟩ := occursAt_inside hp hne hocc
    have hrev := occursAt_reverse hne hocc_g
    have hocc2 := occursAt_append_sentinel hrev
    apply occCount_pos_iff.mpr
    refine ⟨g.length - pos - p.length, ?_, hocc2⟩
    rw [List.length_append, List.length_reverse, List.length_cons, List.length_nil]
    omega
  · intro h
    obtain ⟨pos, hlt, hocc⟩ := occCount_pos_iff.mp h
    have hp2 : ∀ ch ∈ p.reverse, isNuc ch = true :=
      fun ch hch => hp ch (List.mem_reverse.mp hch)
    have hne2 : p.reverse ≠ [] := by
      intro he
      exact hne (by simpa using congrArg List.reverse he)
    obtain ⟨hle, hocc_g⟩ := occursAt_inside hp2 hne2 hocc
    have hrev := occursAt_reverse hne2 hocc_g
    rw [List.reverse_reverse, List.reverse_reverse] at hrev
    have hocc2 := occursAt_append_sentinel hrev
    apply occCount_pos_iff.mpr
    refine ⟨g.reverse.length - pos - p.reverse.length, ?_, hocc2⟩
    rw [List.length_append, List.length_cons, List.length_nil,
      List.length_reverse] at *
    omega

theorem mapInsert_ne_nil (m : List (Nat × Nat)) (k v : Nat) :
    mapInsert m k v ≠ [] := by
  rw [mapInsert]
  simp

theorem lookup_filter_self (m : List (Nat × Nat)) (k : Nat) :
    List.lookup k (m.filter (fun p => p.1 != k)) = none := by
  apply lookup_eq_none_of_keys_ne
  intro p hp
  have hh := (List.mem_filter.mp hp).2
  simpa using hh

theorem lookup_filter_ne :
    ∀ (m : List (Nat × Nat)) {k a : Nat}, k ≠ a →
      List.lookup k (m.filter (fun p => p.1 != a)) = List.lookup k m
  | [], _, _, _ => rfl
  | (k2, v) :: m, k, a, h => by
    by_cases hk : k2 = a
    · subst hk
      rw [List.filter_cons]
      rw [if_neg (by simp)]
      rw [List.lookup_cons]
      have hkk : (k == k2) = false := by simpa using h
      rw [hkk]
      exact lookup_filter_ne m h
    · rw [List.filter_cons, if_pos (by simpa using hk)]
      rw [List.lookup_cons, List.lookup_cons]
      cases hkk : (k == k2) with
      | true => rfl
      | false => exact lookup_filter_ne m h

theorem lookup_mapInsert_isSome_of (m : List (Nat × Nat)) (k v k2 : Nat)
    (h : k2 = k ∨ (List.lookup k2 m).isSome = true) :
    (List.lookup k2 (mapInsert m k v)).isSome = true := by
  rw [mapInsert, List.lookup_append]
  by_cases hk : k2 = k
  · subst hk
    rw [lookup_filter_self, Option.none_or, List.lookup_cons_self]
    rfl
  · rcases h with h | h
    · exact absurd h hk
    · rw [lookup_filter_ne m hk]
      obtain ⟨w, hw⟩ := Option.isSome_iff_exists.mp h
      rw [hw]
      rfl

theorem lookup_mapInsert_isSome_iff (m : List (Nat × Nat)) (k v k2 : Nat) :
    (List.lookup k2 (mapInsert m k v)).isSome = true
      ↔ k2 = k ∨ (List.lookup k2 m).isSome = true := by
  constructor
  · intro h
    by_cases hk : k2 = k
    · exact Or.inl hk
    · refine Or.inr ?_
      rw [mapInsert, List.lookup_append, lookup_filter_ne m hk] at h
      cases hx : List.lookup k2 m with
      | some w => rfl
      | none =>
        rw [hx] at h
        have hsing : List.lookup k2 [(k, v)] = none := by
          apply lookup_eq_none_of_keys_ne
          intro p hp
          simp only [List.mem_singleton] at hp
          rw [hp]
          exact fun he => hk he.symm
        rw [hsing] at h
        simp at h
  · exact lookup_mapInsert_isSome_of m k v k2

theorem foldl_insert_keys :
    ∀ (l : List (Nat × Nat)) (m : List (Nat × Nat)) (k : Nat),
      (List.lookup k (l.foldl (fun m p => mapInsert m p.1 p.2) m)).isSome = true
        ↔ (List.lookup k m).isSome = true ∨ k ∈ l.map (fun p => p.1)
  | [], m, k => by simp
  | p :: l, m, k => by
    rw [List.foldl_cons, foldl_insert_keys l (mapInsert m p.1 p.2) k,
      lookup_mapInsert_isSome_iff, List.map_cons, List.mem_cons]
    tauto

theorem collect_keys_isSome (l : List (Nat × Nat)) (k : Nat) :
    (List.lookup k (collectMap l)).isSome = true ↔ k ∈ l.map (fun p => p.1) := by
  rw [collectMap, foldl_insert_keys]
  simp

theorem collectMap_ne_nil {l : List (Nat × Nat)} (h : l ≠ []) :
    collectMap l ≠ [] := by
  have hgen : ∀ (l2 m : List (Nat × Nat)), m ≠ [] →
      l2.foldl (fun m p => mapInsert m p.1 p.2) m ≠ [] := by
    intro l2
    induction l2 with
    | nil =>
      intro m hm
      simpa using hm
    | cons p l2 ih =>
      intro m _
      rw [List.foldl_cons]
      exact ih _ (mapInsert_ne_nil _ _ _)
  cases l with
  | nil => exact absurd rfl h
  | cons p l =>
    rw [collectMap, List.foldl_cons]
    exact hgen l _ (mapInsert_ne_nil _ _ _)

theorem mapPairs_keyed {f : Nat → Option (Nat × Nat)} (key : Nat → Nat) :
    ∀ (xs : List Nat), (∀ x ∈ xs, ∃ v, f x = some (key x, v)) →
      ∃ ys, mapPairs f xs = some ys ∧ ys.map (fun p => p.1) = xs.map key
  | [], _ => ⟨[], rfl, rfl⟩
  | x :: xs, h => by
    obtain ⟨v, hv⟩ := h x (by simp)
    obtain ⟨ys, hys, hkeys⟩ := mapPairs_keyed key xs (fun y hy => h y (by simp [hy]))
    refine ⟨(key x, v) :: ys, ?_, ?_⟩
    · rw [mapPairs, hv]
      simp only [Option.bind_eq_bind, Option.some_bind]
      rw [hys]
      simp only [Option.some_bind]
    · rw [List.map_cons, List.map_cons, hkeys]

/-- The left-extension loop never panics when the map holds every hit's
genome position as a key and the hit positions are distinct; it preserves
nonemptiness of the map. -/
theorem forwardLoop_some (idx : ReadMappingIndex) (ext : List Char) (F : Nat → Nat) :
    ∀ (rows : List Nat) (m : List (Nat × Nat)),
      (∀ i ∈ rows, idx.forwards_fm_index.get_genome_position i = some (F i)) →
      (∀ i ∈ rows, ∃ el,
        idx.forwards_fm_index.count_extension_matches i ext = some el) →
      (∀ i ∈ rows, (List.lookup (F i) m).isSome = true) →
      rows.Pairwise (fun i j => F i ≠ F j) →
      ∃ m2, forwardLoop idx ext rows m = some m2 ∧ (m ≠ [] → m2 ≠ [])
  | [], m, _, _, _, _ => ⟨m, rfl, fun h => h⟩
  | i :: rest, m, hgp, hcem, hkey, hpw => by
    rw [forwardLoop, hgp i (by simp)]
    simp only [Option.bind_eq_bind, Option.some_bind]
    obtain ⟨el, hel⟩ := hcem i (by simp)
    rw [hel]
    simp only [Option.some_bind]
    obtain ⟨v, hv⟩ := Option.isSome_iff_exists.mp (hkey i (by simp))
    rw [hv]
    simp only [Option.some_bind]
    have hpwc := List.pairwise_cons.mp hpw
    obtain ⟨m2, hm2, hne2⟩ := forwardLoop_some idx ext F rest
      (mapInsert (m.filter (fun p => p.1 != F i)) (F i - el) (el + v))
      (fun j hj => hgp j (List.mem_cons_of_mem _ hj))
      (fun j hj => hcem j (List.mem_cons_of_mem _ hj))
      (fun j hj => by
        apply lookup_mapInsert_isSome_of
        by_cases hje : F j = F i - el
        · exact Or.inl hje
        · refine Or.inr ?_
          rw [lookup_filter_ne m (show F j ≠ F i from
            fun he => hpwc.1 j hj he.symm)]
          exact hkey j (List.mem_cons_of_mem _ hj))
      hpwc.2
    exact ⟨m2, hm2, fun _ => hne2 (mapInsert_ne_nil _ _ _)⟩

/-- One seed attempt: an unmatched seed yields the `continue`; a matched
seed yields a nonempty candidate map (no panic on either path). -/
theorem attemptMap_spec {g : List Char} (hg : ∀ ch ∈ g, isNuc ch = true)
    {read : List Char} (hread : ∀ ch ∈ read, isNuc ch = true)
    {L : Nat} (hL : 1 ≤ L) {a : Nat} (ha : (a + 1) * L ≤ read.length)
    (S1 S2 S3 S4 : Nat) (hS1 : 1 ≤ S1) (hS2 : 1 ≤ S2) (hS3 : 1 ≤ S3)
    (hS4 : 1 ≤ S4) :
    (occCount (g ++ ['$']) ((read.drop (a * L)).take L) = 0 →
      attemptMap ⟨fmOf (g ++ ['$']) S1 S2, fmOf (g.reverse ++ ['$']) S3 S4,
        g.length + 1⟩ read read.reverse L a = some none) ∧
    (1 ≤ occCount (g ++ ['$']) ((read.drop (a * L)).take L) →
      ∃ fmap, attemptMap ⟨fmOf (g ++ ['$']) S1 S2,
          fmOf (g.reverse ++ ['$']) S3 S4, g.length + 1⟩ read read.reverse L a
        = some (some fmap) ∧ fmap ≠ []) := by
  have hsf : SentinelTerminated (g ++ ['$']) := ⟨g, rfl, hg⟩
  have hsr : SentinelTerminated (g.reverse ++ ['$']) :=
    ⟨g.reverse, rfl, fun ch hch => hg ch (List.mem_reverse.mp hch)⟩
  have haL : a * L + L ≤ read.length := by
    have hsm : (a + 1) * L = a * L + L := by ring
    omega
  have hseedlen : ((read.drop (a * L)).take L).length = L := by
    rw [List.length_take, List.length_drop]
    omega
  have hseednuc : ∀ ch ∈ (read.drop (a * L)).take L, isNuc ch = true :=
    fun ch hch => hread ch (List.mem_of_mem_drop (List.mem_of_mem_take hch))
  have hsne : (read.drop (a * L)).take L ≠ [] := by
    intro he
    rw [he] at hseedlen
    simp at hseedlen
    omega
  have hrevnuc : ∀ ch ∈ ((read.drop (a * L)).take L).reverse, isNuc ch = true :=
    fun ch hch => hseednuc ch (List.mem_reverse.mp hch)
  have hrs : slice read.reverse (read.length - (a * L + L)) (read.length - a * L)
      = ((read.drop (a * L)).take L).reverse := by
    have h1 := slice_reverse read (show a * L ≤ a * L + L by omega) haL
    rw [h1]
    congr 1
    rw [slice]
    congr 1
    omega
  have hseediff := @occ_fwd_iff_rev g ((read.drop (a * L)).take L) hseednuc hsne
  rw [attemptMap]
  simp only []
  rw [hrs]
  rw [lookup_correct hsr S3 S4 hS4 hrevnuc]
  constructor
  · intro h0
    rw [if_neg (show ¬ (1 ≤ occCount (g.reverse ++ ['$'])
        ((read.drop (a * L)).take L).reverse) by
      intro h1
      have := hseediff.mpr h1
      omega)]
    simp only [Option.bind_eq_bind, Option.some_bind]
    rfl
  · intro h1
    have hr1 := hseediff.mp h1
    rw [if_pos hr1]
    simp only [Option.bind_eq_bind, Option.some_bind]
    have harith : lowIdx (g.reverse ++ ['$']) ((read.drop (a * L)).take L).reverse
          + occCount (g.reverse ++ ['$']) ((read.drop (a * L)).take L).reverse
          - lowIdx (g.reverse ++ ['$']) ((read.drop (a * L)).take L).reverse
        = occCount (g.reverse ++ ['$']) ((read.drop (a * L)).take L).reverse := by
      omega
    rw [harith]
    obtain ⟨k, hk⟩ : ∃ k, occCount (g.reverse ++ ['$'])
        ((read.drop (a * L)).take L).reverse = k + 1 :=
      ⟨occCount (g.reverse ++ ['$']) ((read.drop (a * L)).take L).reverse - 1,
        by omega⟩
    rw [if_neg (show ¬ _ = true by
      rw [hk, List.range'_succ]
      simp)]
    -- the reverse-phase pairs
    have hextnuc : ∀ ch ∈ read.drop (a * L + L), isNuc ch = true :=
      fun ch hch => hread ch (List.mem_of_mem_drop hch)
    have hpt : ∀ r ∈ List.range'
        (lowIdx (g.reverse ++ ['$']) ((read.drop (a * L)).take L).reverse)
        (occCount (g.reverse ++ ['$']) ((read.drop (a * L)).take L).reverse), ∃ v,
        (((fmOf (g.reverse ++ ['$']) S3 S4).get_genome_position r).bind
          fun reverse_genome_pos =>
            ((fmOf (g.reverse ++ ['$']) S3 S4).count_extension_matches r
              (read.drop (a * L + L))).bind fun extension_length =>
              some (g.length + 1 - reverse_genome_pos - L - 1,
                L + extension_length))
          = some (g.length + 1 - SAf (g.reverse ++ ['$']) r - L - 1, v) := by
      intro r hr
      have hrb := List.mem_range'_1.mp hr
      have hrlt : r < (g.reverse ++ ['$']).length :=
        lt_of_lt_of_le hrb.2 (lowIdx_add_occ_le _ _)
      obtain ⟨el, hel, -, -, -, -⟩ := cemLoop_correct hsr S3 S4 hS4
        (read.drop (a * L + L)) 0 r hrlt hextnuc
      refine ⟨L + (0 + el), ?_⟩
      rw [gp_correct hsr S3 S4 hS3 hS4 hrlt]
      simp only [Option.some_bind]
      rw [show (fmOf (g.reverse ++ ['$']) S3 S4).count_extension_matches r
          (read.drop (a * L + L)) = some (0 + el) from hel]
      simp only [Option.some_bind]
    obtain ⟨ys, hys, hkeys⟩ := mapPairs_keyed
      (fun r => g.length + 1 - SAf (g.reverse ++ ['$']) r - L - 1) _ hpt
    rw [hys]
    simp only [Option.some_bind]
    have hysne : ys ≠ [] := by
      intro hysnil
      have hlen := congrArg List.length hkeys
      rw [hysnil, List.length_map, List.length_map, List.length_range'] at hlen
      simp at hlen
      omega
    have hext : slice read.reverse (read.length - a * L) read.length
        = (read.take (a * L)).reverse := by
      rw [slice, List.drop_reverse]
      have e1 : read.length - (read.length - a * L) = a * L := by omega
      rw [e1]
      exact List.take_of_length_le
        (by rw [List.length_reverse, List.length_take]; omega)
    rw [hext]
    have hextlen : ((read.take (a * L)).reverse).length = a * L := by
      rw [List.length_reverse, List.length_take]
      omega
    rcases Nat.eq_zero_or_pos a with ha0 | ha0
    · rw [if_neg (show ¬ (0 < ((read.take (a * L)).reverse).length) by
        rw [hextlen, ha0]
        simp)]
      exact ⟨collectMap ys, rfl, collectMap_ne_nil hysne⟩
    · rw [if_pos (show 0 < ((read.take (a * L)).reverse).length by
        rw [hextlen]
        exact Nat.mul_pos ha0 hL)]
      have hs1 : slice read (a * L) (a * L + L) = (read.drop (a * L)).take L := by
        rw [slice]
        congr 1
        omega
      rw [hs1, lookup_correct hsf S1 S2 hS2 hseednuc, if_pos h1]
      simp only [Option.bind_eq_bind, Option.some_bind]
      have harith2 : lowIdx (g ++ ['$']) ((read.drop (a * L)).take L)
            + occCount (g ++ ['$']) ((read.drop (a * L)).take L)
            - lowIdx (g ++ ['$']) ((read.drop (a * L)).take L)
          = occCount (g ++ ['$']) ((read.drop (a * L)).take L) := by
        omega
      rw [harith2]
      have hfextnuc : ∀ ch ∈ (read.take (a * L)).reverse, isNuc ch = true :=
        fun ch hch => hread ch (List.mem_of_mem_take (List.mem_reverse.mp hch))
      have hbound : ∀ i ∈ List.range'
          (lowIdx (g ++ ['$']) ((read.drop (a * L)).take L))
          (occCount (g ++ ['$']) ((read.drop (a * L)).take L)),
          i < (g ++ ['$']).length := by
        intro i hi
        have hib := List.mem_range'_1.mp hi
        exact lt_of_lt_of_le hib.2 (lowIdx_add_occ_le _ _)
      obtain ⟨m2, hm2, hne2⟩ := forwardLoop_some
        ⟨fmOf (g ++ ['$']) S1 S2, fmOf (g.reverse ++ ['$']) S3 S4, g.length + 1⟩
        ((read.take (a * L)).reverse) (SAf (g ++ ['$']))
        (List.range' (lowIdx (g ++ ['$']) ((read.drop (a * L)).take L))
          (occCount (g ++ ['$']) ((read.drop (a * L)).take L)))
        (collectMap ys)
        (fun i hi => gp_correct hsf S1 S2 hS1 hS2 (hbound i hi))
        (fun i hi => ⟨0 + _, (cemLoop_correct hsf S1 S2 hS2
          ((read.take (a * L)).reverse) 0 i (hbound i hi) hfextnuc).choose_spec.1⟩)
        (fun i hi => by
          have hilt := hbound i hi
          have hib := List.mem_range'_1.mp hi
          have hocc_q : occursAt (g ++ ['$']) ((read.drop (a * L)).take L)
              (SAf (g ++ ['$']) i) :=
            (row_occ_iff _ hilt).mpr hib
          obtain ⟨hqL, hocc_gq⟩ := occursAt_inside hseednuc hsne hocc_q
          rw [hseedlen] at hqL
          have hrevq := occursAt_reverse hsne hocc_gq
          rw [hseedlen] at hrevq
          have hsrq := occursAt_append_sentinel hrevq
          have hrplt : g.length - SAf (g ++ ['$']) i - L
              < (g.reverse ++ ['$']).length := by
            rw [List.length_append, List.length_reverse, List.length_cons,
              List.length_nil]
            omega
          have hrowlt := rankPos_lt (g.reverse ++ ['$']) hrplt
          have hSA := SAf_rankPos (g.reverse ++ ['$']) hrplt
          have hwin := (row_occ_iff (((read.drop (a * L)).take L).reverse)
            hrowlt).mp (by rw [hSA]; exact hsrq)
          apply (collect_keys_isSome ys _).mpr
          rw [hkeys]
          apply List.mem_map.mpr
          refine ⟨rankPos (g.reverse ++ ['$'])
            (g.length - SAf (g ++ ['$']) i - L), ?_, ?_⟩
          · exact List.mem_range'_1.mpr ⟨hwin.1, hwin.2⟩
          · rw [hSA]
            omega)
        (by
          refine List.Pairwise.imp_of_mem ?_ (List.nodup_range' _ _)
          intro i j hi hj hne heq
          exact hne (sa_inj (g ++ ['$']) (hbound i hi) (hbound j hj) heq))
      rw [hm2]
      simp only [Option.some_bind]
      exact ⟨m2, rfl, hne2 (collectMap_ne_nil hysne)⟩

/-- The seed loop of `map_read` over nucleotide inputs: it returns `some none`
exactly when no remaining attempt's seed occurs in the reference; a returned
result comes from the first attempt whose seed occurs, with the maximal match
length of that attempt's candidate map; and the loop never panics. -/
theorem mapReadLoop_spec {g : List Char} (hg : ∀ ch ∈ g, isNuc ch = true)
    {read : List Char} (hread : ∀ ch ∈ read, isNuc ch = true)
    {L : Nat} (hL : 1 ≤ L) (S1 S2 S3 S4 : Nat) (hS1 : 1 ≤ S1) (hS2 : 1 ≤ S2)
    (hS3 : 1 ≤ S3) (hS4 : 1 ≤ S4)
    {σ : List (Nat × Nat) → List (Nat × Nat)} (hσ : ∀ m, (σ m).Perm m) :
    ∀ (fuel a0 : Nat), (a0 + fuel) * L ≤ read.length →
      (mapReadLoop ⟨fmOf (g ++ ['$']) S1 S2, fmOf (g.reverse ++ ['$']) S3 S4,
          g.length + 1⟩ read read.reverse L σ a0 fuel = some none ↔
        (∀ a2, a0 ≤ a2 → a2 < a0 + fuel →
          occCount (g ++ ['$']) ((read.drop (a2 * L)).take L) = 0)) ∧
      (∀ r, mapReadLoop ⟨fmOf (g ++ ['$']) S1 S2,
          fmOf (g.reverse ++ ['$']) S3 S4, g.length + 1⟩ read read.reverse L σ
            a0 fuel = some (some r) →
        a0 ≤ r.seed_attempt ∧ r.seed_attempt < a0 + fuel ∧
        1 ≤ occCount (g ++ ['$']) ((read.drop (r.seed_attempt * L)).take L) ∧
        (∀ a2, a0 ≤ a2 → a2 < r.seed_attempt →
          occCount (g ++ ['$']) ((read.drop (a2 * L)).take L) = 0) ∧
        ∃ fmap, attemptMap ⟨fmOf (g ++ ['$']) S1 S2,
            fmOf (g.reverse ++ ['$']) S3 S4, g.length + 1⟩ read read.reverse L
              r.seed_attempt = some (some fmap) ∧
          (r.genome_position, r.match_length) ∈ fmap ∧
          ∀ x ∈ fmap, x.2 ≤ r.match_length) ∧
      mapReadLoop ⟨fmOf (g ++ ['$']) S1 S2, fmOf (g.reverse ++ ['$']) S3 S4,
        g.length + 1⟩ read read.reverse L σ a0 fuel ≠ none
  | 0, a0, _ => by
    rw [mapReadLoop]
    refine ⟨⟨fun _ a2 h2 h3 => absurd h3 (by omega), fun _ => rfl⟩, ?_,
      fun h => Option.noConfusion h⟩
    intro r hr
    exact absurd hr (by simp)
  | fuel + 1, a0, hbound => by
    have hva : (a0 + 1) * L ≤ read.length := by
      have h1 : (a0 + 1) * L ≤ (a0 + (fuel + 1)) * L :=
        Nat.mul_le_mul_right L (by omega)
      omega
    obtain ⟨hA0, hA1⟩ := attemptMap_spec hg hread hL hva S1 S2 S3 S4 hS1 hS2
      hS3 hS4
    rw [mapReadLoop]
    by_cases hocc : 1 ≤ occCount (g ++ ['$']) ((read.drop (a0 * L)).take L)
    · obtain ⟨fmap, hfm, hfne⟩ := hA1 hocc
      rw [attemptResult, hfm]
      simp only [Option.some_bind]
      rw [selectLongest]
      have hσne : σ fmap ≠ [] := by
        intro he
        have hp := hσ fmap
        rw [he] at hp
        exact hfne hp.symm.eq_nil
      obtain ⟨lm, hlm⟩ : ∃ lm, maxByKeyLast (σ fmap) = some lm := by
        cases hx : maxByKeyLast (σ fmap) with
        | none => exact absurd (maxByKeyLast_none_iff.mp hx) hσne
        | some lm2 => exact ⟨lm2, rfl⟩
      rw [hlm]
      simp only [Option.bind_eq_bind, Option.some_bind]
      rw [loopContinue]
      obtain ⟨hmem, hmax⟩ := maxByKeyLast_spec hlm
      refine ⟨?_, ?_, fun h => Option.noConfusion h⟩
      · refine ⟨fun hcontra => absurd hcontra (by simp), ?_⟩
        intro hnone
        exact absurd (hnone a0 (Nat.le_refl _) (by omega)) (by omega)
      · intro r hr
        have he := Option.some.inj (Option.some.inj hr)
        rw [← he]
        refine ⟨Nat.le_refl _, by show a0 < a0 + (fuel + 1); omega, hocc,
          fun a2 h2 h3 => absurd h3 (by show ¬ a2 < a0; omega), fmap, hfm,
          ?_, ?_⟩
        · exact (hσ fmap).mem_iff.mp hmem
        · intro x hx
          exact hmax x ((hσ fmap).mem_iff.mpr hx)
    · have h0 : occCount (g ++ ['$']) ((read.drop (a0 * L)).take L) = 0 := by
        omega
      rw [attemptResult, hA0 h0]
      simp only [Option.some_bind]
      rw [selectLongest]
      simp only [Option.some_bind]
      rw [loopContinue]
      obtain ⟨ih0, ih1, ih2⟩ := mapReadLoop_spec hg hread hL S1 S2 S3 S4 hS1
        hS2 hS3 hS4 hσ fuel (a0 + 1)
        (by
          have he : a0 + 1 + fuel = a0 + (fuel + 1) := by omega
          rw [he]
          exact hbound)
      refine ⟨?_, ?_, ih2⟩
      · constructor
        · intro hsn a2 h2 h3
          rcases Nat.eq_or_lt_of_le h2 with he | hlt
          · rw [← he]
            exact h0
          · exact ih0.mp hsn a2 (by omega) (by omega)
        · intro hall
          exact ih0.mpr (fun a2 h2 h3 => hall a2 (by omega) (by omega))
      · intro r hr
        obtain ⟨k1, k2, k3, k4, k5⟩ := ih1 r hr
        refine ⟨by omega, by omega, k3, ?_, k5⟩
        intro a2 h2 h3
        rcases Nat.eq_or_lt_of_le h2 with he | hlt
        · rw [← he]
          exact h0
        · exact k4 a2 (by omega) h3

/-- C5: over a nucleotide reference and read with
`1 <= seed_length <= read.length`, `map_read` never panics - in particular the
`remove(..).unwrap()` in the left-extension step always finds its key. -/
theorem C5_no_remove_panic {g : List Char} (hg : ∀ ch ∈ g, isNuc ch = true)
    {idx : ReadMappingIndex} (hidx : ReadMappingIndex.new g = some idx)
    {read : List Char} (hread : ∀ ch ∈ read, isNuc ch = true) {L : Nat}
    (hL : 1 ≤ L) (hlen : L ≤ read.length) (max_seeds : Nat)
    {σ : List (Nat × Nat) → List (Nat × Nat)} (hσ : ∀ m, (σ m).Perm m) :
    idx.map_read read L max_seeds σ ≠ none := by
  rw [rmIndex_new_eq hg] at hidx
  have he := Option.some.inj hidx
  subst he
  rw [ReadMappingIndex.map_read, if_neg (by omega)]
  have hcap : (0 + min (read.length / L) max_seeds) * L ≤ read.length := by
    rw [Nat.zero_add]
    exact le_trans (Nat.mul_le_mul_right L (Nat.min_le_left _ _))
      (Nat.div_mul_le_self _ _)
  exact (mapReadLoop_spec hg hread hL 128 128 128 128 (by omega) (by omega)
    (by omega) (by omega) hσ (min (read.length / L) max_seeds) 0 hcap).2.2

/-- C4 (amended to nucleotide reads): `map_read` returns `Some` exactly when
some attempt among the first `min(read.len() / seed_length, max_seeds)` has a
seed occurring in the reference; the result carries the first such attempt
number, earlier attempts' seeds are absent, and its (position, length) pair is
drawn from that attempt's candidate map with the greatest match length. -/
theorem C4_map_read_first_seed {g : List Char} (hg : ∀ ch ∈ g, isNuc ch = true)
    {idx : ReadMappingIndex} (hidx : ReadMappingIndex.new g = some idx)
    {read : List Char} (hread : ∀ ch ∈ read, isNuc ch = true) {L : Nat}
    (hL : 1 ≤ L) (hlen : L ≤ read.length) (max_seeds : Nat)
    {σ : List (Nat × Nat) → List (Nat × Nat)} (hσ : ∀ m, (σ m).Perm m) :
    ((∃ r, idx.map_read read L max_seeds σ = some (some r))
      ↔ ∃ a2, a2 < min (read.length / L) max_seeds ∧
          1 ≤ occCount (g ++ ['$']) ((read.drop (a2 * L)).take L)) ∧
    (∀ r, idx.map_read read L max_seeds σ = some (some r) →
      r.seed_attempt < min (read.length / L) max_seeds ∧
      1 ≤ occCount (g ++ ['$']) ((read.drop (r.seed_attempt * L)).take L) ∧
      (∀ a2 < r.seed_attempt,
        occCount (g ++ ['$']) ((read.drop (a2 * L)).take L) = 0) ∧
      ∃ fmap, attemptMap idx read read.reverse L r.seed_attempt
          = some (some fmap) ∧
        (r.genome_position, r.match_length) ∈ fmap ∧
        ∀ x ∈ fmap, x.2 ≤ r.match_length) := by
  rw [rmIndex_new_eq hg] at hidx
  have he := Option.some.inj hidx
  subst he
  have hcap : (0 + min (read.length / L) max_seeds) * L ≤ read.length := by
    rw [Nat.zero_add]
    exact le_trans (Nat.mul_le_mul_right L (Nat.min_le_left _ _))
      (Nat.div_mul_le_self _ _)
  obtain ⟨hiff, hsome, hnn⟩ := mapReadLoop_spec hg hread hL 128 128 128 128
    (by omega) (by omega) (by omega) (by omega) hσ
    (min (read.length / L) max_seeds) 0 hcap
  rw [ReadMappingIndex.map_read, if_neg (by omega)]
  constructor
  · constructor
    · rintro ⟨r, hr⟩
      obtain ⟨-, k2, k3, -, -⟩ := hsome r hr
      exact ⟨r.seed_attempt, by omega, k3⟩
    · rintro ⟨a2, ha2, hocc2⟩
      cases hres : mapReadLoop ⟨fmOf (g ++ ['$']) 128 128,
          fmOf (g.reverse ++ ['$']) 128 128, g.length + 1⟩ read read.reverse L σ
          0 (min (read.length / L) max_seeds) with
      | none => exact absurd hres hnn
      | some o =>
        cases o with
        | none =>
          exact absurd (hiff.mp hres a2 (Nat.zero_le _) (by omega)) (by omega)
        | some r => exact ⟨r, rfl⟩
  · intro r hr
    obtain ⟨-, k2, k3, k4, k5⟩ := hsome r hr
    exact ⟨by omega, k3, fun a2 h2 => k4 a2 (Nat.zero_le _) h2, k5⟩

/-- C4 counterexample: on the reference "A" with read "NA", seed length 1 and
max_seeds 2, attempt 1's seed "A" occurs in the reference, yet `map_read`
panics (attempt 0's seed "N" makes the reverse lookup panic), so it does not
return `Some`: the original claim fails for reads outside {A,C,G,T}. -/
theorem C4_counterexample :
    ∃ idx, ReadMappingIndex.new ['A'] = some idx ∧
      (∃ a2, a2 < min ((['N', 'A'] : List Char).length / 1) 2 ∧
        1 ≤ occCount (['A'] ++ ['$'])
              (((['N', 'A'] : List Char).drop (a2 * 1)).take 1)) ∧
      idx.map_read ['N', 'A'] 1 2 (fun m => m) = none :=
  ⟨_, rmIndex_new_eq (by decide), ⟨1, by decide, by decide⟩, by decide⟩

/-- Witness for C4 on the reference "AA" with read "A". -/
theorem C4_map_read_first_seed_witness :
    ∃ r, (⟨fmOf (['A', 'A'] ++ ['$']) 128 128,
        fmOf ((['A', 'A'] : List Char).reverse ++ ['$']) 128 128,
        (['A', 'A'] : List Char).length + 1⟩ : ReadMappingIndex).map_read
      ['A'] 1 1 (fun m => m) = some (some r) :=
  (@C4_map_read_first_seed ['A', 'A'] (by decide) _
    (rmIndex_new_eq (by decide)) ['A'] (by decide) 1 (by decide) (by decide)
    1 (fun m => m) (fun m => List.Perm.refl m)).1.mpr ⟨0, by decide, by decide⟩

/-- Witness for C5 on the reference "AA" with read "AA". -/
theorem C5_no_remove_panic_witness :
    (⟨fmOf (['A', 'A'] ++ ['$']) 128 128,
        fmOf ((['A', 'A'] : List Char).reverse ++ ['$']) 128 128,
        (['A', 'A'] : List Char).length + 1⟩ : ReadMappingIndex).map_read
      ['A', 'A'] 1 2 (fun m => m) ≠ none :=
  @C5_no_remove_panic ['A', 'A'] (by decide) _ (rmIndex_new_eq (by decide))
    ['A', 'A'] (by decide) 1 (by decide) (by decide) 2 (fun m => m)
    (fun m => List.Perm.refl m)


end ReadMapping
